import Mathlib

/-!
# Deep merge engine of `kpango/merge` (src/merge.go)

A shallow embedding of the reflection-driven merge engine.  The Go code works on
`reflect.Value` handles over ordinary Go memory, so the embedding has three layers:

* a small model of Go memory: a store of allocated variables (`St.objs`), a store of map
  objects (`St.maps`), values (`Val`) with references into the stores;
* the part of package `reflect` the engine calls (`RV` and its operations), including the
  flags that decide `CanAddr` / `CanSet` and the run-time panics of `reflect`;
* the engine itself: `merge.deepMerge`, the six default handlers installed by `New`,
  `merge.Merge` and the package-level `Merge`, transliterated statement by statement.

Conventions.
* Recursion of `deepMerge` is bounded by a fuel argument; `Res.timeout` is the outcome of a
  run that needs more fuel than it was given.
* A Go panic is the outcome `Res.panic`; a returned `error` is an ordinary value
  (`Option MergeErr`), returned together with the store as it stands.
* The `visited` argument of the Go code is a map shared by reference through one top-level
  call; it is the component `St.visited` of the state.
* An address (`uintptr`) is a pair of a block and an offset counted in leaf cells, so that a
  record and its first field, or an array and its first element, have the same address.
* The loop variable `src` of `Merge` is one variable, assigned in every iteration (the range
  loop of Go before 1.22; from 1.22 on the variable of an iteration is a heap cell that can
  be reused once the previous one is unreachable, and the visited set holds addresses as
  integers): every operand after the first is stored in the same block.
* Map keys are scalars; map iteration order is the order of the stored entry list, and
  statements that must hold for every iteration order quantify over that list.
-/

namespace GoMerge

/-! ## Types and values -/

/-- The kinds of `reflect.Kind` the engine distinguishes. -/
inductive Kind
  | Invalid | Bool | Int | String | Interface | Ptr | Slice | Array | Map | Struct
deriving DecidableEq, Repr

/-- Go types.  Record types are declared types, identified by name; their fields are looked
up in a declaration table, which is how recursive record types are expressed. -/
inductive Ty
  | int | string | bool | iface
  | ptr (elem : Ty)
  | slice (elem : Ty)
  | array (len : Nat) (elem : Ty)
  | map (key elem : Ty)
  | struct (name : String)
deriving DecidableEq, Repr

/-- The `reflect.Kind` of a type. -/
def Ty.kind : Ty → Kind
  | .int => .Int
  | .string => .String
  | .bool => .Bool
  | .iface => .Interface
  | .ptr _ => .Ptr
  | .slice _ => .Slice
  | .array _ _ => .Array
  | .map _ _ => .Map
  | .struct _ => .Struct

/-- A storage location: an allocated block and a path of field / element indices into it. -/
structure Loc where
  block : Nat
  path : List Nat
deriving DecidableEq, Repr

/-- A slice header: backing array block, offset of the first element, length, capacity. -/
structure SliceHdr where
  block : Nat
  off : Nat
  len : Nat
  cap : Nat
deriving DecidableEq, Repr

/-- Map keys (scalars). -/
inductive Key
  | int (n : Int)
  | str (s : String)
  | bool (b : Bool)
deriving DecidableEq, Repr

/-- Go values as they are stored in memory. -/
inductive Val
  | int (n : Int)
  | str (s : String)
  | bool (b : Bool)
  | nilIface
  | iface (dynTy : Ty) (dyn : Val)
  | ptr (target : Option Loc)
  | slice (hdr : Option SliceHdr)
  | array (elems : List Val)
  | map (id : Option Nat)
  | struct (fields : List Val)
deriving Repr

mutual
/-- Decision procedure for equality of values. -/
def Val.decEq : (a b : Val) → Decidable (a = b)
  | .int x0, .int y0 =>
    match (inferInstance : Decidable (x0 = y0)) with
    | isFalse h0 => isFalse (fun h => h0 (by injection h with e0))
    | isTrue h0 =>
      isTrue (by rw [h0])
  | .int _, .str _ => isFalse (fun h => Val.noConfusion h)
  | .int _, .bool _ => isFalse (fun h => Val.noConfusion h)
  | .int _, .nilIface => isFalse (fun h => Val.noConfusion h)
  | .int _, .iface _ _ => isFalse (fun h => Val.noConfusion h)
  | .int _, .ptr _ => isFalse (fun h => Val.noConfusion h)
  | .int _, .slice _ => isFalse (fun h => Val.noConfusion h)
  | .int _, .array _ => isFalse (fun h => Val.noConfusion h)
  | .int _, .map _ => isFalse (fun h => Val.noConfusion h)
  | .int _, .struct _ => isFalse (fun h => Val.noConfusion h)
  | .str _, .int _ => isFalse (fun h => Val.noConfusion h)
  | .str x0, .str y0 =>
    match (inferInstance : Decidable (x0 = y0)) with
    | isFalse h0 => isFalse (fun h => h0 (by injection h with e0))
    | isTrue h0 =>
      isTrue (by rw [h0])
  | .str _, .bool _ => isFalse (fun h => Val.noConfusion h)
  | .str _, .nilIface => isFalse (fun h => Val.noConfusion h)
  | .str _, .iface _ _ => isFalse (fun h => Val.noConfusion h)
  | .str _, .ptr _ => isFalse (fun h => Val.noConfusion h)
  | .str _, .slice _ => isFalse (fun h => Val.noConfusion h)
  | .str _, .array _ => isFalse (fun h => Val.noConfusion h)
  | .str _, .map _ => isFalse (fun h => Val.noConfusion h)
  | .str _, .struct _ => isFalse (fun h => Val.noConfusion h)
  | .bool _, .int _ => isFalse (fun h => Val.noConfusion h)
  | .bool _, .str _ => isFalse (fun h => Val.noConfusion h)
  | .bool x0, .bool y0 =>
    match (inferInstance : Decidable (x0 = y0)) with
    | isFalse h0 => isFalse (fun h => h0 (by injection h with e0))
    | isTrue h0 =>
      isTrue (by rw [h0])
  | .bool _, .nilIface => isFalse (fun h => Val.noConfusion h)
  | .bool _, .iface _ _ => isFalse (fun h => Val.noConfusion h)
  | .bool _, .ptr _ => isFalse (fun h => Val.noConfusion h)
  | .bool _, .slice _ => isFalse (fun h => Val.noConfusion h)
  | .bool _, .array _ => isFalse (fun h => Val.noConfusion h)
  | .bool _, .map _ => isFalse (fun h => Val.noConfusion h)
  | .bool _, .struct _ => isFalse (fun h => Val.noConfusion h)
  | .nilIface, .int _ => isFalse (fun h => Val.noConfusion h)
  | .nilIface, .str _ => isFalse (fun h => Val.noConfusion h)
  | .nilIface, .bool _ => isFalse (fun h => Val.noConfusion h)
  | .nilIface, .nilIface => isTrue rfl
  | .nilIface, .iface _ _ => isFalse (fun h => Val.noConfusion h)
  | .nilIface, .ptr _ => isFalse (fun h => Val.noConfusion h)
  | .nilIface, .slice _ => isFalse (fun h => Val.noConfusion h)
  | .nilIface, .array _ => isFalse (fun h => Val.noConfusion h)
  | .nilIface, .map _ => isFalse (fun h => Val.noConfusion h)
  | .nilIface, .struct _ => isFalse (fun h => Val.noConfusion h)
  | .iface _ _, .int _ => isFalse (fun h => Val.noConfusion h)
  | .iface _ _, .str _ => isFalse (fun h => Val.noConfusion h)
  | .iface _ _, .bool _ => isFalse (fun h => Val.noConfusion h)
  | .iface _ _, .nilIface => isFalse (fun h => Val.noConfusion h)
  | .iface x0 x1, .iface y0 y1 =>
    match (inferInstance : Decidable (x0 = y0)) with
    | isFalse h0 => isFalse (fun h => h0 (by injection h with e0 e1))
    | isTrue h0 =>
      match Val.decEq x1 y1 with
      | isFalse h1 => isFalse (fun h => h1 (by injection h with e0 e1))
      | isTrue h1 =>
        isTrue (by rw [h0, h1])
  | .iface _ _, .ptr _ => isFalse (fun h => Val.noConfusion h)
  | .iface _ _, .slice _ => isFalse (fun h => Val.noConfusion h)
  | .iface _ _, .array _ => isFalse (fun h => Val.noConfusion h)
  | .iface _ _, .map _ => isFalse (fun h => Val.noConfusion h)
  | .iface _ _, .struct _ => isFalse (fun h => Val.noConfusion h)
  | .ptr _, .int _ => isFalse (fun h => Val.noConfusion h)
  | .ptr _, .str _ => isFalse (fun h => Val.noConfusion h)
  | .ptr _, .bool _ => isFalse (fun h => Val.noConfusion h)
  | .ptr _, .nilIface => isFalse (fun h => Val.noConfusion h)
  | .ptr _, .iface _ _ => isFalse (fun h => Val.noConfusion h)
  | .ptr x0, .ptr y0 =>
    match (inferInstance : Decidable (x0 = y0)) with
    | isFalse h0 => isFalse (fun h => h0 (by injection h with e0))
    | isTrue h0 =>
      isTrue (by rw [h0])
  | .ptr _, .slice _ => isFalse (fun h => Val.noConfusion h)
  | .ptr _, .array _ => isFalse (fun h => Val.noConfusion h)
  | .ptr _, .map _ => isFalse (fun h => Val.noConfusion h)
  | .ptr _, .struct _ => isFalse (fun h => Val.noConfusion h)
  | .slice _, .int _ => isFalse (fun h => Val.noConfusion h)
  | .slice _, .str _ => isFalse (fun h => Val.noConfusion h)
  | .slice _, .bool _ => isFalse (fun h => Val.noConfusion h)
  | .slice _, .nilIface => isFalse (fun h => Val.noConfusion h)
  | .slice _, .iface _ _ => isFalse (fun h => Val.noConfusion h)
  | .slice _, .ptr _ => isFalse (fun h => Val.noConfusion h)
  | .slice x0, .slice y0 =>
    match (inferInstance : Decidable (x0 = y0)) with
    | isFalse h0 => isFalse (fun h => h0 (by injection h with e0))
    | isTrue h0 =>
      isTrue (by rw [h0])
  | .slice _, .array _ => isFalse (fun h => Val.noConfusion h)
  | .slice _, .map _ => isFalse (fun h => Val.noConfusion h)
  | .slice _, .struct _ => isFalse (fun h => Val.noConfusion h)
  | .array _, .int _ => isFalse (fun h => Val.noConfusion h)
  | .array _, .str _ => isFalse (fun h => Val.noConfusion h)
  | .array _, .bool _ => isFalse (fun h => Val.noConfusion h)
  | .array _, .nilIface => isFalse (fun h => Val.noConfusion h)
  | .array _, .iface _ _ => isFalse (fun h => Val.noConfusion h)
  | .array _, .ptr _ => isFalse (fun h => Val.noConfusion h)
  | .array _, .slice _ => isFalse (fun h => Val.noConfusion h)
  | .array x0, .array y0 =>
    match Val.decEqList x0 y0 with
    | isFalse h0 => isFalse (fun h => h0 (by injection h with e0))
    | isTrue h0 =>
      isTrue (by rw [h0])
  | .array _, .map _ => isFalse (fun h => Val.noConfusion h)
  | .array _, .struct _ => isFalse (fun h => Val.noConfusion h)
  | .map _, .int _ => isFalse (fun h => Val.noConfusion h)
  | .map _, .str _ => isFalse (fun h => Val.noConfusion h)
  | .map _, .bool _ => isFalse (fun h => Val.noConfusion h)
  | .map _, .nilIface => isFalse (fun h => Val.noConfusion h)
  | .map _, .iface _ _ => isFalse (fun h => Val.noConfusion h)
  | .map _, .ptr _ => isFalse (fun h => Val.noConfusion h)
  | .map _, .slice _ => isFalse (fun h => Val.noConfusion h)
  | .map _, .array _ => isFalse (fun h => Val.noConfusion h)
  | .map x0, .map y0 =>
    match (inferInstance : Decidable (x0 = y0)) with
    | isFalse h0 => isFalse (fun h => h0 (by injection h with e0))
    | isTrue h0 =>
      isTrue (by rw [h0])
  | .map _, .struct _ => isFalse (fun h => Val.noConfusion h)
  | .struct _, .int _ => isFalse (fun h => Val.noConfusion h)
  | .struct _, .str _ => isFalse (fun h => Val.noConfusion h)
  | .struct _, .bool _ => isFalse (fun h => Val.noConfusion h)
  | .struct _, .nilIface => isFalse (fun h => Val.noConfusion h)
  | .struct _, .iface _ _ => isFalse (fun h => Val.noConfusion h)
  | .struct _, .ptr _ => isFalse (fun h => Val.noConfusion h)
  | .struct _, .slice _ => isFalse (fun h => Val.noConfusion h)
  | .struct _, .array _ => isFalse (fun h => Val.noConfusion h)
  | .struct _, .map _ => isFalse (fun h => Val.noConfusion h)
  | .struct x0, .struct y0 =>
    match Val.decEqList x0 y0 with
    | isFalse h0 => isFalse (fun h => h0 (by injection h with e0))
    | isTrue h0 =>
      isTrue (by rw [h0])
/-- Decision procedure for equality of lists of values. -/
def Val.decEqList : (as bs : List Val) → Decidable (as = bs)
  | [], [] => isTrue rfl
  | [], _ :: _ => isFalse (fun h => List.noConfusion h)
  | _ :: _, [] => isFalse (fun h => List.noConfusion h)
  | a :: as, b :: bs =>
    match Val.decEq a b with
    | isFalse h0 => isFalse (fun h => h0 (by injection h with e0 e1))
    | isTrue h0 =>
      match Val.decEqList as bs with
      | isFalse h1 => isFalse (fun h => h1 (by injection h with e0 e1))
      | isTrue h1 => isTrue (by rw [h0, h1])
end

instance : DecidableEq Val := Val.decEq

/-- A field of a declared record type. -/
structure FieldDecl where
  name : String
  exported : Bool
  ty : Ty
deriving DecidableEq, Repr

/-- The record declarations of the program. -/
abbrev Decls := List (String × List FieldDecl)

/-- The fields of a declared record type. -/
def fieldsOf (decls : Decls) (name : String) : List FieldDecl :=
  match decls.lookup name with
  | some fs => fs
  | none => []

/-- Zero value of a type, given the zero value of each record type. -/
def zeroTy (rec : String → Val) : Ty → Val
  | .int => .int 0
  | .string => .str ""
  | .bool => .bool false
  | .iface => .nilIface
  | .ptr _ => .ptr none
  | .slice _ => .slice none
  | .array n e => .array (List.replicate n (zeroTy rec e))
  | .map _ _ => .map none
  | .struct name => rec name

/-- Zero value of a type, unfolding record declarations at most `depth` levels deep. -/
def zeroVal (decls : Decls) : Nat → Ty → Val
  | 0, ty => zeroTy (fun _ => .struct []) ty
  | depth + 1, ty =>
    zeroTy (fun name => .struct ((fieldsOf decls name).map (fun fd => zeroVal decls depth fd.ty))) ty

/-- Zero value of a type (records nest by value less deep than there are declarations). -/
def zeroOf (decls : Decls) (ty : Ty) : Val :=
  zeroVal decls decls.length ty

mutual
/-- Value test behind `reflect.Value.IsZero`. -/
def Val.isZero : Val → Bool
  | .int n => n == 0
  | .str s => s == ""
  | .bool b => !b
  | .nilIface => true
  | .iface _ _ => false
  | .ptr t => t.isNone
  | .slice h => h.isNone
  | .array es => Val.allZero es
  | .map id => id.isNone
  | .struct fs => Val.allZero fs
/-- All values of a list are zero. -/
def Val.allZero : List Val → Bool
  | [] => true
  | v :: vs => v.isZero && Val.allZero vs
end

mutual
/-- Size of a value in leaf cells. -/
def Val.size : Val → Nat
  | .array es => Val.sizeList es
  | .struct fs => Val.sizeList fs
  | _ => 1
/-- Size of a list of values in leaf cells. -/
def Val.sizeList : List Val → Nat
  | [] => 0
  | v :: vs => v.size + Val.sizeList vs
end

/-- The components of a composite value stored in line. -/
def Val.children : Val → List Val
  | .array es => es
  | .struct fs => fs
  | _ => []

/-- Replace the components of a composite value. -/
def Val.withChildren : Val → List Val → Val
  | .array _, cs => .array cs
  | .struct _, cs => .struct cs
  | v, _ => v

/-- The value at a path inside a value. -/
def Val.get : Val → List Nat → Option Val
  | v, [] => some v
  | v, i :: rest =>
    match v.children[i]? with
    | some c => c.get rest
    | none => none

/-- Overwrite the value at a path inside a value. -/
def Val.set : Val → List Nat → Val → Option Val
  | _, [], w => some w
  | v, i :: rest, w =>
    match v.children[i]? with
    | some c =>
      match c.set rest w with
      | some c2 => some (v.withChildren (v.children.set i c2))
      | none => none
    | none => none

/-- Offset, in leaf cells, of a path inside a value. -/
def Val.offsetOf : Val → List Nat → Nat
  | _, [] => 0
  | v, i :: rest =>
    Val.sizeList (v.children.take i) +
      (match v.children[i]? with
       | some c => c.offsetOf rest
       | none => 0)

/-! ## Memory and the execution monad -/

/-- Memory, plus the visited set of the running top-level call. -/
structure St where
  objs : List Val
  maps : List (List (Key × Val))
  visited : List (Nat × Nat)
deriving DecidableEq, Repr

/-- Outcome of a run. -/
inductive Res (α : Type)
  | ok (a : α) (s : St)
  | panic (msg : String)
  | timeout
deriving DecidableEq, Repr

/-- Computations over memory that may panic. -/
abbrev M (α : Type) : Type := St → Res α

/-- Sequencing of computations. -/
def M.bind {α β : Type} (x : M α) (f : α → M β) : M β := fun s =>
  match x s with
  | .ok a s2 => f a s2
  | .panic msg => .panic msg
  | .timeout => .timeout

/-- A computation that returns without touching memory. -/
def M.pure {α : Type} (a : α) : M α := fun s => .ok a s

instance : Monad M where
  pure := M.pure
  bind := M.bind

/-- A Go panic. -/
def throwPanic {α : Type} (msg : String) : M α := fun _ => .panic msg

/-- The value stored at a location of a memory, if any. -/
def St.read (s : St) (l : Loc) : Option Val :=
  match s.objs[l.block]? with
  | some root => root.get l.path
  | none => none

/-- The memory after overwriting the value stored at a location, if the location exists. -/
def St.write (s : St) (l : Loc) (v : Val) : Option St :=
  match s.objs[l.block]? with
  | some root =>
    match root.set l.path v with
    | some root2 => some { s with objs := s.objs.set l.block root2 }
    | none => none
  | none => none

/-- Read the value stored at a location. -/
def readLoc (l : Loc) : M Val := fun s =>
  match s.read l with
  | some v => .ok v s
  | none => .panic "invalid memory address"

/-- Overwrite the value stored at a location. -/
def writeLoc (l : Loc) (v : Val) : M Unit := fun s =>
  match s.write l v with
  | some s2 => .ok () s2
  | none => .panic "invalid memory address"

/-- The memory extended by a new block holding `v`. -/
def St.push (s : St) (v : Val) : St :=
  { s with objs := s.objs ++ [v] }

/-- The memory with an empty visited set. -/
def St.clearVisited (s : St) : St :=
  { s with visited := [] }

/-- Allocate a new variable holding `v`; returns its block. -/
def alloc (v : Val) : M Nat := fun s =>
  .ok s.objs.length (s.push v)

/-- The memory extended by a new, empty map object. -/
def St.pushMap (s : St) : St :=
  { s with maps := s.maps ++ [[]] }

/-- Allocate a new, empty map object; returns its identity. -/
def allocMap : M Nat := fun s =>
  .ok s.maps.length s.pushMap

/-- The entries of a map object. -/
def readMap (id : Nat) : M (List (Key × Val)) := fun s =>
  match s.maps[id]? with
  | some es => .ok es s
  | none => .panic "invalid memory address"

/-- The memory with the entries of map `id` replaced by `es`. -/
def St.setMap (s : St) (id : Nat) (es : List (Key × Val)) : St :=
  { s with maps := s.maps.set id es }

/-- Replace the entries of a map object. -/
def writeMap (id : Nat) (es : List (Key × Val)) : M Unit := fun s =>
  .ok () (s.setMap id es)

/-- Look a key up in an entry list. -/
def lookupKey (k : Key) : List (Key × Val) → Option Val
  | [] => none
  | (k2, v) :: es => if k2 = k then some v else lookupKey k es

/-- Store a value under a key in an entry list: overwrite in place, or add at the end. -/
def upsertKey (k : Key) (v : Val) : List (Key × Val) → List (Key × Val)
  | [] => [(k, v)]
  | (k2, v2) :: es => if k2 = k then (k, v) :: es else (k2, v2) :: upsertKey k v es

/-- Remove a key from an entry list. -/
def deleteKey (k : Key) : List (Key × Val) → List (Key × Val)
  | [] => []
  | (k2, v2) :: es => if k2 = k then deleteKey k es else (k2, v2) :: deleteKey k es

/-! ## The fragment of package `reflect` used by the engine -/

/-- A `reflect.Value`: the zero Value, a value that is not addressable (it holds a copy), or
an addressable value (it denotes a location).  `ro` is the read-only flag of values reached
through unexported fields. -/
inductive RV
  | invalid
  | rval (ty : Ty) (v : Val) (ro : Bool)
  | lval (ty : Ty) (loc : Loc) (ro : Bool)
deriving DecidableEq, Repr

/-- Go: `v.IsValid()`. -/
def RV.IsValid : RV → Bool
  | .invalid => false
  | _ => true

/-- Go: `v.Kind()`; the zero Value has kind `Invalid`. -/
def RV.Kind : RV → Kind
  | .invalid => .Invalid
  | .rval ty _ _ => ty.kind
  | .lval ty _ _ => ty.kind

/-- Go: `v.Type()`; panics on the zero Value. -/
def RV.Type : RV → M Ty
  | .invalid => throwPanic "reflect: call of reflect.Value.Type on zero Value"
  | .rval ty _ _ => pure ty
  | .lval ty _ _ => pure ty

/-- Go: `v.CanAddr()`. -/
def RV.CanAddr : RV → Bool
  | .lval _ _ _ => true
  | _ => false

/-- Go: `v.CanSet()`: addressable and not reached through an unexported field. -/
def RV.CanSet : RV → Bool
  | .lval _ _ ro => !ro
  | _ => false

/-- The read-only flag of a value. -/
def RV.isRO : RV → Bool
  | .invalid => false
  | .rval _ _ ro => ro
  | .lval _ _ ro => ro

/-- The Go value a `reflect.Value` currently denotes. -/
def RV.load : RV → M Val
  | .invalid => throwPanic "reflect: call on zero Value"
  | .rval _ v _ => pure v
  | .lval _ loc _ => readLoc loc

/-- Go: `v.IsZero()`. -/
def RV.IsZero (v : RV) : M Bool := do
  let x ← v.load
  pure x.isZero

/-- Go: `v.IsNil()`; panics unless the kind is a reference kind. -/
def RV.IsNil (v : RV) : M Bool := do
  let x ← v.load
  match x with
  | .ptr t => pure t.isNone
  | .slice h => pure h.isNone
  | .map id => pure id.isNone
  | .nilIface => pure true
  | .iface _ _ => pure false
  | _ => throwPanic "reflect: call of reflect.Value.IsNil on non-reference Value"

/-- Go: `v.Elem()`: the referent of a pointer (the zero Value for a nil pointer), or the
dynamic value of an interface. -/
def RV.Elem (v : RV) : M RV := do
  let x ← v.load
  match v, x with
  | .rval (.ptr e) _ ro, .ptr (some l) => pure (.lval e l ro)
  | .lval (.ptr e) _ ro, .ptr (some l) => pure (.lval e l ro)
  | .rval (.ptr _) _ _, .ptr none => pure .invalid
  | .lval (.ptr _) _ _, .ptr none => pure .invalid
  | .rval .iface _ ro, .iface t d => pure (.rval t d ro)
  | .lval .iface _ ro, .iface t d => pure (.rval t d ro)
  | .rval .iface _ _, .nilIface => pure .invalid
  | .lval .iface _ _, .nilIface => pure .invalid
  | _, _ => throwPanic "reflect: call of reflect.Value.Elem on non-pointer Value"

/-- Go: `v.Addr().Pointer()`: the address of an addressable value. -/
def RV.Pointer : RV → M (Nat × Nat)
  | .lval _ loc _ => fun s =>
    match s.objs[loc.block]? with
    | some root => .ok (loc.block, root.offsetOf loc.path) s
    | none => .panic "invalid memory address"
  | _ => throwPanic "reflect.Value.Addr of unaddressable value"

/-- Go: `v.NumField()`; panics unless the kind is `Struct`. -/
def RV.NumField (decls : Decls) (v : RV) : M Nat :=
  match v with
  | .rval (.struct name) _ _ => pure (fieldsOf decls name).length
  | .lval (.struct name) _ _ => pure (fieldsOf decls name).length
  | _ => throwPanic "reflect: call of reflect.Value.NumField on non-struct Value"

/-- Go: `v.Type().Field(i).Name`. -/
def fieldName (decls : Decls) (ty : Ty) (i : Nat) : String :=
  match ty with
  | .struct name =>
    match (fieldsOf decls name)[i]? with
    | some fd => fd.name
    | none => ""
  | _ => ""

/-- Go: `v.Field(i)`: addressability is inherited, an unexported field is read-only. -/
def RV.Field (decls : Decls) (v : RV) (i : Nat) : M RV :=
  match v with
  | .lval (.struct name) loc ro =>
    match (fieldsOf decls name)[i]? with
    | some fd => pure (.lval fd.ty { loc with path := loc.path ++ [i] } (ro || !fd.exported))
    | none => throwPanic "reflect: Field index out of range"
  | .rval (.struct name) x ro =>
    match (fieldsOf decls name)[i]?, x.children[i]? with
    | some fd, some c => pure (.rval fd.ty c (ro || !fd.exported))
    | _, _ => throwPanic "reflect: Field index out of range"
  | _ => throwPanic "reflect: call of reflect.Value.Field on non-struct Value"

/-- Go: `v.Len()`; the length of an array is the length its type declares. -/
def RV.Len (v : RV) : M Nat := do
  match (← v.Type) with
  | .array n _ => pure n
  | _ => do
    let x ← v.load
    match x with
    | .slice (some h) => pure h.len
    | .slice none => pure 0
    | .str s => pure s.utf8ByteSize
    | .map none => pure 0
    | .map (some id) => do
      let es ← readMap id
      pure es.length
    | _ => throwPanic "reflect: call of reflect.Value.Len on non-sequence Value"

/-- Go: `v.Index(i)`: an element of a slice is always addressable, an element of an array
is addressable when the array is. -/
def RV.Index (v : RV) (i : Nat) : M RV := do
  let x ← v.load
  match v, x with
  | .rval (.slice e) _ ro, .slice (some h) =>
    if i < h.len then pure (.lval e ⟨h.block, [h.off + i]⟩ ro)
    else throwPanic "reflect: slice index out of range"
  | .lval (.slice e) _ ro, .slice (some h) =>
    if i < h.len then pure (.lval e ⟨h.block, [h.off + i]⟩ ro)
    else throwPanic "reflect: slice index out of range"
  | .rval (.slice _) _ _, .slice none => throwPanic "reflect: slice index out of range"
  | .lval (.slice _) _ _, .slice none => throwPanic "reflect: slice index out of range"
  | .lval (.array n e) loc ro, _ =>
    if i < n then pure (.lval e { loc with path := loc.path ++ [i] } ro)
    else throwPanic "reflect: array index out of range"
  | .rval (.array _ e) _ ro, .array es =>
    match es[i]? with
    | some c => pure (.rval e c ro)
    | none => throwPanic "reflect: array index out of range"
  | _, _ => throwPanic "reflect: call of reflect.Value.Index on non-sequence Value"

/-- Go: `dst.Set(src)`; panics unless `dst` can be set and `src` is assignable to it. -/
def RV.Set (dst src : RV) : M Unit :=
  match dst with
  | .lval dty loc false =>
    match src with
    | .invalid => throwPanic "reflect: call of reflect.Value.Set on zero Value"
    | _ =>
      if src.isRO then throwPanic "reflect: reflect.Value.Set using value obtained using unexported field"
      else do
        let sty ← src.Type
        let x ← src.load
        if sty = dty then writeLoc loc x
        else if dty = .iface then writeLoc loc (.iface sty x)
        else throwPanic "reflect.Set: value is not assignable"
  | .lval _ _ true => throwPanic "reflect: reflect.Value.Set using value obtained using unexported field"
  | _ => throwPanic "reflect: reflect.Value.Set using unaddressable value"

/-- The elements of a slice. -/
def sliceElems (h : Option SliceHdr) : M (List Val) :=
  match h with
  | none => pure []
  | some h => do
    let root ← readLoc ⟨h.block, []⟩
    pure ((root.children.drop h.off).take h.len)

/-- Overwrite consecutive cells of a list starting at position `i`. -/
def writeCells : List Val → Nat → List Val → List Val
  | cells, _, [] => cells
  | cells, i, v :: vs => writeCells (cells.set i v) (i + 1) vs

/-- Go: `reflect.MakeSlice(typ, len, cap)` with `len = cap`. -/
def MakeSlice (decls : Decls) (typ : Ty) (len : Nat) : M RV :=
  match typ with
  | .slice e => do
    let b ← alloc (.array (List.replicate len (zeroOf decls e)))
    pure (.rval typ (.slice (some ⟨b, 0, len, len⟩)) false)
  | _ => throwPanic "reflect.MakeSlice of non-slice type"

/-- Go: `reflect.AppendSlice(s, t)`: within the capacity of `s` the new elements are written
into the backing array of `s`; otherwise a new backing array is allocated. -/
def AppendSlice (s t : RV) : M RV := do
  let sx ← s.load
  let tx ← t.load
  match s.Kind, sx, tx with
  | .Slice, .slice sh, .slice th =>
    if s.isRO then throwPanic "reflect: reflect.Value.AppendSlice using value obtained using unexported field"
    else do
      let sty ← s.Type
      let tty ← t.Type
      if sty ≠ tty then throwPanic "reflect.AppendSlice: type mismatch"
      else do
        let extra ← sliceElems th
        match sh with
        | some h =>
          if h.len + extra.length ≤ h.cap then do
            let root ← readLoc ⟨h.block, []⟩
            writeLoc ⟨h.block, []⟩ (root.withChildren (writeCells root.children (h.off + h.len) extra))
            pure (.rval sty (.slice (some { h with len := h.len + extra.length })) false)
          else do
            let old ← sliceElems (some h)
            let b ← alloc (.array (old ++ extra))
            pure (.rval sty (.slice (some ⟨b, 0, h.len + extra.length, h.len + extra.length⟩)) false)
        | none =>
          if extra.length = 0 then pure (.rval sty (.slice none) false)
          else do
            let b ← alloc (.array extra)
            pure (.rval sty (.slice (some ⟨b, 0, extra.length, extra.length⟩)) false)
  | _, _, _ => throwPanic "reflect: call of reflect.AppendSlice on non-slice Value"

/-- Go: `reflect.MakeMapWithSize(typ, n)`; the size is a capacity hint only. -/
def MakeMapWithSize (typ : Ty) (_n : Nat) : M RV :=
  match typ with
  | .map _ _ => do
    let id ← allocMap
    pure (.rval typ (.map (some id)) false)
  | _ => throwPanic "reflect.MakeMapWithSize of non-map type"

/-- Go: `reflect.New(typ).Elem()`: a fresh, settable variable holding the zero value. -/
def NewElem (decls : Decls) (typ : Ty) : M RV := do
  let b ← alloc (zeroOf decls typ)
  pure (.lval typ ⟨b, []⟩ false)

/-- Go: `v.Type().Elem()` of a map, slice, array or pointer type. -/
def Ty.Elem : Ty → M Ty
  | .map _ e => pure e
  | .slice e => pure e
  | .array _ e => pure e
  | .ptr e => pure e
  | _ => throwPanic "reflect: Elem of invalid type"

/-- Go: `v.MapKeys()`. -/
def RV.MapKeys (v : RV) : M (List Key) := do
  let x ← v.load
  match x with
  | .map none => pure []
  | .map (some id) => do
    let es ← readMap id
    pure (es.map Prod.fst)
  | _ => throwPanic "reflect: call of reflect.Value.MapKeys on non-map Value"

/-- Go: `v.MapIndex(key)`: a copy of the stored value, neither addressable nor settable; the
zero Value when the key is absent. -/
def RV.MapIndex (v : RV) (key : Key) : M RV := do
  let x ← v.load
  match v.Kind, x with
  | .Map, .map none => pure .invalid
  | .Map, .map (some id) => do
    let es ← readMap id
    let ety ← (← v.Type).Elem
    match lookupKey key es with
    | some e => pure (.rval ety e v.isRO)
    | none => pure .invalid
  | _, _ => throwPanic "reflect: call of reflect.Value.MapIndex on non-map Value"

/-- Go: `v.SetMapIndex(key, elem)`; a zero Value `elem` deletes the key. -/
def RV.SetMapIndex (v : RV) (key : Key) (elem : RV) : M Unit := do
  let x ← v.load
  match v.Kind, x with
  | .Map, .map mid =>
    if v.isRO || elem.isRO then
      throwPanic "reflect: reflect.Value.SetMapIndex using value obtained using unexported field"
    else
      match mid, elem with
      | none, _ => throwPanic "assignment to entry in nil map"
      | some id, .invalid => do
        let es ← readMap id
        writeMap id (deleteKey key es)
      | some id, _ => do
        let e ← elem.load
        let es ← readMap id
        writeMap id (upsertKey key e es)
  | _, _ => throwPanic "reflect: call of reflect.Value.SetMapIndex on non-map Value"

/-- Go: `fmt.Sprintf` of a map key with the verb `%s`. -/
def fmtKey : Key → String
  | .str s => s
  | .int n => "%!s(int=" ++ toString n ++ ")"
  | .bool b => "%!s(bool=" ++ toString b ++ ")"

/-! ## The engine (src/merge.go) -/

/-- The errors the engine builds with `fmt.Errorf`, with the arguments of the format. -/
inductive MergeErr
  | typesMismatch (fieldPath : String) (dType sType : Ty) (sKind dKind : Kind)
  | numFields (fieldPath : String) (dnum snum : Nat)
  | arrayLengths (fieldPath : String) (dlen slen : Nat)
  | inField (nf : String) (cause : MergeErr)
  | inSlice (nf : String) (cause : MergeErr)
  | inArray (nf : String) (cause : MergeErr)
  | inMap (nf : String) (cause : MergeErr)
deriving DecidableEq, Repr

/-- The engine method a handler may call back: `m.deepMerge(dst, src, visited, fieldPath)`. -/
abbrev Engine := RV → RV → String → M (Option MergeErr)

/-- A handler `func(m, dst, src, visited, fieldPath) error`; `m` is given as its
`deepMerge` method, `visited` lives in the state. -/
abbrev Handler := Engine → RV → RV → String → M (Option MergeErr)

/-- Go: `type merge[T any] struct`, the six handler slots. -/
structure merge where
  pointerMerge : Handler
  structMerge : Handler
  sliceMerge : Handler
  arrayMerge : Handler
  mapMerge : Handler
  defaultMerge : Handler

/-- Go: `type Option[T any] func(*merge[T])`. -/
abbrev Opt := merge → merge

/-- Go: `WithPointerFunc`. -/
def WithPointerFunc (f : Handler) : Opt := fun m => { m with pointerMerge := f }

/-- Go: `WithStructFunc`. -/
def WithStructFunc (f : Handler) : Opt := fun m => { m with structMerge := f }

/-- Go: `WithSliceFunc`. -/
def WithSliceFunc (f : Handler) : Opt := fun m => { m with sliceMerge := f }

/-- Go: `WithArrayFunc`. -/
def WithArrayFunc (f : Handler) : Opt := fun m => { m with arrayMerge := f }

/-- Go: `WithMapFunc`. -/
def WithMapFunc (f : Handler) : Opt := fun m => { m with mapMerge := f }

/-- Go: `WithDefaultFunc`. -/
def WithDefaultFunc (f : Handler) : Opt := fun m => { m with defaultMerge := f }

/-- Go: `visited[addr]`. -/
def isVisited (addr : Nat × Nat) : M Bool := fun s => .ok (s.visited.contains addr) s

/-- The memory with one more visited address. -/
def St.mark (s : St) (addr : Nat × Nat) : St :=
  { s with visited := addr :: s.visited }

/-- Go: `visited[addr] = true`. -/
def markVisited (addr : Nat × Nat) : M Unit := fun s =>
  .ok () (s.mark addr)

/-- The type reconciliation of `deepMerge` (the `if dType != sType` switch): the possibly
unwrapped pair, or the type-mismatch error. -/
def reconcile (dst src : RV) (fieldPath : String) : M (Except MergeErr (RV × RV)) := do
  let dType ← dst.Type
  let sType ← src.Type
  if dType ≠ sType then
    let c1 ← (if src.Kind = .Ptr then do
                let e ← src.Elem
                let et ← e.Type
                pure (decide (dType = et))
              else pure false)
    if c1 then
      let e ← src.Elem
      pure (.ok (dst, e))
    else
      let c2 ← (if dst.Kind = .Ptr then do
                  let e ← dst.Elem
                  let et ← e.Type
                  pure (decide (et = sType))
                else pure false)
      if c2 then
        let e ← dst.Elem
        pure (.ok (e, src))
      else
        pure (.error (.typesMismatch fieldPath dType sType src.Kind dst.Kind))
  else
    pure (.ok (dst, src))

/-- Go: `func (m *merge[T]) deepMerge(dst, src reflect.Value, visited, fieldPath) error`. -/
def merge.deepMerge (m : merge) : Nat → Engine
  | 0, _, _, _ => fun _ => .timeout
  | fuel + 1, dst, src, fieldPath => do
    if !src.IsValid then return none
    if (← src.IsZero) then return none
    match (← reconcile dst src fieldPath) with
    | .error e => return some e
    | .ok (dst, src) =>
      let sKind := src.Kind
      let src ← (if sKind = .Ptr then src.Elem else pure src)
      let seen ← (if sKind = .Struct && src.CanAddr then do
                    let addr ← src.Pointer
                    if (← isVisited addr) then pure true
                    else do
                      markVisited addr
                      pure false
                  else pure false)
      if seen then return none
      match dst.Kind with
      | .Ptr => m.pointerMerge (m.deepMerge fuel) dst src fieldPath
      | .Struct => m.structMerge (m.deepMerge fuel) dst src fieldPath
      | .Slice => m.sliceMerge (m.deepMerge fuel) dst src fieldPath
      | .Array => m.arrayMerge (m.deepMerge fuel) dst src fieldPath
      | .Map => m.mapMerge (m.deepMerge fuel) dst src fieldPath
      | _ => m.defaultMerge (m.deepMerge fuel) dst src fieldPath

/-- A Go loop whose body returns an error: run the body on each item in turn, stop at the
first error. -/
def forEach {α : Type} (body : α → M (Option MergeErr)) : List α → M (Option MergeErr)
  | [] => pure none
  | x :: xs => do
    match (← body x) with
    | some e => pure (some e)
    | none => forEach body xs

/-- The default pointer handler of `New`. -/
def defaultPointerFunc : Handler := fun deepMerge dst src fieldPath => do
  deepMerge (← dst.Elem) src fieldPath

/-- Body of the loop of the default record handler, for field `i`. -/
def structFieldStep (decls : Decls) (deepMerge : Engine) (dst src : RV) (dType : Ty)
    (fieldPath : String) (i : Nat) : M (Option MergeErr) := do
  let dstField ← dst.Field decls i
  if dstField.CanSet then
    let nf := fieldPath ++ "." ++ fieldName decls dType i ++ "(" ++ toString i ++ ")"
    match (← deepMerge dstField (← src.Field decls i) nf) with
    | some err => pure (some (.inField nf err))
    | none => pure none
  else pure none

/-- The default record handler of `New`. -/
def defaultStructFunc (decls : Decls) : Handler := fun deepMerge dst src fieldPath => do
  let dnum ← dst.NumField decls
  let snum ← src.NumField decls
  if dnum ≠ snum then
    return some (.numFields fieldPath dnum snum)
  let dType ← dst.Type
  forEach (structFieldStep decls deepMerge dst src dType fieldPath) (List.range dnum)

/-- Body of the loop of the default slice handler, for index `i`. -/
def sliceElemStep (deepMerge : Engine) (dst src : RV) (fieldPath : String) (i : Nat) :
    M (Option MergeErr) := do
  let nf := fieldPath ++ "[" ++ toString i ++ "]"
  match (← deepMerge (← dst.Index i) (← src.Index i) nf) with
  | some err => pure (some (.inSlice nf err))
  | none => pure none

/-- The growth step of the default slice handler: a nil destination gets `srcLen` new slots,
a shorter destination is extended by the difference. -/
def sliceGrow (decls : Decls) (dst : RV) (srcLen : Nat) : M Unit := do
  if (← dst.IsNil) then
    dst.Set (← MakeSlice decls (← dst.Type) srcLen)
  else
    let diffLen : Int := (srcLen : Int) - ((← dst.Len) : Int)
    if diffLen > 0 then
      dst.Set (← AppendSlice dst (← MakeSlice decls (← dst.Type) diffLen.toNat))

/-- The default slice handler of `New`. -/
def defaultSliceFunc (decls : Decls) : Handler := fun deepMerge dst src fieldPath => do
  let srcLen ← src.Len
  if srcLen > 0 then
    sliceGrow decls dst srcLen
    forEach (sliceElemStep deepMerge dst src fieldPath) (List.range srcLen)
  else
    return none

/-- Body of the loop of the default array handler, for index `i`. -/
def arrayElemStep (deepMerge : Engine) (dst src : RV) (fieldPath : String) (i : Nat) :
    M (Option MergeErr) := do
  let nf := fieldPath ++ "[" ++ toString i ++ "]"
  match (← deepMerge (← dst.Index i) (← src.Index i) nf) with
  | some err => pure (some (.inArray nf err))
  | none => pure none

/-- The default array handler of `New`. -/
def defaultArrayFunc : Handler := fun deepMerge dst src fieldPath => do
  let srcLen ← src.Len
  let dstLen ← dst.Len
  if srcLen ≠ dstLen then
    return some (.arrayLengths fieldPath dstLen srcLen)
  forEach (arrayElemStep deepMerge dst src fieldPath) (List.range srcLen)

/-- Body of the loop of the default map handler, for the source key `key`. -/
def mapKeyStep (decls : Decls) (deepMerge : Engine) (dst src : RV) (dElem : Ty)
    (fieldPath : String) (key : Key) : M (Option MergeErr) := do
  let vdst0 ← dst.MapIndex key
  let vdst ← (if !vdst0.IsValid then NewElem decls dElem else pure vdst0)
  let nf := fieldPath ++ "[" ++ fmtKey key ++ "]"
  match (← deepMerge vdst (← src.MapIndex key) nf) with
  | some err => pure (some (.inMap nf err))
  | none => do
    dst.SetMapIndex key vdst
    pure none

/-- The default map handler of `New`. -/
def defaultMapFunc (decls : Decls) : Handler := fun deepMerge dst src fieldPath => do
  let dType ← dst.Type
  if (← dst.IsNil) then
    dst.Set (← MakeMapWithSize dType (← src.Len))
  let dElem ← dType.Elem
  forEach (mapKeyStep decls deepMerge dst src dElem fieldPath) (← src.MapKeys)

/-- The default scalar handler of `New`. -/
def defaultDefaultFunc : Handler := fun _ dst src _ => do
  if dst.CanSet then
    dst.Set src
  return none

/-- A handler slot that was never assigned: calling a nil func panics. -/
def nilHandler : Handler := fun _ _ _ _ =>
  throwPanic "invalid memory address or nil pointer dereference"

/-- Go: `new(merge[T])`. -/
def newMerge : merge :=
  ⟨nilHandler, nilHandler, nilHandler, nilHandler, nilHandler, nilHandler⟩

/-- The options `New` applies before the caller's. -/
def defaultOpts (decls : Decls) : List Opt :=
  [WithPointerFunc defaultPointerFunc,
   WithStructFunc (defaultStructFunc decls),
   WithSliceFunc (defaultSliceFunc decls),
   WithArrayFunc defaultArrayFunc,
   WithMapFunc (defaultMapFunc decls),
   WithDefaultFunc defaultDefaultFunc]

/-- Go: `func New[T any](opts ...Option[T]) Merger[T]`. -/
def New (decls : Decls) (opts : List Opt) : merge :=
  (defaultOpts decls ++ opts).foldl (fun m opt => opt m) newMerge

/-- The loop of `Merge` over `objs[1:]`: the range variable `src` is the one variable in
block `sv`; every iteration assigns the operand to it and merges it through
`deepMerge(rdst, reflect.ValueOf(&src), visited, "")`. -/
def mergeLoop (m : merge) (T : Ty) (fuel : Nat) (d sv : Nat) :
    List Val → M (Val × Option MergeErr)
  | [] => do
    let dst ← readLoc ⟨d, []⟩
    pure (dst, none)
  | src :: rest => do
    writeLoc ⟨sv, []⟩ src
    let rdst := RV.rval (.ptr T) (.ptr (some ⟨d, []⟩)) false
    let rsrc := RV.rval (.ptr T) (.ptr (some ⟨sv, []⟩)) false
    match (← m.deepMerge fuel rdst rsrc "") with
    | some err => do
      let dst ← readLoc ⟨d, []⟩
      pure (dst, some err)
    | none => mergeLoop m T fuel d sv rest

/-- Go: `func (m *merge[T]) Merge(objs ...T) (dst T, err error)`. -/
def merge.Merge (decls : Decls) (m : merge) (T : Ty) (fuel : Nat) (objs : List Val) :
    M (Val × Option MergeErr) :=
  match objs with
  | [] => pure (zeroOf decls T, none)
  | [x] => pure (x, none)
  | x :: rest => do
    let d ← alloc x
    (fun s => .ok () s.clearVisited)
    let sv ← alloc (zeroOf decls T)
    mergeLoop m T fuel d sv rest

/-- Go: `func Merge[T any](dst, src T, opts ...Option[T]) (T, error)`. -/
def Merge (decls : Decls) (T : Ty) (fuel : Nat) (dst src : Val) (opts : List Opt) :
    M (Val × Option MergeErr) :=
  (New decls opts).Merge decls T fuel [dst, src]


/-! ## Observation of results -/

/-- A value together with everything it refers to, unfolded to a bounded depth: what a
field-by-field comparison or serialisation of the value sees. -/
inductive Deep
  | scalar (k : Key)
  | null
  | boxed (t : Ty) (d : Deep)
  | ref (d : Deep)
  | seq (ds : List Deep)
  | record (ds : List Deep)
  | dict (ks : List Key) (ds : List Deep)
  | cut
deriving Repr

mutual
/-- Decision procedure for equality of deep views. -/
def Deep.decEq : (a b : Deep) → Decidable (a = b)
  | .scalar x0, .scalar y0 =>
    match (inferInstance : Decidable (x0 = y0)) with
    | isFalse h0 => isFalse (fun h => h0 (by injection h with e0))
    | isTrue h0 =>
      isTrue (by rw [h0])
  | .scalar _, .null => isFalse (fun h => Deep.noConfusion h)
  | .scalar _, .boxed _ _ => isFalse (fun h => Deep.noConfusion h)
  | .scalar _, .ref _ => isFalse (fun h => Deep.noConfusion h)
  | .scalar _, .seq _ => isFalse (fun h => Deep.noConfusion h)
  | .scalar _, .record _ => isFalse (fun h => Deep.noConfusion h)
  | .scalar _, .dict _ _ => isFalse (fun h => Deep.noConfusion h)
  | .scalar _, .cut => isFalse (fun h => Deep.noConfusion h)
  | .null, .scalar _ => isFalse (fun h => Deep.noConfusion h)
  | .null, .null => isTrue rfl
  | .null, .boxed _ _ => isFalse (fun h => Deep.noConfusion h)
  | .null, .ref _ => isFalse (fun h => Deep.noConfusion h)
  | .null, .seq _ => isFalse (fun h => Deep.noConfusion h)
  | .null, .record _ => isFalse (fun h => Deep.noConfusion h)
  | .null, .dict _ _ => isFalse (fun h => Deep.noConfusion h)
  | .null, .cut => isFalse (fun h => Deep.noConfusion h)
  | .boxed _ _, .scalar _ => isFalse (fun h => Deep.noConfusion h)
  | .boxed _ _, .null => isFalse (fun h => Deep.noConfusion h)
  | .boxed x0 x1, .boxed y0 y1 =>
    match (inferInstance : Decidable (x0 = y0)) with
    | isFalse h0 => isFalse (fun h => h0 (by injection h with e0 e1))
    | isTrue h0 =>
      match Deep.decEq x1 y1 with
      | isFalse h1 => isFalse (fun h => h1 (by injection h with e0 e1))
      | isTrue h1 =>
        isTrue (by rw [h0, h1])
  | .boxed _ _, .ref _ => isFalse (fun h => Deep.noConfusion h)
  | .boxed _ _, .seq _ => isFalse (fun h => Deep.noConfusion h)
  | .boxed _ _, .record _ => isFalse (fun h => Deep.noConfusion h)
  | .boxed _ _, .dict _ _ => isFalse (fun h => Deep.noConfusion h)
  | .boxed _ _, .cut => isFalse (fun h => Deep.noConfusion h)
  | .ref _, .scalar _ => isFalse (fun h => Deep.noConfusion h)
  | .ref _, .null => isFalse (fun h => Deep.noConfusion h)
  | .ref _, .boxed _ _ => isFalse (fun h => Deep.noConfusion h)
  | .ref x0, .ref y0 =>
    match Deep.decEq x0 y0 with
    | isFalse h0 => isFalse (fun h => h0 (by injection h with e0))
    | isTrue h0 =>
      isTrue (by rw [h0])
  | .ref _, .seq _ => isFalse (fun h => Deep.noConfusion h)
  | .ref _, .record _ => isFalse (fun h => Deep.noConfusion h)
  | .ref _, .dict _ _ => isFalse (fun h => Deep.noConfusion h)
  | .ref _, .cut => isFalse (fun h => Deep.noConfusion h)
  | .seq _, .scalar _ => isFalse (fun h => Deep.noConfusion h)
  | .seq _, .null => isFalse (fun h => Deep.noConfusion h)
  | .seq _, .boxed _ _ => isFalse (fun h => Deep.noConfusion h)
  | .seq _, .ref _ => isFalse (fun h => Deep.noConfusion h)
  | .seq x0, .seq y0 =>
    match Deep.decEqList x0 y0 with
    | isFalse h0 => isFalse (fun h => h0 (by injection h with e0))
    | isTrue h0 =>
      isTrue (by rw [h0])
  | .seq _, .record _ => isFalse (fun h => Deep.noConfusion h)
  | .seq _, .dict _ _ => isFalse (fun h => Deep.noConfusion h)
  | .seq _, .cut => isFalse (fun h => Deep.noConfusion h)
  | .record _, .scalar _ => isFalse (fun h => Deep.noConfusion h)
  | .record _, .null => isFalse (fun h => Deep.noConfusion h)
  | .record _, .boxed _ _ => isFalse (fun h => Deep.noConfusion h)
  | .record _, .ref _ => isFalse (fun h => Deep.noConfusion h)
  | .record _, .seq _ => isFalse (fun h => Deep.noConfusion h)
  | .record x0, .record y0 =>
    match Deep.decEqList x0 y0 with
    | isFalse h0 => isFalse (fun h => h0 (by injection h with e0))
    | isTrue h0 =>
      isTrue (by rw [h0])
  | .record _, .dict _ _ => isFalse (fun h => Deep.noConfusion h)
  | .record _, .cut => isFalse (fun h => Deep.noConfusion h)
  | .dict _ _, .scalar _ => isFalse (fun h => Deep.noConfusion h)
  | .dict _ _, .null => isFalse (fun h => Deep.noConfusion h)
  | .dict _ _, .boxed _ _ => isFalse (fun h => Deep.noConfusion h)
  | .dict _ _, .ref _ => isFalse (fun h => Deep.noConfusion h)
  | .dict _ _, .seq _ => isFalse (fun h => Deep.noConfusion h)
  | .dict _ _, .record _ => isFalse (fun h => Deep.noConfusion h)
  | .dict x0 x1, .dict y0 y1 =>
    match (inferInstance : Decidable (x0 = y0)) with
    | isFalse h0 => isFalse (fun h => h0 (by injection h with e0 e1))
    | isTrue h0 =>
      match Deep.decEqList x1 y1 with
      | isFalse h1 => isFalse (fun h => h1 (by injection h with e0 e1))
      | isTrue h1 =>
        isTrue (by rw [h0, h1])
  | .dict _ _, .cut => isFalse (fun h => Deep.noConfusion h)
  | .cut, .scalar _ => isFalse (fun h => Deep.noConfusion h)
  | .cut, .null => isFalse (fun h => Deep.noConfusion h)
  | .cut, .boxed _ _ => isFalse (fun h => Deep.noConfusion h)
  | .cut, .ref _ => isFalse (fun h => Deep.noConfusion h)
  | .cut, .seq _ => isFalse (fun h => Deep.noConfusion h)
  | .cut, .record _ => isFalse (fun h => Deep.noConfusion h)
  | .cut, .dict _ _ => isFalse (fun h => Deep.noConfusion h)
  | .cut, .cut => isTrue rfl
/-- Decision procedure for equality of lists of deep views. -/
def Deep.decEqList : (as bs : List Deep) → Decidable (as = bs)
  | [], [] => isTrue rfl
  | [], _ :: _ => isFalse (fun h => List.noConfusion h)
  | _ :: _, [] => isFalse (fun h => List.noConfusion h)
  | a :: as, b :: bs =>
    match Deep.decEq a b with
    | isFalse h0 => isFalse (fun h => h0 (by injection h with e0 e1))
    | isTrue h0 =>
      match Deep.decEqList as bs with
      | isFalse h1 => isFalse (fun h => h1 (by injection h with e0 e1))
      | isTrue h1 => isTrue (by rw [h0, h1])
end

instance : DecidableEq Deep := Deep.decEq

/-- The elements of a slice in a memory. -/
def St.elems (s : St) (h : SliceHdr) : List Val :=
  match s.objs[h.block]? with
  | some root => (root.children.drop h.off).take h.len
  | none => []

/-- Unfold a value in a memory to depth `n`. -/
def deepView (s : St) : Nat → Val → Deep
  | 0, _ => .cut
  | _ + 1, .int x => .scalar (.int x)
  | _ + 1, .str x => .scalar (.str x)
  | _ + 1, .bool x => .scalar (.bool x)
  | _ + 1, .nilIface => .null
  | n + 1, .iface t d => .boxed t (deepView s n d)
  | _ + 1, .ptr none => .null
  | n + 1, .ptr (some l) =>
    match s.read l with
    | some v => .ref (deepView s n v)
    | none => .cut
  | _ + 1, .slice none => .null
  | n + 1, .slice (some h) => .seq ((s.elems h).map (deepView s n))
  | n + 1, .array es => .seq (es.map (deepView s n))
  | _ + 1, .map none => .null
  | n + 1, .map (some id) =>
    match s.maps[id]? with
    | some es => .dict (es.map Prod.fst) (es.map (fun e => deepView s n e.2))
    | none => .cut
  | n + 1, .struct fs => .record (fs.map (deepView s n))

/-- What a caller of `Merge` observes: the unfolded result and the error, or nothing when
the call panicked or ran out of fuel. -/
def observe (depth : Nat) (r : Res (Val × Option MergeErr)) : Option (Deep × Option MergeErr) :=
  match r with
  | .ok (v, err) s => some (deepView s depth v, err)
  | _ => none

/-! ## Typing of values and the overlay of scalars -/

/-- The kinds the engine treats as scalars: everything that is not a pointer, record, slice,
array or map. -/
def Ty.isScalar : Ty → Bool
  | .int => true
  | .string => true
  | .bool => true
  | .iface => true
  | _ => false

mutual
/-- A stored value has the given type (references are not followed). -/
def Val.hasTy (decls : Decls) : Val → Ty → Bool
  | .int _, .int => true
  | .str _, .string => true
  | .bool _, .bool => true
  | .nilIface, .iface => true
  | .iface _ _, .iface => true
  | .ptr _, .ptr _ => true
  | .slice _, .slice _ => true
  | .map _, .map _ _ => true
  | .array es, .array n e => es.length == n && Val.allHaveTy decls es e
  | .struct fs, .struct name => Val.fieldsHaveTy decls fs ((fieldsOf decls name).map (fun fd => fd.ty))
  | _, _ => false
/-- Every value of a list has the given type. -/
def Val.allHaveTy (decls : Decls) : List Val → Ty → Bool
  | [], _ => true
  | v :: vs, e => v.hasTy decls e && Val.allHaveTy decls vs e
/-- The values of a list have the types of a list, position by position. -/
def Val.fieldsHaveTy (decls : Decls) : List Val → List Ty → Bool
  | [], [] => true
  | v :: vs, t :: ts => v.hasTy decls t && Val.fieldsHaveTy decls vs ts
  | _, _ => false
end

/-- The memory with block `b` replaced by `v`. -/
def St.setObj (s : St) (b : Nat) (v : Val) : St :=
  { s with objs := s.objs.set b v }

/-- Overlay of one scalar: the source when it is non-empty, the destination otherwise. -/
def pick (d x : Val) : Val :=
  if x.isZero then d else x

/-- Field-by-field overlay of a flat record by another. -/
def overlay (d x : Val) : Val :=
  .struct (List.zipWith pick d.children x.children)

/-- The first operand in which some field is non-empty, if any. -/
def firstNonEmpty (os : List Val) : Option Val :=
  os.find? (fun o => !o.isZero)

/-- A flat record overlaid by the first non-empty record of a list, or left alone when the
list holds none. -/
def overlayFirst (x : Val) (rest : List Val) : Val :=
  match firstNonEmpty rest with
  | some y => overlay x y
  | none => x

/-- The value of the last operand in which the field is non-empty, or `zero` when it is empty
in every operand. -/
def lastNonEmpty (zero : Val) (vs : List Val) : Val :=
  match vs.reverse.find? (fun v => !v.isZero) with
  | some v => v
  | none => zero

/-- The values of field `i` in a list of records. -/
def fieldColumn (i : Nat) (os : List Val) : List Val :=
  os.filterMap (fun o => o.children[i]?)

/-! ## The demonstration program (src/example/main.go) -/

/-- The record declarations `Details` and `Person` of the demonstration program. -/
def exampleDecls : Decls :=
  [("Details",
      [⟨"Hobbies", true, .slice .string⟩,
       ⟨"Friends", true, .map .string .string⟩,
       ⟨"Active", true, .bool⟩]),
   ("Person",
      [⟨"Name", true, .string⟩,
       ⟨"Age", true, .int⟩,
       ⟨"Address", true, .ptr (.struct "Details")⟩,
       ⟨"IsAlive", true, .bool⟩,
       ⟨"Extra", true, .iface⟩])]

/-- Memory of `main` before the call: block 0 is `*person1`, block 1 its `Details`, block 2
is `*person2`, block 3 its `Details`, block 4 the backing array of its `Hobbies`; map 0 is
its `Friends`. -/
def exampleSt : St :=
  { objs :=
      [.struct [.str "Alice", .int 30, .ptr (some ⟨1, []⟩), .bool true, .nilIface],
       .struct [.slice none, .map none, .bool true],
       .struct [.str "Bob", .int 0, .ptr (some ⟨3, []⟩), .bool false, .iface .string (.str "Extra Data")],
       .struct [.slice (some ⟨4, 0, 1, 1⟩), .map (some 0), .bool false],
       .array [.str "Swimming"]],
    maps := [[(.str "Tom", .str "Neighbor")]],
    visited := [] }

/-- The pointer `person1`. -/
def person1 : Val := .ptr (some ⟨0, []⟩)

/-- The pointer `person2`. -/
def person2 : Val := .ptr (some ⟨2, []⟩)

/-- Entries of a destination map after the keys `ks` of a source with entries `ses` were
processed, for scalar values: a key already present keeps its value, an absent key gets the
value of the source. -/
def unionKeep (ses : List (Key × Val)) : List (Key × Val) → List Key → List (Key × Val)
  | cur, [] => cur
  | cur, k :: ks =>
    match lookupKey k cur, lookupKey k ses with
    | none, some v => unionKeep ses (upsertKey k v cur) ks
    | _, _ => unionKeep ses cur ks

/-- The cells of a backing array after the loop of the slice handler ran over the indices
`k, ..., k+n-1`: cell `off + i` is overlaid by element `i` of the source. -/
def overlayCells (ss : List Val) (off : Nat) : Nat → Nat → List Val → List Val
  | _, 0, cells => cells
  | k, n + 1, cells =>
    overlayCells ss off (k + 1) n
      (match cells[off + k]?, ss[k]? with
       | some d, some x => cells.set (off + k) (pick d x)
       | _, _ => cells)

/-- The elements of a slice value that may be nil. -/
def St.elemsOpt (s : St) : Option SliceHdr → List Val
  | none => []
  | some h => s.elems h

/-! ## Graphs of records -/

/-- A field of a record of a graph: exported, and either a scalar or a non-nil reference to
(the start of) a record of the graph. -/
def fieldOK (graph : List (Nat × String)) (fd : FieldDecl) (v : Val) : Bool :=
  fd.exported &&
    (fd.ty.isScalar ||
      match fd.ty, v with
      | .ptr (.struct n2), .ptr (some l) => l.path.isEmpty && graph.contains (l.block, n2)
      | _, _ => false)

/-- The fields of a record of a graph, position by position. -/
def fieldsOK (graph : List (Nat × String)) : List FieldDecl → List Val → Bool
  | [], [] => true
  | fd :: fds, v :: vs => fieldOK graph fd v && fieldsOK graph fds vs
  | _, _ => false

/-- Block `e.1` holds a record of the declared type `e.2` whose references stay in the graph. -/
def recordOK (decls : Decls) (graph : List (Nat × String)) (s : St) (e : Nat × String) : Bool :=
  match s.objs[e.1]? with
  | some (.struct fs) => fieldsOK graph (fieldsOf decls e.2) fs
  | _ => false

/-- A graph of records in memory: `graph` lists the blocks holding records, each with its
record type; the records refer to each other through non-nil references, possibly in
cycles. -/
def graphOK (decls : Decls) (graph : List (Nat × String)) (s : St) : Bool :=
  graph.all (recordOK decls graph s)

/-- The number of records of the graph that are not yet in the visited set. -/
def unvisited (graph : List (Nat × String)) (s : St) : Nat :=
  graph.countP (fun e => !s.visited.contains (e.1, 0))

/-- What a merge step may change in a graph of records: the graph stays a graph, the visited
set only grows and has no duplicates, memory outside the graph is untouched, and a field of
a record that was non-empty is still non-empty. -/
structure GraphStep (decls : Decls) (graph : List (Nat × String)) (s s2 : St) : Prop where
  ok : graphOK decls graph s2 = true
  nodup : s2.visited.Nodup
  grows : ∀ a ∈ s.visited, a ∈ s2.visited
  size : s2.objs.length = s.objs.length
  frame : ∀ b, b ∉ graph.map Prod.fst → s2.objs[b]? = s.objs[b]?
  keeps : ∀ (b : Nat) (fs : List Val) (i : Nat) (v : Val),
    s.objs[b]? = some (Val.struct fs) → fs[i]? = some v → v.isZero = false →
    ∃ (fs2 : List Val) (v2 : Val),
      s2.objs[b]? = some (Val.struct fs2) ∧ fs2[i]? = some v2 ∧ v2.isZero = false

/-- Every field of a record that is non-empty in `s` is a non-empty field of the same
record in `s2`. -/
def fieldsKept (s s2 : St) : Prop :=
  ∀ (b : Nat) (fs : List Val) (i : Nat) (v : Val),
    s.objs[b]? = some (Val.struct fs) → fs[i]? = some v → v.isZero = false →
    ∃ (fs2 : List Val) (v2 : Val),
      s2.objs[b]? = some (Val.struct fs2) ∧ fs2[i]? = some v2 ∧ v2.isZero = false

/-- The record merge on field `i` of the records in blocks `D` and `S`: a scalar of the
source overwrites the scalar of the destination when it is non-empty; for two non-nil
references the referents are merged by `walk`. -/
def walkField (decls : Decls) (walk : String → Nat → Nat → St → St) (name : String)
    (D S : Nat) (s : St) (i : Nat) : St :=
  match (fieldsOf decls name)[i]?, s.objs[D]?, s.objs[S]? with
  | some fd, some (.struct ds), some (.struct ss) =>
    if fd.ty.isScalar then
      match ds[i]?, ss[i]? with
      | some d, some x => s.setObj D (.struct (ds.set i (pick d x)))
      | _, _ => s
    else
      match fd.ty, ds[i]?, ss[i]? with
      | .ptr (.struct n2), some (.ptr (some ⟨D2, []⟩)), some (.ptr (some ⟨S2, []⟩)) =>
        walk n2 D2 S2 s
      | _, _, _ => s
  | _, _, _ => s

/-- Merging a graph of records by applying the record merge once per source record: the
source record in block `S` is left out when it is empty or already in the visited set;
otherwise it enters the visited set and the record merge is applied to the pair, field by
field, following the references at most `k` records deep. -/
def graphWalk (decls : Decls) : Nat → String → Nat → Nat → St → St
  | 0, _, _, _, s => s
  | k + 1, name, D, S, s =>
    match s.objs[S]? with
    | some (.struct ss) =>
      if Val.allZero ss || s.visited.contains (S, 0) then s
      else
        (List.range (fieldsOf decls name).length).foldl
          (walkField decls (graphWalk decls k) name D S) (s.mark (S, 0))
    | _ => s

/-- A callback of the map handler that, called on an element of the destination map (a copy
of an entry, or a fresh variable) and an element of the source, leaves the map objects `D`
and `sid` and the variables `dl` and `sl` as they are. -/
def leavesMaps (rec : Engine) (ety : Ty) (dl sl : Loc) (D sid : Nat) : Prop :=
  ∀ (a : RV) (v : Val) (q : String) (t t2 : St) (r : Option MergeErr),
    ((∃ v0 : Val, a = RV.rval ety v0 false) ∨
      (∃ n : Nat, n ≠ dl.block ∧ n ≠ sl.block ∧ a = RV.lval ety ⟨n, []⟩ false)) →
    rec a (RV.rval ety v false) q t = Res.ok r t2 →
    t2.maps[D]? = t.maps[D]? ∧ t2.maps[sid]? = t.maps[sid]? ∧
      t2.read dl = t.read dl ∧ t2.read sl = t.read sl

/-- Whether a run from `t` to `t2` left the map objects `D` and `sid` and the variables `dl`
and `sl` as they were. -/
def unchangedMaps (dl sl : Loc) (D sid : Nat) (t t2 : St) : Bool :=
  decide (t2.maps[D]? = t.maps[D]?) && decide (t2.maps[sid]? = t.maps[sid]?) &&
    decide (t2.read dl = t.read dl) && decide (t2.read sl = t.read sl)

/-- The callback `rec` under observation during one run of the map handler: a call that
returns having changed the map objects `D` or `sid`, or the variables `dl` or `sl`, is turned
into a panic.  A run of the handler with the observed callback succeeds exactly when the run
with `rec` succeeds and no call of `rec` in it changed one of them. -/
def watch (rec : Engine) (dl sl : Loc) (D sid : Nat) : Engine := fun a b q t =>
  match rec a b q t with
  | .ok r t2 =>
    if unchangedMaps dl sl D sid t t2 then .ok r t2
    else .panic "a map under merge was changed by the merge of a value"
  | .panic msg => .panic msg
  | .timeout => .timeout

/-- Every successful run of `x` is a run of `y` with the same result and memory. -/
def Below {α : Type} (x y : M α) : Prop :=
  ∀ (s : St) (a : α) (s2 : St), x s = .ok a s2 → y s = .ok a s2

/-- The handle `reflect.ValueOf(&x)` of the variable in block `b`. -/
def refTo (T : Ty) (b : Nat) : RV := .rval (.ptr T) (.ptr (some ⟨b, []⟩)) false

/-- The operands `os` are assigned one after the other to the loop variable `sv` and merged
into the variable `d`, each without an error, and memory goes from `s` to `s1`. -/
def foldsTo (m : merge) (T : Ty) (fuel : Nat) (d sv : Nat) : List Val → St → St → Prop
  | [], s, s1 => s1 = s
  | o :: os, s, s1 =>
    ∃ s0 s2 : St, s.write ⟨sv, []⟩ o = some s0 ∧
      m.deepMerge fuel (refTo T d) (refTo T sv) "" s0 = .ok none s2 ∧
      foldsTo m T fuel d sv os s2 s1

/-- The six handler slots of `merge[T]`. -/
inductive Slot
  | pointerMerge | structMerge | sliceMerge | arrayMerge | mapMerge | defaultMerge
deriving DecidableEq, Repr

/-- The handler a slot of an engine holds. -/
def merge.slot (m : merge) : Slot → Handler
  | .pointerMerge => m.pointerMerge
  | .structMerge => m.structMerge
  | .sliceMerge => m.sliceMerge
  | .arrayMerge => m.arrayMerge
  | .mapMerge => m.mapMerge
  | .defaultMerge => m.defaultMerge

/-- The option constructor of a slot: `WithPointerFunc`, ..., `WithDefaultFunc`. -/
def Slot.option : Slot → Handler → Opt
  | .pointerMerge => WithPointerFunc
  | .structMerge => WithStructFunc
  | .sliceMerge => WithSliceFunc
  | .arrayMerge => WithArrayFunc
  | .mapMerge => WithMapFunc
  | .defaultMerge => WithDefaultFunc

/-- The built-in handler `New` installs in a slot. -/
def Slot.builtin (decls : Decls) : Slot → Handler
  | .pointerMerge => defaultPointerFunc
  | .structMerge => defaultStructFunc decls
  | .sliceMerge => defaultSliceFunc decls
  | .arrayMerge => defaultArrayFunc
  | .mapMerge => defaultMapFunc decls
  | .defaultMerge => defaultDefaultFunc

/-- The slot the `switch dst.Kind()` of `deepMerge` selects. -/
def Slot.ofKind : Kind → Slot
  | .Ptr => .pointerMerge
  | .Struct => .structMerge
  | .Slice => .sliceMerge
  | .Array => .arrayMerge
  | .Map => .mapMerge
  | _ => .defaultMerge

/-- The part of `deepMerge` before the `switch`: the result to return at once (nothing to
merge, a type-mismatch error, a source record already visited), or the possibly unwrapped
pair the node is dispatched on. -/
def enterNode (dst src : RV) (fieldPath : String) : M (Option MergeErr ⊕ RV × RV) := do
  if !src.IsValid then return .inl none
  if (← src.IsZero) then return .inl none
  match (← reconcile dst src fieldPath) with
  | .error e => return .inl (some e)
  | .ok (dst, src) =>
    let sKind := src.Kind
    let src ← (if sKind = .Ptr then src.Elem else pure src)
    let seen ← (if sKind = .Struct && src.CanAddr then do
                  let addr ← src.Pointer
                  if (← isVisited addr) then pure true
                  else do markVisited addr; pure false
                else pure false)
    if seen then return .inl none
    return .inr (dst, src)

/-- The last handler a list of slot assignments gives to slot `k`, if any. -/
def lastFor (k : Slot) : List (Slot × Handler) → Option Handler
  | [] => none
  | (k2, f) :: os =>
    match lastFor k os with
    | some g => some g
    | none => if k2 = k then some f else none

/-- The static type of a `reflect.Value`, if it has one. -/
def RV.typ : RV → Option Ty
  | .invalid => none
  | .rval ty _ _ => some ty
  | .lval ty _ _ => some ty

/-- Destination and source of a node have the same type, unless one of them is absent. -/
def sameType (dst src : RV) : Prop :=
  dst.typ = none ∨ src.typ = none ∨ dst.typ = src.typ

/-- A computation that never returns an error (it may return success, panic or run out of
fuel). -/
def NoErr (x : M (Option MergeErr)) : Prop :=
  ∀ (s : St) (e : MergeErr) (s2 : St), x s ≠ .ok (some e) s2

/-- Whether a call of `Merge` returned an error. -/
def returnsError : Res (Val × Option MergeErr) → Bool
  | .ok (_, some _) _ => true
  | _ => false

/-- Decision procedure for `sameType`. -/
instance sameType.dec (dst src : RV) : Decidable (sameType dst src) :=
  inferInstanceAs (Decidable (dst.typ = none ∨ src.typ = none ∨ dst.typ = src.typ))

/-- The engine with a type check at the entry of every node: a node whose destination and
source have the same type (or one of them absent) is merged as `deepMerge` merges it, the
handler calling back into the checked engine; any other node is handed to `other`. -/
def merge.deepMergeTyped (m : merge) (other : Engine) : Nat → Engine
  | 0, _, _, _ => fun _ => .timeout
  | fuel + 1, dst, src, fieldPath =>
    if sameType dst src then do
      match (← enterNode dst src fieldPath) with
      | .inl r => pure r
      | .inr (d, x) => m.slot (Slot.ofKind d.Kind) (m.deepMergeTyped other fuel) d x fieldPath
    else other dst src fieldPath

/-! ## Sample data -/

/-- A record type with four scalar fields. -/
def flatDecls : Decls :=
  [("Conf",
      [⟨"Host", true, .string⟩,
       ⟨"Port", true, .int⟩,
       ⟨"Debug", true, .bool⟩,
       ⟨"Meta", true, .iface⟩])]

/-- Four operands of type `Conf`. -/
def flatOperands : List Val :=
  [.struct [.str "a", .int 0, .bool false, .nilIface],
   .struct [.str "", .int 8080, .bool true, .nilIface],
   .struct [.str "c", .int 0, .bool false, .nilIface],
   .struct [.str "", .int 0, .bool false, .nilIface]]

/-- Record types used as counterexamples: `Counter` has one unexported field, `Pub` one
exported field. -/
def hiddenDecls : Decls :=
  [("Counter", [⟨"n", false, .int⟩]),
   ("Pub", [⟨"N", true, .int⟩])]

/-- A memory holding the empty record `Pub{}` in block 0. -/
def emptyPubSt : St :=
  { objs := [.struct [.int 0]], maps := [], visited := [] }

/-- Memory with the destination map `{"b":9,"c":3}` (map 0) and the source map
`{"a":1,"b":2}` (map 1). -/
def conflictSt : St :=
  { objs := [],
    maps := [[(.str "b", .int 9), (.str "c", .int 3)], [(.str "a", .int 1), (.str "b", .int 2)]],
    visited := [] }

/-- Go: `Merge(Merge(a, b), c)`, each call with a new engine built from no options; an
error of the inner call ends the computation. -/
def MergeNested (decls : Decls) (T : Ty) (fuel : Nat) (a b c : Val) : M (Val × Option MergeErr) := do
  let r ← Merge decls T fuel a b []
  match r with
  | (ab, none) => Merge decls T fuel ab c []
  | (ab, some err) => pure (ab, some err)

/-- Record types for operands that share a sub-record: `Pair` refers to two `Leaf` records. -/
def sharedDecls : Decls :=
  [("Leaf", [⟨"V", true, .int⟩]),
   ("Pair", [⟨"P", true, .ptr (.struct "Leaf")⟩, ⟨"Q", true, .ptr (.struct "Leaf")⟩])]

/-- Memory with `a = &Pair{P: &Leaf{}, Q: &Leaf{}}` (blocks 0, 1, 2), `b = &Pair{P: x}`
(block 3), `c = &Pair{Q: x}` (block 4) and the shared record `x = &Leaf{V: 7}` (block 5). -/
def sharedSt : St :=
  { objs :=
      [.struct [.ptr (some ⟨1, []⟩), .ptr (some ⟨2, []⟩)],
       .struct [.int 0],
       .struct [.int 0],
       .struct [.ptr (some ⟨5, []⟩), .ptr none],
       .struct [.ptr none, .ptr (some ⟨5, []⟩)],
       .struct [.int 7]],
    maps := [],
    visited := [] }

/-- Memory with two map variables: block 0 holds the destination map `{"b":9,"c":3}`
(map 0), block 1 the source map `{"a":1,"b":2}` (map 1). -/
def conflictVarsSt : St :=
  { objs := [.map (some 0), .map (some 1)],
    maps := [[(.str "b", .int 9), (.str "c", .int 3)], [(.str "a", .int 1), (.str "b", .int 2)]],
    visited := [] }

/-- Memory with two slice variables: block 0 holds the destination slice `[1]` of capacity 3
(backing array in block 2), block 1 the source slice `[0, 5, 6]` (backing array in block 3). -/
def sliceVarsSt : St :=
  { objs :=
      [.slice (some ⟨2, 0, 1, 3⟩),
       .slice (some ⟨3, 0, 3, 3⟩),
       .array [.int 1, .int 7, .int 8],
       .array [.int 0, .int 5, .int 6]],
    maps := [],
    visited := [] }

/-- Two record types referring to each other: `A{V int; B *B}` and `B{W string; A *A}`. -/
def cycleDecls : Decls :=
  [("A", [⟨"V", true, .int⟩, ⟨"B", true, .ptr (.struct "B")⟩]),
   ("B", [⟨"W", true, .string⟩, ⟨"A", true, .ptr (.struct "A")⟩])]

/-- Memory with two cycles `A -> B -> A`: the destination in blocks 0 and 1, the source in
blocks 2 and 3. -/
def cycleSt : St :=
  { objs :=
      [.struct [.int 1, .ptr (some ⟨1, []⟩)],
       .struct [.str "x", .ptr (some ⟨0, []⟩)],
       .struct [.int 0, .ptr (some ⟨3, []⟩)],
       .struct [.str "y", .ptr (some ⟨2, []⟩)]],
    maps := [],
    visited := [] }

/-- The records of `cycleSt` with their types. -/
def cycleGraph : List (Nat × String) :=
  [(0, "A"), (1, "B"), (2, "A"), (3, "B")]

/-- Memory with two slice variables over one backing array `[1, 2, 3]` (block 2): block 0
holds the destination slice `arr[0:1]` of capacity 3, block 1 the source slice `arr[0:3]`. -/
def aliasVarsSt : St :=
  { objs :=
      [.slice (some ⟨2, 0, 1, 3⟩),
       .slice (some ⟨2, 0, 3, 3⟩),
       .array [.int 1, .int 2, .int 3]],
    maps := [],
    visited := [] }

/-- A record type with two slice fields: `Two{A []int; B []int}`. -/
def twoViewsDecls : Decls :=
  [("Two", [⟨"A", true, .slice .int⟩, ⟨"B", true, .slice .int⟩])]

/-- Memory with the backing arrays `[1, 2, 3]` (block 0) and `[0, 0, 9]` (block 1). -/
def twoViewsSt : St :=
  { objs := [.array [.int 1, .int 2, .int 3], .array [.int 0, .int 0, .int 9]],
    maps := [],
    visited := [] }

/-- A record type holding a map of references to records of the same type:
`Rec{M map[string]*Rec}`. -/
def selfMapDecls : Decls :=
  [("Rec", [⟨"M", true, .map .string (.ptr (.struct "Rec"))⟩])]

/-- Memory with a destination map that contains itself: block 0 holds `d` (map 0), block 1
holds `s` (map 1), `d = {"k": &Rec{M: d}}` (record in block 2),
`s = {"k": &Rec{M: {"z": &Rec{}}}}` (records in blocks 3 and 4, inner map 2). -/
def selfMapSt : St :=
  { objs :=
      [.map (some 0),
       .map (some 1),
       .struct [.map (some 0)],
       .struct [.map (some 2)],
       .struct [.map none]],
    maps :=
      [[(.str "k", .ptr (some ⟨2, []⟩))],
       [(.str "k", .ptr (some ⟨3, []⟩))],
       [(.str "z", .ptr (some ⟨4, []⟩))]],
    visited := [] }

/-- A scalar handler that refuses the source `3`. -/
def refuseThree : Handler := fun deepMerge dst src fieldPath => do
  if (← src.load) = .int 3 then
    return some (.numFields fieldPath 0 0)
  defaultDefaultFunc deepMerge dst src fieldPath

/-- Memory with two records of type `Conf`: `{"a", 0, false, nil}` in block 0 and
`{"b", 3, true, nil}` in block 1. -/
def confPairSt : St :=
  { objs :=
      [.struct [.str "a", .int 0, .bool false, .nilIface],
       .struct [.str "b", .int 3, .bool true, .nilIface]],
    maps := [],
    visited := [] }

/-- Record types with a pointer field: `B{V int}` and `A{P *B}`. -/
def ptrDecls : Decls :=
  [("B", [⟨"V", true, .int⟩]),
   ("A", [⟨"P", true, .ptr (.struct "B")⟩])]

/-- Memory with `&A{P: nil}` (block 0), `&A{P: &B{V: 1}}` (blocks 1 and 2), the empty map 0
and the map `{"k": &B{V: 1}}` (map 1). -/
def ptrSt : St :=
  { objs :=
      [.struct [.ptr none],
       .struct [.ptr (some ⟨2, []⟩)],
       .struct [.int 1]],
    maps := [[], [(.str "k", .ptr (some ⟨2, []⟩))]],
    visited := [] }

/-- Memory with the arrays `[0, 0]` (block 0), `[1, 2, 3]` (block 1) and `[0, 0, 0]`
(block 2), a nil `*int` (block 3) and the string `"x"` (block 4). -/
def arraysSt : St :=
  { objs :=
      [.array [.int 0, .int 0],
       .array [.int 1, .int 2, .int 3],
       .array [.int 0, .int 0, .int 0],
       .ptr none,
       .str "x"],
    maps := [],
    visited := [] }

/-- Record types with a record held by value: `Inner{A int; B int}`, `Outer{In Inner; C int}`
with the nested record first, and `Outer2{C int; In Inner}` with the nested record last. -/
def nestedDecls : Decls :=
  [("Inner", [⟨"A", true, .int⟩, ⟨"B", true, .int⟩]),
   ("Outer", [⟨"In", true, .struct "Inner"⟩, ⟨"C", true, .int⟩]),
   ("Outer2", [⟨"C", true, .int⟩, ⟨"In", true, .struct "Inner"⟩])]

/-- Memory with the records `B{V: 1}`, `B{V: 2}`, `B{V: 5}` (blocks 0, 1, 2), the destination
map `{"x": &B{1}, "y": &B{2}}` (map 0) and a source map (map 1) with the entries `src`,
stored in the order in which they are enumerated. -/
def sharedEntrySt (src : List (Key × Val)) : St :=
  { objs := [.struct [.int 1], .struct [.int 2], .struct [.int 5]],
    maps := [[(.str "x", .ptr (some ⟨0, []⟩)), (.str "y", .ptr (some ⟨1, []⟩))], src],
    visited := [] }

/-- Memory with two map variables of type `map[string]*B`: `d = {"x": &B{V: 1}}` (block 0,
map 0, record in block 2) and `s = {"x": &B{V: 5}, "y": &B{V: 0}}` (block 1, map 1, records in
blocks 3 and 4). -/
def recordMapsSt : St :=
  { objs := [.map (some 0), .map (some 1), .struct [.int 1], .struct [.int 5], .struct [.int 0]],
    maps := [[(.str "x", .ptr (some ⟨2, []⟩))],
             [(.str "x", .ptr (some ⟨3, []⟩)), (.str "y", .ptr (some ⟨4, []⟩))]],
    visited := [] }

/-- Memory with two map variables: `d = {"b": 9}` (block 0, map 0) and a source map (block 1,
map 1) with the entries `src`, stored in the order in which they are enumerated. -/
def orderVarsSt (src : List (Key × Val)) : St :=
  { objs := [.map (some 0), .map (some 1)],
    maps := [[(.str "b", .int 9)], src],
    visited := [] }

/-- Memory with the records `Leaf{V: 1}`, `Leaf{V: 0}`, `Leaf{V: 3}` in blocks 0, 1, 2; the
operands `a = Pair{P: &blk0, Q: &blk1}` and `b = Pair{P: &blk1, Q: &blk2}` share block 1. -/
def crossSt : St :=
  { objs := [.struct [.int 1], .struct [.int 0], .struct [.int 3]],
    maps := [],
    visited := [] }

/-! ## Theorems -/

/-! ### The execution monad -/

@[simp] theorem M_bind_apply {α β : Type} (x : M α) (f : α → M β) (s : St) :
    (x >>= f) s = match x s with
      | .ok a s2 => f a s2
      | .panic msg => .panic msg
      | .timeout => .timeout := rfl

@[simp] theorem M_pure_apply {α : Type} (a : α) (s : St) : (pure a : M α) s = .ok a s := rfl

/-! ### Memory -/

theorem alloc_apply (v : Val) (s : St) : alloc v s = .ok s.objs.length (s.push v) := rfl

@[simp] theorem push_length (s : St) (v : Val) : (s.push v).objs.length = s.objs.length + 1 := by
  simp [St.push]

@[simp] theorem push_visited (s : St) (v : Val) : (s.push v).visited = s.visited := rfl

@[simp] theorem push_maps (s : St) (v : Val) : (s.push v).maps = s.maps := rfl

theorem push_objs_new (s : St) (v : Val) : (s.push v).objs[s.objs.length]? = some v := by
  simp [St.push]

theorem push_objs_old (s : St) (v : Val) (b : Nat) (h : b < s.objs.length) :
    (s.push v).objs[b]? = s.objs[b]? := by
  simp [St.push, List.getElem?_append_left h]

@[simp] theorem clearVisited_objs (s : St) : s.clearVisited.objs = s.objs := rfl

@[simp] theorem clearVisited_visited (s : St) : s.clearVisited.visited = [] := rfl

@[simp] theorem setObj_length (s : St) (b : Nat) (v : Val) :
    (s.setObj b v).objs.length = s.objs.length := by
  simp [St.setObj]

@[simp] theorem setObj_visited (s : St) (b : Nat) (v : Val) : (s.setObj b v).visited = s.visited := rfl

theorem setObj_objs_same (s : St) (b : Nat) (v : Val) (h : b < s.objs.length) :
    (s.setObj b v).objs[b]? = some v := by
  simp [St.setObj, h]

theorem setObj_objs_other (s : St) (b c : Nat) (v : Val) (h : c ≠ b) :
    (s.setObj b v).objs[c]? = s.objs[c]? := by
  simp [St.setObj, List.getElem?_set_ne (Ne.symm h)]

theorem setObj_setObj (s : St) (b : Nat) (v w : Val) : (s.setObj b v).setObj b w = s.setObj b w := by
  simp [St.setObj]

theorem list_set_self {α : Type} (l : List α) (i : Nat) (x : α) (h : l[i]? = some x) :
    l.set i x = l := by
  apply List.ext_getElem?
  intro j
  rw [List.getElem?_set]
  split
  · next hij =>
    subst hij
    split
    · exact h.symm
    · next hlt => rw [List.getElem?_eq_none (Nat.le_of_not_lt hlt)]
  · rfl

theorem take_succ_set {α : Type} (l : List α) (k : Nat) (v : α) (h : k < l.length) :
    (l.set k v).take (k + 1) = l.take k ++ [v] := by
  induction l generalizing k with
  | nil => simp at h
  | cons a l ih =>
    cases k with
    | zero => simp
    | succ k =>
      simp only [List.set_cons_succ, List.take_succ_cons, List.cons_append, List.cons.injEq, true_and]
      exact ih k (by simpa using h)

theorem drop_succ_set {α : Type} (l : List α) (k : Nat) (v : α) :
    (l.set k v).drop (k + 1) = l.drop (k + 1) := by
  induction l generalizing k with
  | nil => simp
  | cons a l ih =>
    cases k with
    | zero => simp
    | succ k =>
      simp only [List.set_cons_succ, List.drop_succ_cons]
      exact ih k

theorem setObj_self (s : St) (b : Nat) (v : Val) (h : s.objs[b]? = some v) : s.setObj b v = s := by
  cases s with
  | mk objs maps visited =>
    simp only [St.setObj, St.mk.injEq, and_true]
    simp only at h
    exact list_set_self _ _ _ h  
    
theorem readLoc_of_read {s : St} {l : Loc} {v : Val} (h : s.read l = some v) :
    readLoc l s = .ok v s := by
  simp [readLoc, h]

theorem writeLoc_of_write {s s2 : St} {l : Loc} {v : Val} (h : s.write l v = some s2) :
    writeLoc l v s = .ok () s2 := by
  simp [writeLoc, h]

theorem read_root (s : St) (b : Nat) (v : Val) (h : s.objs[b]? = some v) :
    s.read ⟨b, []⟩ = some v := by
  simp [St.read, h, Val.get]

theorem read_field (s : St) (b i : Nat) (fs : List Val) (x : Val)
    (hb : s.objs[b]? = some (.struct fs)) (hi : fs[i]? = some x) :
    s.read ⟨b, [i]⟩ = some x := by
  simp [St.read, hb, Val.get, Val.children, hi]

theorem write_field (s : St) (b i : Nat) (fs : List Val) (x : Val)
    (hb : s.objs[b]? = some (.struct fs)) (hi : i < fs.length) :
    s.write ⟨b, [i]⟩ x = some (s.setObj b (.struct (fs.set i x))) := by
  simp [St.write, hb, Val.set, Val.children, hi, Val.withChildren, St.setObj]


@[simp] theorem mark_objs (s : St) (a : Nat × Nat) : (s.mark a).objs = s.objs := rfl

@[simp] theorem mark_maps (s : St) (a : Nat × Nat) : (s.mark a).maps = s.maps := rfl

@[simp] theorem mark_visited (s : St) (a : Nat × Nat) : (s.mark a).visited = a :: s.visited := rfl

/-! ### The engine on scalars and flat records -/

theorem New_nil (decls : Decls) :
    New decls [] = ⟨defaultPointerFunc, defaultStructFunc decls, defaultSliceFunc decls,
      defaultArrayFunc, defaultMapFunc decls, defaultDefaultFunc⟩ := rfl

/-- An empty source read from memory is skipped. -/
theorem deepMerge_skip (m : merge) (fuel : Nat) (dst : RV) (ty : Ty) (sl : Loc) (ro : Bool)
    (p : String) (s : St) (x : Val) (hx : s.read sl = some x) (hz : x.isZero = true) :
    m.deepMerge (fuel + 1) dst (.lval ty sl ro) p s = .ok none s := by
  simp [merge.deepMerge, RV.IsValid, RV.IsZero, RV.load, readLoc_of_read hx, hz]

/-- A non-empty scalar source overwrites a settable destination. -/
theorem deepMerge_scalar (m : merge) (hm : m.defaultMerge = defaultDefaultFunc)
    (fuel : Nat) (ty : Ty) (hty : ty.isScalar = true) (dl sl : Loc) (p : String)
    (s s2 : St) (x : Val) (hx : s.read sl = some x) (hz : x.isZero = false)
    (hw : s.write dl x = some s2) :
    m.deepMerge (fuel + 1) (.lval ty dl false) (.lval ty sl false) p s = .ok none s2 := by
  cases ty <;> simp [Ty.isScalar] at hty <;>
  simp [merge.deepMerge, RV.IsValid, RV.IsZero, RV.load, readLoc_of_read hx, hz, reconcile, RV.Type,
    RV.Kind, Ty.kind, RV.CanAddr, hm, defaultDefaultFunc, RV.CanSet, RV.Set, RV.isRO,
    writeLoc_of_write hw]

/-- The engine on field `i` of two flat records held in blocks `D` and `S`. -/
theorem deepMerge_leaf (m : merge) (hm : m.defaultMerge = defaultDefaultFunc)
    (fuel : Nat) (ty : Ty) (hty : ty.isScalar = true) (D S i : Nat) (ds ss : List Val) (d x : Val)
    (p : String) (s : St)
    (hD : s.objs[D]? = some (.struct ds)) (hS : s.objs[S]? = some (.struct ss))
    (hd : ds[i]? = some d) (hx : ss[i]? = some x) :
    m.deepMerge (fuel + 1) (.lval ty ⟨D, [i]⟩ false) (.lval ty ⟨S, [i]⟩ false) p s =
      .ok none (s.setObj D (.struct (ds.set i (pick d x)))) := by
  have hrx := read_field s S i ss x hS hx
  cases hz : x.isZero with
  | true =>
    rw [deepMerge_skip m fuel _ ty _ false p s x hrx hz]
    simp only [pick, hz, if_true]
    rw [list_set_self ds i d hd, setObj_self s D _ hD]
  | false =>
    have hi : i < ds.length := by
      by_contra hcon
      rw [List.getElem?_eq_none (Nat.le_of_not_lt hcon)] at hd
      cases hd
    have hw := write_field s D i ds x hD hi
    rw [deepMerge_scalar m hm fuel ty hty _ _ p s _ x hrx hz hw]
    simp [pick, hz]


/-- One iteration of the record handler on field `i` of two flat records. -/
theorem structFieldStep_flat (decls : Decls) (m : merge) (hm : m.defaultMerge = defaultDefaultFunc)
    (fuel : Nat) (name : String) (fd : FieldDecl) (D S i : Nat) (ds ss : List Val) (d x : Val)
    (dType : Ty) (p : String) (s : St)
    (hfd : (fieldsOf decls name)[i]? = some fd) (hex : fd.exported = true)
    (hty : fd.ty.isScalar = true)
    (hD : s.objs[D]? = some (.struct ds)) (hS : s.objs[S]? = some (.struct ss))
    (hd : ds[i]? = some d) (hx : ss[i]? = some x) :
    structFieldStep decls (m.deepMerge (fuel + 1)) (.lval (.struct name) ⟨D, []⟩ false)
        (.lval (.struct name) ⟨S, []⟩ false) dType p i s =
      .ok none (s.setObj D (.struct (ds.set i (pick d x)))) := by
  simp [structFieldStep, RV.Field, hfd, hex, RV.CanSet,
    deepMerge_leaf m hm fuel fd.ty hty D S i ds ss d x _ s hD hS hd hx]

/-- The loop of the record handler over the fields `k, k+1, ..., k+n-1` of two flat records. -/
theorem forEach_flat (decls : Decls) (m : merge) (hm : m.defaultMerge = defaultDefaultFunc)
    (fuel : Nat) (name : String) (D S : Nat) (hDS : D ≠ S) (ss : List Val) (dType : Ty) (p : String)
    (hfields : ∀ fd ∈ fieldsOf decls name, fd.exported = true ∧ fd.ty.isScalar = true)
    (hslen : ss.length = (fieldsOf decls name).length) :
    ∀ (n k : Nat) (ds : List Val) (s : St),
      k + n = (fieldsOf decls name).length → ds.length = (fieldsOf decls name).length →
      s.objs[D]? = some (.struct ds) → s.objs[S]? = some (.struct ss) →
      forEach (structFieldStep decls (m.deepMerge (fuel + 1)) (.lval (.struct name) ⟨D, []⟩ false)
          (.lval (.struct name) ⟨S, []⟩ false) dType p) (List.range' k n) s =
        .ok none (s.setObj D (.struct (ds.take k ++ List.zipWith pick (ds.drop k) (ss.drop k)))) := by
  intro n
  induction n with
  | zero =>
    intro k ds s hk hdl hD _
    have hk2 : k = ds.length := by omega
    have : List.drop k ds = [] := by simp [hk2]
    simp [forEach, List.range', this, hk2, setObj_self s D _ hD]
  | succ n ih =>
    intro k ds s hk hdl hD hS
    have hkd : k < ds.length := by omega
    have hks : k < ss.length := by omega
    have hkf : k < (fieldsOf decls name).length := by omega
    have hfd : (fieldsOf decls name)[k]? = some ((fieldsOf decls name)[k]) := List.getElem?_eq_getElem hkf
    obtain ⟨hex, hty⟩ := hfields _ (List.getElem_mem hkf)
    have hd : ds[k]? = some ds[k] := List.getElem?_eq_getElem hkd
    have hx : ss[k]? = some ss[k] := List.getElem?_eq_getElem hks
    have hDlt : D < s.objs.length := by
      by_contra hcon
      rw [List.getElem?_eq_none (Nat.le_of_not_lt hcon)] at hD
      cases hD
    simp only [List.range', forEach, M_bind_apply]
    rw [structFieldStep_flat decls m hm fuel name _ D S k ds ss _ _ dType p s hfd hex hty hD hS hd hx]
    simp only []
    rw [ih (k + 1) (ds.set k (pick ds[k] ss[k])) _ (by omega) (by simp [hdl])
      (setObj_objs_same s D _ hDlt) (by rw [setObj_objs_other s D S _ (Ne.symm hDS)]; exact hS)]
    rw [setObj_setObj]
    congr 3
    rw [List.drop_eq_getElem_cons hkd, List.drop_eq_getElem_cons hks]
    simp only [List.zipWith_cons_cons]
    rw [take_succ_set ds k _ hkd, drop_succ_set]
    simp


/-- The engine on two flat records of scalars held in distinct blocks `D` and `S`: an empty
source is skipped, otherwise the source is marked visited and overlaid field by field. -/
theorem deepMerge_flat (decls : Decls) (m : merge) (hms : m.structMerge = defaultStructFunc decls)
    (hm : m.defaultMerge = defaultDefaultFunc)
    (fuel : Nat) (name : String) (D S : Nat) (hDS : D ≠ S) (ds ss : List Val) (p : String) (s : St)
    (hfields : ∀ fd ∈ fieldsOf decls name, fd.exported = true ∧ fd.ty.isScalar = true)
    (hdlen : ds.length = (fieldsOf decls name).length)
    (hslen : ss.length = (fieldsOf decls name).length)
    (hD : s.objs[D]? = some (.struct ds)) (hS : s.objs[S]? = some (.struct ss))
    (hnv : (S, 0) ∉ s.visited) :
    m.deepMerge (fuel + 2) (.lval (.struct name) ⟨D, []⟩ false) (.lval (.struct name) ⟨S, []⟩ false) p s =
      .ok none (if (Val.struct ss).isZero = true then s
        else (s.mark (S, 0)).setObj D (.struct (List.zipWith pick ds ss))) := by
  have hrS := read_root s S _ hS
  cases hz : (Val.struct ss).isZero with
  | true =>
    rw [deepMerge_skip m (fuel + 1) _ _ _ false p s _ hrS hz]
    simp
  | false =>
    have hloop := forEach_flat decls m hm fuel name D S hDS ss (.struct name) p hfields hslen
      (fieldsOf decls name).length 0 ds (s.mark (S, 0)) (by simp) hdlen hD hS
    rw [← List.range_eq_range'] at hloop
    rw [merge.deepMerge]
    simp [RV.IsValid, RV.IsZero, RV.load, readLoc_of_read hrS, hz, reconcile, RV.Type,
      RV.Kind, Ty.kind, RV.CanAddr, RV.Pointer, hS, Val.offsetOf, isVisited, hnv, markVisited, hms,
      defaultStructFunc, RV.NumField, hloop]


theorem write_root (s : St) (b : Nat) (v : Val) (h : b < s.objs.length) :
    s.write ⟨b, []⟩ v = some (s.setObj b v) := by
  simp [St.write, List.getElem?_eq_getElem h, Val.set, St.setObj]

theorem push_setObj_new (s : St) (z v : Val) : (s.push z).setObj s.objs.length v = s.push v := by
  simp [St.push, St.setObj]

/-- The top-level node of a fold step: both operands are pointers to variables, the default
pointer handler follows the destination and the engine merges the variables. -/
theorem deepMerge_top (m : merge) (hm : m.pointerMerge = defaultPointerFunc) (T : Ty) (fuel : Nat)
    (d sv : Nat) (p : String) (s : St) :
    m.deepMerge (fuel + 1) (.rval (.ptr T) (.ptr (some ⟨d, []⟩)) false)
        (.rval (.ptr T) (.ptr (some ⟨sv, []⟩)) false) p s =
      m.deepMerge fuel (.lval T ⟨d, []⟩ false) (.lval T ⟨sv, []⟩ false) p s := by
  rw [merge.deepMerge]
  simp [RV.IsValid, RV.IsZero, RV.load, Val.isZero, reconcile, RV.Type, RV.Kind, Ty.kind,
    RV.Elem, RV.CanAddr, hm, defaultPointerFunc]

/-- `Merge` of two or more operands: the destination variable, the empty visited set, the
loop variable, then the loop. -/
theorem Merge_unfold (decls : Decls) (m : merge) (T : Ty) (fuel : Nat) (x y : Val)
    (rest : List Val) (s : St) :
    m.Merge decls T fuel (x :: y :: rest) s =
      mergeLoop m T fuel s.objs.length (s.objs.length + 1) (y :: rest)
        ((s.push x).clearVisited.push (zeroOf decls T)) := by
  simp [merge.Merge, alloc_apply]

/-- One iteration of the loop of `Merge`, with the default pointer handler. -/
theorem mergeLoop_cons (m : merge) (hm : m.pointerMerge = defaultPointerFunc) (T : Ty) (fuel : Nat)
    (d sv : Nat) (src : Val) (rest : List Val) (s : St) (hsv : sv < s.objs.length) :
    mergeLoop m T (fuel + 1) d sv (src :: rest) s =
      match m.deepMerge fuel (.lval T ⟨d, []⟩ false) (.lval T ⟨sv, []⟩ false) ""
          (s.setObj sv src) with
      | .ok (some err) s2 =>
        (match s2.read ⟨d, []⟩ with
         | some v => .ok (v, some err) s2
         | none => .panic "invalid memory address")
      | .ok none s2 => mergeLoop m T (fuel + 1) d sv rest s2
      | .panic msg => .panic msg
      | .timeout => .timeout := by
  simp only [mergeLoop, M_bind_apply, writeLoc_of_write (write_root s sv src hsv),
    deepMerge_top m hm]
  generalize m.deepMerge fuel _ _ "" _ = r
  rcases r with ⟨a, s2⟩ | msg | _
  · cases a with
    | none => rfl
    | some e => cases h : s2.read ⟨d, []⟩ <;> simp [readLoc, h]
  · rfl
  · rfl

/-- The first iteration of the loop of `Merge`: the loop variable receives the second
operand. -/
theorem Merge_first (decls : Decls) (m : merge) (hm : m.pointerMerge = defaultPointerFunc)
    (T : Ty) (fuel : Nat) (x y : Val) (rest : List Val) (s : St) :
    m.Merge decls T (fuel + 1) (x :: y :: rest) s =
      match m.deepMerge fuel (.lval T ⟨s.objs.length, []⟩ false)
          (.lval T ⟨s.objs.length + 1, []⟩ false) "" ((s.push x).clearVisited.push y) with
      | .ok (some err) s2 =>
        (match s2.read ⟨s.objs.length, []⟩ with
         | some v => .ok (v, some err) s2
         | none => .panic "invalid memory address")
      | .ok none s2 => mergeLoop m T (fuel + 1) s.objs.length (s.objs.length + 1) rest s2
      | .panic msg => .panic msg
      | .timeout => .timeout := by
  rw [Merge_unfold, mergeLoop_cons m hm T fuel _ _ y rest _ (by simp)]
  have h : ((s.push x).clearVisited.push (zeroOf decls T)).setObj (s.objs.length + 1) y =
      (s.push x).clearVisited.push y := by
    have := push_setObj_new (s.push x).clearVisited (zeroOf decls T) y
    simpa using this
  rw [h]

theorem zipWith_pick_allZero (ds ss : List Val) (h : Val.allZero ss = true) :
    List.zipWith pick ds ss = ds.take ss.length := by
  induction ss generalizing ds with
  | nil => simp
  | cons x ss ih =>
    cases ds with
    | nil => simp
    | cons d ds =>
      simp only [Val.allZero, Bool.and_eq_true] at h
      simp [pick, h.1, ih ds h.2]

/-- A record source whose address is in the visited set is skipped. -/
theorem deepMerge_seen (m : merge) (fuel : Nat) (name : String) (dl : Loc) (S : Nat)
    (ss : List Val) (p : String) (s : St) (hS : s.objs[S]? = some (.struct ss))
    (hv : (S, 0) ∈ s.visited) :
    m.deepMerge (fuel + 1) (.lval (.struct name) dl false) (.lval (.struct name) ⟨S, []⟩ false) p s =
      .ok none s := by
  have hrS := read_root s S _ hS
  cases hz : (Val.struct ss).isZero with
  | true => exact deepMerge_skip m fuel _ _ _ false p s _ hrS hz
  | false =>
    rw [merge.deepMerge]
    simp [RV.IsValid, RV.IsZero, RV.load, readLoc_of_read hrS, hz, reconcile, RV.Type,
      RV.Kind, Ty.kind, RV.CanAddr, RV.Pointer, hS, Val.offsetOf, isVisited, hv]

/-- The loop of `Merge` on record operands once the loop variable is in the visited set:
every operand is skipped and the destination stays as it is. -/
theorem mergeLoop_seen (m : merge) (hmp : m.pointerMerge = defaultPointerFunc) (fuel : Nat)
    (name : String) (d sv : Nat) (hne : d ≠ sv) (cur : Val) :
    ∀ (rest : List Val) (s : St),
      (∀ o ∈ rest, ∃ fs, o = .struct fs) → sv < s.objs.length →
      s.objs[d]? = some cur → (sv, 0) ∈ s.visited →
      ∃ s2, mergeLoop m (.struct name) (fuel + 2) d sv rest s = .ok (cur, none) s2 := by
  intro rest
  induction rest with
  | nil =>
    intro s _ _ hd _
    exact ⟨s, by simp [mergeLoop, readLoc_of_read (read_root s d _ hd)]⟩
  | cons o rest ih =>
    intro s hrest hsv hd hv
    obtain ⟨fs, rfl⟩ := hrest o (List.mem_cons_self _ _)
    rw [mergeLoop_cons m hmp _ _ _ _ _ _ _ hsv,
      deepMerge_seen m fuel name _ sv fs "" _ (setObj_objs_same s sv _ hsv) (by simpa using hv)]
    simp only []
    exact ih _ (fun o ho => hrest o (List.mem_cons_of_mem _ ho)) (by simpa using hsv)
      (by rw [setObj_objs_other s sv d _ hne]; exact hd) (by simpa using hv)

/-- The loop of `Merge` on flat records of scalars: empty operands are skipped, the first
non-empty one is overlaid on the destination and puts the loop variable into the visited
set, and every operand after it is skipped. -/
theorem mergeLoop_flat (decls : Decls) (m : merge) (hmp : m.pointerMerge = defaultPointerFunc)
    (hms : m.structMerge = defaultStructFunc decls) (hm : m.defaultMerge = defaultDefaultFunc)
    (fuel : Nat) (name : String)
    (hfields : ∀ fd ∈ fieldsOf decls name, fd.exported = true ∧ fd.ty.isScalar = true)
    (d sv : Nat) (hne : d ≠ sv) (cur : List Val)
    (hcur : cur.length = (fieldsOf decls name).length) :
    ∀ (rest : List Val) (s : St),
      (∀ o ∈ rest, ∃ fs, o = .struct fs ∧ fs.length = (fieldsOf decls name).length) →
      sv < s.objs.length → s.objs[d]? = some (.struct cur) → (sv, 0) ∉ s.visited →
      ∃ s2, mergeLoop m (.struct name) (fuel + 3) d sv rest s =
          .ok (overlayFirst (.struct cur) rest, none) s2 := by
  intro rest
  induction rest with
  | nil =>
    intro s _ _ hd _
    exact ⟨s, by simp [mergeLoop, readLoc_of_read (read_root s d _ hd), overlayFirst,
      firstNonEmpty]⟩
  | cons o rest ih =>
    intro s hrest hsv hd hnv
    obtain ⟨fs, rfl, hfs⟩ := hrest o (List.mem_cons_self _ _)
    have hdlt : d < s.objs.length := by
      by_contra hcon
      rw [List.getElem?_eq_none (Nat.le_of_not_lt hcon)] at hd
      cases hd
    have hd2 : (s.setObj sv (.struct fs)).objs[d]? = some (.struct cur) := by
      rw [setObj_objs_other s sv d _ hne]; exact hd
    rw [mergeLoop_cons m hmp _ _ _ _ _ _ _ hsv,
      deepMerge_flat decls m hms hm fuel name d sv hne cur fs "" _ hfields hcur hfs hd2
        (setObj_objs_same s sv _ hsv) (by simpa using hnv)]
    simp only []
    cases hz : (Val.struct fs).isZero with
    | true =>
      simp only [if_true]
      obtain ⟨s2, h1⟩ := ih _ (fun o ho => hrest o (List.mem_cons_of_mem _ ho))
        (by simpa using hsv) hd2 (by simpa using hnv)
      exact ⟨s2, by rw [h1]; simp [overlayFirst, firstNonEmpty, List.find?, hz]⟩
    | false =>
      simp only [Bool.false_eq_true, if_false]
      obtain ⟨s2, h1⟩ := mergeLoop_seen m hmp (fuel + 1) name d sv hne
        (.struct (List.zipWith pick cur fs)) rest
        (((s.setObj sv (.struct fs)).mark (sv, 0)).setObj d (.struct (List.zipWith pick cur fs)))
        (fun o ho => by
          obtain ⟨gs, hg, _⟩ := hrest o (List.mem_cons_of_mem _ ho)
          exact ⟨gs, hg⟩)
        (by simpa using hsv)
        (setObj_objs_same _ d _ (by simpa using hdlt))
        (by simp)
      exact ⟨s2, by rw [h1]; simp [overlayFirst, firstNonEmpty, List.find?, hz, overlay,
        Val.children]⟩

/-- `Merge` on flat records of scalars: the first operand overlaid by the first non-empty
operand after it; the operands after that one are dropped. -/
theorem Merge_flat (decls : Decls) (m : merge) (hmp : m.pointerMerge = defaultPointerFunc)
    (hms : m.structMerge = defaultStructFunc decls) (hm : m.defaultMerge = defaultDefaultFunc)
    (fuel : Nat) (name : String)
    (hfields : ∀ fd ∈ fieldsOf decls name, fd.exported = true ∧ fd.ty.isScalar = true)
    (x : Val) (rest : List Val) (s : St)
    (hos : ∀ o ∈ x :: rest, ∃ fs, o = .struct fs ∧ fs.length = (fieldsOf decls name).length) :
    ∃ s2, m.Merge decls (.struct name) (fuel + 3) (x :: rest) s =
      .ok (overlayFirst x rest, none) s2 := by
  obtain ⟨xs, rfl, hxs⟩ := hos x (List.mem_cons_self _ _)
  cases rest with
  | nil => exact ⟨s, rfl⟩
  | cons y rest =>
    rw [Merge_unfold]
    exact mergeLoop_flat decls m hmp hms hm fuel name hfields s.objs.length (s.objs.length + 1)
      (by omega) xs hxs (y :: rest) _ (fun o ho => hos o (List.mem_cons_of_mem _ ho))
      (by simp) (by
        rw [push_objs_old _ _ _ (by simp)]
        exact push_objs_new s _) (by simp)

/-- `Merge(a, b)` on a flat record type is the overlay of the two records. -/
theorem Merge_flat_pair (decls : Decls) (name : String)
    (hfields : ∀ fd ∈ fieldsOf decls name, fd.exported = true ∧ fd.ty.isScalar = true)
    (as bs : List Val) (ha : as.length = (fieldsOf decls name).length)
    (hb : bs.length = (fieldsOf decls name).length) (fuel : Nat) (s : St) :
    ∃ s2, Merge decls (.struct name) (fuel + 3) (.struct as) (.struct bs) [] s =
      .ok (.struct (List.zipWith pick as bs), none) s2 := by
  obtain ⟨s2, h⟩ := Merge_flat decls (New decls []) rfl rfl rfl fuel name hfields
    (.struct as) [.struct bs] s (by
      intro o ho
      simp only [List.mem_cons, List.mem_singleton, List.not_mem_nil, or_false] at ho
      rcases ho with rfl | rfl
      · exact ⟨as, rfl, ha⟩
      · exact ⟨bs, rfl, hb⟩)
  refine ⟨s2, ?_⟩
  rw [Merge, h]
  cases hz : (Val.struct bs).isZero with
  | true =>
    have h2 : List.zipWith pick as bs = as := by
      rw [zipWith_pick_allZero as bs (by simpa [Val.isZero] using hz), hb, ← ha]
      simp
    simp [overlayFirst, firstNonEmpty, List.find?, hz, h2]
  | false => simp [overlayFirst, firstNonEmpty, List.find?, hz, overlay, Val.children]

theorem zeroVal_scalar (decls : Decls) (n : Nat) (ty : Ty) (h : ty.isScalar = true) :
    zeroVal decls n ty = zeroTy (fun _ => .struct []) ty := by
  cases n <;> cases ty <;> simp [Ty.isScalar] at h <;> rfl

/-- A zero value of scalar type is the zero value of the type. -/
theorem eq_zeroOf_of_isZero (decls : Decls) (v : Val) (ty : Ty) (hs : ty.isScalar = true)
    (ht : v.hasTy decls ty = true) (hz : v.isZero = true) : v = zeroOf decls ty := by
  rw [zeroOf, zeroVal_scalar decls _ ty hs]
  cases ty <;> simp [Ty.isScalar] at hs <;> cases v <;> simp [Val.hasTy] at ht <;>
    simp_all [Val.isZero, zeroTy]

theorem hasTy_struct (decls : Decls) (o : Val) (name : String)
    (h : o.hasTy decls (.struct name) = true) :
    ∃ fs, o = .struct fs ∧ Val.fieldsHaveTy decls fs ((fieldsOf decls name).map (fun fd => fd.ty)) = true := by
  cases o <;> simp [Val.hasTy] at h
  exact ⟨_, rfl, h⟩

theorem fieldsHaveTy_length (decls : Decls) (fs : List Val) (ts : List Ty)
    (h : Val.fieldsHaveTy decls fs ts = true) : fs.length = ts.length := by
  induction fs generalizing ts with
  | nil => cases ts <;> simp_all [Val.fieldsHaveTy]
  | cons v fs ih =>
    cases ts with
    | nil => simp [Val.fieldsHaveTy] at h
    | cons t ts =>
      simp only [Val.fieldsHaveTy, Bool.and_eq_true] at h
      simp [ih ts h.2]

theorem fieldsHaveTy_get (decls : Decls) (fs : List Val) (ts : List Ty)
    (h : Val.fieldsHaveTy decls fs ts = true) (i : Nat) (v : Val) (t : Ty)
    (hv : fs[i]? = some v) (ht : ts[i]? = some t) : v.hasTy decls t = true := by
  induction fs generalizing ts i with
  | nil => simp at hv
  | cons w fs ih =>
    cases ts with
    | nil => simp at ht
    | cons u ts =>
      simp only [Val.fieldsHaveTy, Bool.and_eq_true] at h
      cases i with
      | zero =>
        simp at hv ht
        subst hv; subst ht
        exact h.1
      | succ i =>
        simp at hv ht
        exact ih ts h.2 i hv ht

/-- C2: the operands after the first non-empty one are dropped.  For every record type whose
fields are all exported scalars and every list of operands of that type, `Merge` with the
default handlers returns no error and the first operand overlaid by the first non-empty
operand after it: the range variable `src` is one variable, its address enters the visited
set with that operand, and the cycle guard skips every later operand.  On the four operands
`{Host: "a"}`, `{Port: 8080, Debug: true}`, `{Host: "c"}`, `{}` the result has `Host = "a"`,
where the last operand with a non-empty `Host` has `"c"`. -/
theorem later_operands_dropped :
    (∀ (decls : Decls) (name : String) (x : Val) (rest : List Val) (fuel : Nat) (s : St),
      (∀ fd ∈ fieldsOf decls name, fd.exported = true ∧ fd.ty.isScalar = true) →
      (∀ o ∈ x :: rest, o.hasTy decls (.struct name) = true) →
      ∃ s2, (New decls []).Merge decls (.struct name) (fuel + 3) (x :: rest) s =
        .ok (overlayFirst x rest, none) s2) ∧
    (∃ s2, (New flatDecls []).Merge flatDecls (.struct "Conf") 3 flatOperands ⟨[], [], []⟩ =
      .ok (.struct [.str "a", .int 8080, .bool true, .nilIface], none) s2) ∧
    lastNonEmpty (zeroOf flatDecls .string) (fieldColumn 0 flatOperands) = .str "c" := by
  have gen : ∀ (decls : Decls) (name : String) (x : Val) (rest : List Val) (fuel : Nat) (s : St),
      (∀ fd ∈ fieldsOf decls name, fd.exported = true ∧ fd.ty.isScalar = true) →
      (∀ o ∈ x :: rest, o.hasTy decls (.struct name) = true) →
      ∃ s2, (New decls []).Merge decls (.struct name) (fuel + 3) (x :: rest) s =
        .ok (overlayFirst x rest, none) s2 := by
    intro decls name x rest fuel s hfields hty
    exact Merge_flat decls (New decls []) rfl rfl rfl fuel name hfields x rest s (by
      intro o ho
      obtain ⟨fs, rfl, hfs⟩ := hasTy_struct decls o name (hty o ho)
      exact ⟨fs, rfl, by simpa using fieldsHaveTy_length decls fs _ hfs⟩)
  refine ⟨gen, ?_, by decide⟩
  obtain ⟨s2, h⟩ := gen flatDecls "Conf" (.struct [.str "a", .int 0, .bool false, .nilIface])
    [.struct [.str "", .int 8080, .bool true, .nilIface],
     .struct [.str "c", .int 0, .bool false, .nilIface],
     .struct [.str "", .int 0, .bool false, .nilIface]] 0 ⟨[], [], []⟩ (by decide) (by decide)
  have hv : overlayFirst (.struct [.str "a", .int 0, .bool false, .nilIface])
      [.struct [.str "", .int 8080, .bool true, .nilIface],
       .struct [.str "c", .int 0, .bool false, .nilIface],
       .struct [.str "", .int 0, .bool false, .nilIface]] =
      .struct [.str "a", .int 8080, .bool true, .nilIface] := by decide
  exact ⟨s2, by rw [flatOperands, h, hv]⟩


/-- The skip rule of `deepMerge`: an invalid or empty source returns at once. -/
theorem deepMerge_inert (m : merge) (fuel : Nat) (dst src : RV) (p : String) (s : St)
    (h : src = .invalid ∨ src.IsZero s = .ok true s) :
    m.deepMerge (fuel + 1) dst src p s = .ok none s := by
  rw [merge.deepMerge]
  rcases h with rfl | h
  · simp [RV.IsValid]
  · cases src <;> simp [RV.IsValid, h]

/-- `Merge(x, z)` for an empty `z`, with the default pointer handler in place. -/
theorem Merge_zero_later (decls : Decls) (m : merge) (hm : m.pointerMerge = defaultPointerFunc)
    (T : Ty) (fuel : Nat) (x z : Val) (s : St) (hz : z.isZero = true) :
    m.Merge decls T (fuel + 2) [x, z] s = .ok (x, none) ((s.push x).clearVisited.push z) := by
  have hx : ((s.push x).clearVisited.push z).read ⟨s.objs.length, []⟩ = some x :=
    read_root _ _ _ (by
      rw [push_objs_old _ _ _ (by simp)]
      exact push_objs_new s x)
  have hzr : ((s.push x).clearVisited.push z).read ⟨s.objs.length + 1, []⟩ = some z :=
    read_root _ _ _ (by
      have := push_objs_new (s.push x).clearVisited z
      simpa using this)
  rw [Merge_first decls m hm T (fuel + 1) x z [] s,
    deepMerge_skip m fuel _ T _ false "" _ z hzr hz]
  simp [mergeLoop, readLoc_of_read hx]

/-- C3: an empty source is inert.  For every handler table, destination, path and memory,
`deepMerge` on a source that is invalid or equal to the zero value of its type returns
success with the memory unchanged; as this holds for every handler table, also for one
whose handlers all panic, no handler is invoked.  Consequently, with the default pointer
handler in place, `Merge(x, z)` for an empty `z` returns `x` and no error, and memory only
gains the two variables of the call. -/
theorem empty_source_inert :
    (∀ (m : merge) (fuel : Nat) (dst src : RV) (p : String) (s : St),
        (src = .invalid ∨ src.IsZero s = .ok true s) →
        m.deepMerge (fuel + 1) dst src p s = .ok none s) ∧
    (∀ (decls : Decls) (m : merge) (T : Ty) (fuel : Nat) (x z : Val) (s : St),
        m.pointerMerge = defaultPointerFunc → z.isZero = true →
        m.Merge decls T (fuel + 2) [x, z] s = .ok (x, none) ((s.push x).clearVisited.push z)) :=
  ⟨deepMerge_inert, fun decls m T fuel x z s hm hz => Merge_zero_later decls m hm T fuel x z s hz⟩

/-- Witness for C3: an engine whose handlers all panic skips the empty source `0`, and the
default engine merges `5` with `0` into `5`. -/
theorem empty_source_inert_witness :
    (RV.rval .int (.int 0) false).IsZero ⟨[], [], []⟩ = .ok true ⟨[], [], []⟩ ∧
    newMerge.deepMerge 1 .invalid (.rval .int (.int 0) false) "" ⟨[], [], []⟩ = .ok none ⟨[], [], []⟩ ∧
    (New [] []).pointerMerge = defaultPointerFunc ∧
    (Val.int 0).isZero = true ∧
    (New [] []).Merge [] .int 2 [.int 5, .int 0] ⟨[], [], []⟩ =
      .ok (.int 5, none) ⟨[.int 5, .int 0], [], []⟩ :=
  ⟨rfl, empty_source_inert.1 newMerge 0 .invalid _ "" _ (Or.inr rfl), rfl, rfl,
    empty_source_inert.2 [] (New [] []) .int 0 (.int 5) (.int 0) ⟨[], [], []⟩ rfl rfl⟩

/-- Overlaying typed scalars on the zero values of their types gives them back. -/
theorem zipWith_pick_zero (decls : Decls) (fds : List FieldDecl) (xs : List Val)
    (hs : ∀ fd ∈ fds, fd.ty.isScalar = true)
    (ht : Val.fieldsHaveTy decls xs (fds.map (fun fd => fd.ty)) = true) :
    List.zipWith pick (fds.map (fun fd => zeroOf decls fd.ty)) xs = xs := by
  induction fds generalizing xs with
  | nil => cases xs <;> simp_all [Val.fieldsHaveTy]
  | cons fd fds ih =>
    cases xs with
    | nil => simp [Val.fieldsHaveTy] at ht
    | cons x xs =>
      simp only [List.map_cons, Val.fieldsHaveTy, Bool.and_eq_true] at ht
      simp only [List.map_cons, List.zipWith_cons_cons, List.cons.injEq]
      refine ⟨?_, ih xs (fun fd h => hs fd (List.mem_cons_of_mem _ h)) ht.2⟩
      cases hz : x.isZero with
      | false => simp [pick, hz]
      | true =>
        simp only [pick, hz, if_true]
        exact (eq_zeroOf_of_isZero decls x fd.ty (hs fd (List.mem_cons_self _ _)) ht.1 hz).symm

theorem zeroTy_scalar (r1 r2 : String → Val) (ty : Ty) (h : ty.isScalar = true) :
    zeroTy r1 ty = zeroTy r2 ty := by
  cases ty <;> simp [Ty.isScalar] at h <;> rfl

/-- The zero value of a flat record of scalars is the record of the zero values. -/
theorem zeroOf_flat (decls : Decls) (name : String)
    (hs : ∀ fd ∈ fieldsOf decls name, fd.ty.isScalar = true) :
    zeroOf decls (.struct name) = .struct ((fieldsOf decls name).map (fun fd => zeroOf decls fd.ty)) := by
  cases decls with
  | nil => simp [zeroOf, zeroVal, zeroTy, fieldsOf, List.lookup]
  | cons d decls =>
    simp only [zeroOf, List.length_cons, zeroVal, zeroTy, Val.struct.injEq]
    apply List.map_congr_left
    intro fd hfd
    rw [zeroVal_scalar _ _ _ (hs fd hfd)]
    exact zeroTy_scalar _ _ fd.ty (hs fd hfd)

theorem pick_pick (d x : Val) : pick (pick d x) x = pick d x := by
  cases hz : x.isZero <;> simp [pick, hz]

theorem pick_self (x : Val) : pick x x = x := by
  cases hz : x.isZero <;> simp [pick, hz]

theorem zipWith_pick_idem (ds xs : List Val) :
    List.zipWith pick (List.zipWith pick ds xs) xs = List.zipWith pick ds xs := by
  induction ds generalizing xs with
  | nil => simp
  | cons d ds ih =>
    cases xs with
    | nil => simp
    | cons x xs => simp [pick_pick, ih xs]

theorem zipWith_pick_self (xs : List Val) : List.zipWith pick xs xs = xs := by
  induction xs with
  | nil => rfl
  | cons x xs ih => simp [pick_self, ih]

/-- `Merge(a, b)` on a scalar type. -/
theorem Merge_scalar (decls : Decls) (m : merge) (hmp : m.pointerMerge = defaultPointerFunc)
    (hm : m.defaultMerge = defaultDefaultFunc) (T : Ty) (hT : T.isScalar = true) (a x : Val)
    (fuel : Nat) (s : St) :
    ∃ s2, m.Merge decls T (fuel + 2) [a, x] s = .ok (pick a x, none) s2 := by
  have hxr : ((s.push a).clearVisited.push x).read ⟨s.objs.length + 1, []⟩ = some x :=
    read_root _ _ _ (by
      have := push_objs_new (s.push a).clearVisited x
      simpa using this)
  have hd : ((s.push a).clearVisited.push x).objs[s.objs.length]? = some a := by
    rw [push_objs_old _ _ _ (by simp)]
    exact push_objs_new s _
  rw [Merge_first decls m hmp T (fuel + 1) a x [] s]
  cases hz : x.isZero with
  | true =>
    rw [deepMerge_skip m fuel _ T _ false "" _ x hxr hz]
    refine ⟨(s.push a).clearVisited.push x, ?_⟩
    simp only [mergeLoop, M_bind_apply, readLoc_of_read (read_root _ _ _ hd), M_pure_apply,
      pick, hz, if_true]
  | false =>
    have hlt : s.objs.length < ((s.push a).clearVisited.push x).objs.length := by
      simp only [push_length, clearVisited_objs]
      omega
    have hw := write_root ((s.push a).clearVisited.push x) s.objs.length x hlt
    rw [deepMerge_scalar m hm fuel T hT _ _ "" _ _ x hxr hz hw]
    refine ⟨((s.push a).clearVisited.push x).setObj s.objs.length x, ?_⟩
    simp only [mergeLoop, M_bind_apply,
      readLoc_of_read (read_root _ _ _ (setObj_objs_same _ s.objs.length x hlt)), M_pure_apply,
      pick, hz, Bool.false_eq_true, if_false]

/-- `Merge(zero, x)` on a scalar type. -/
theorem Merge_zero_first_scalar (decls : Decls) (m : merge) (hmp : m.pointerMerge = defaultPointerFunc)
    (hm : m.defaultMerge = defaultDefaultFunc) (T : Ty) (hT : T.isScalar = true) (x : Val)
    (hx : x.hasTy decls T = true) (fuel : Nat) (s : St) :
    ∃ s2, m.Merge decls T (fuel + 2) [zeroOf decls T, x] s = .ok (x, none) s2 := by
  obtain ⟨s2, h⟩ := Merge_scalar decls m hmp hm T hT (zeroOf decls T) x fuel s
  refine ⟨s2, ?_⟩
  rw [h]
  cases hz : x.isZero with
  | false => simp [pick, hz]
  | true =>
    simp only [pick, hz, if_true]
    rw [eq_zeroOf_of_isZero decls x T hT hx hz]

/-- C4, counterexample: the claim fails where the code skips by design.  A record with an
unexported field is never written, so `Merge(Counter{}, Counter{n:1})` returns `Counter{}`;
and a reference to an empty record is skipped as an empty source, so `Merge(nil, &Pub{})`
returns `nil`, whose unfolding differs from that of `&Pub{}`. -/
theorem zero_first_operand_counterexample :
    observe 4 (Merge hiddenDecls (.struct "Counter") 8 (zeroOf hiddenDecls (.struct "Counter"))
        (.struct [.int 1]) [] ⟨[], [], []⟩) = some (.record [.scalar (.int 0)], none) ∧
    deepView ⟨[], [], []⟩ 4 (.struct [.int 1]) = .record [.scalar (.int 1)] ∧
    observe 4 (Merge hiddenDecls (.ptr (.struct "Pub")) 8 (zeroOf hiddenDecls (.ptr (.struct "Pub")))
        (.ptr (some ⟨0, []⟩)) [] emptyPubSt) = some (.null, none) ∧
    deepView emptyPubSt 4 (.ptr (some ⟨0, []⟩)) = .ref (.record [.scalar (.int 0)]) := by
  decide!

/-- C4, amended: for every scalar type, and for every record type whose fields are all
exported scalars, and every value `x` of the type, `Merge(zero, x)` with the default
handlers returns no error and `x`. -/
theorem zero_first_operand (decls : Decls) (T : Ty) (x : Val)
    (hT : T.isScalar = true ∨
      ∃ name, T = .struct name ∧ ∀ fd ∈ fieldsOf decls name, fd.exported = true ∧ fd.ty.isScalar = true)
    (hx : x.hasTy decls T = true) (fuel : Nat) (s : St) :
    ∃ s2, Merge decls T (fuel + 3) (zeroOf decls T) x [] s = .ok (x, none) s2 := by
  rcases hT with hT | ⟨name, rfl, hfields⟩
  · exact Merge_zero_first_scalar decls (New decls []) rfl rfl T hT x hx (fuel + 1) s
  · obtain ⟨xs, rfl, hxs⟩ := hasTy_struct decls x name hx
    have hxlen : xs.length = (fieldsOf decls name).length := by
      simpa using fieldsHaveTy_length decls xs _ hxs
    have hzero := zeroOf_flat decls name (fun fd h => (hfields fd h).2)
    obtain ⟨s2, hrun⟩ := Merge_flat_pair decls name hfields
      ((fieldsOf decls name).map (fun fd => zeroOf decls fd.ty)) xs (by simp) hxlen fuel s
    refine ⟨s2, ?_⟩
    rw [hzero, hrun, zipWith_pick_zero decls _ xs (fun fd h => (hfields fd h).2) hxs]

/-- Witness for C4 (amended) on the record type `Conf`. -/
theorem zero_first_operand_witness :
    (Ty.isScalar (.struct "Conf") = true ∨
      ∃ name, Ty.struct "Conf" = .struct name ∧
        ∀ fd ∈ fieldsOf flatDecls name, fd.exported = true ∧ fd.ty.isScalar = true) ∧
    (Val.struct [.str "a", .int 1, .bool false, .nilIface]).hasTy flatDecls (.struct "Conf") = true ∧
    ∃ s2, Merge flatDecls (.struct "Conf") 3 (zeroOf flatDecls (.struct "Conf"))
        (.struct [.str "a", .int 1, .bool false, .nilIface]) [] ⟨[], [], []⟩ =
      .ok (.struct [.str "a", .int 1, .bool false, .nilIface], none) s2 :=
  ⟨Or.inr ⟨"Conf", rfl, by decide⟩, by decide,
    zero_first_operand flatDecls (.struct "Conf") _ (Or.inr ⟨"Conf", rfl, by decide⟩) (by decide) 0
      ⟨[], [], []⟩⟩

/-- C5: on the example of the claim the code keeps the destination value of the shared key.
Merging the source `{"a":1,"b":2}` into the destination `{"b":9,"c":3}` returns no error
and the map `{"b":9,"c":3,"a":1}`: the value the handler merges into is the copy returned
by `MapIndex`, which cannot be set, so key `b` keeps 9. -/
theorem map_conflict_keeps_destination :
    observe 4 (Merge [] (.map .string .int) 8 (.map (some 0)) (.map (some 1)) [] conflictSt) =
      some (.dict [.str "b", .str "c", .str "a"]
        [.scalar (.int 9), .scalar (.int 3), .scalar (.int 1)], none) := by
  decide!

/-- C9, counterexample: operands `b` and `c` share the record `x` through references.  In
`Merge(a, b, c)` the shared visited set makes the second step skip `x`, so `a.Q` keeps
`V = 0`; in `Merge(Merge(a, b), c)` the second call starts with an empty visited set and
merges `x` into `a.Q`, which gets `V = 7`.  Both calls succeed. -/
theorem fold_associativity_counterexample :
    observe 5 ((New sharedDecls []).Merge sharedDecls (.ptr (.struct "Pair")) 8
        [.ptr (some ⟨0, []⟩), .ptr (some ⟨3, []⟩), .ptr (some ⟨4, []⟩)] sharedSt) =
      some (.ref (.record [.ref (.record [.scalar (.int 7)]), .ref (.record [.scalar (.int 0)])]), none) ∧
    observe 5 (MergeNested sharedDecls (.ptr (.struct "Pair")) 8
        (.ptr (some ⟨0, []⟩)) (.ptr (some ⟨3, []⟩)) (.ptr (some ⟨4, []⟩)) sharedSt) =
      some (.ref (.record [.ref (.record [.scalar (.int 7)]), .ref (.record [.scalar (.int 7)])]), none) := by
  decide!

@[simp] theorem setMap_objs (s : St) (id : Nat) (es : List (Key × Val)) : (s.setMap id es).objs = s.objs := rfl

@[simp] theorem setMap_visited (s : St) (id : Nat) (es : List (Key × Val)) :
    (s.setMap id es).visited = s.visited := rfl

theorem setMap_maps_same (s : St) (id : Nat) (es : List (Key × Val)) (h : id < s.maps.length) :
    (s.setMap id es).maps[id]? = some es := by
  simp [St.setMap, h]

theorem setMap_maps_other (s : St) (id c : Nat) (es : List (Key × Val)) (h : c ≠ id) :
    (s.setMap id es).maps[c]? = s.maps[c]? := by
  simp [St.setMap, List.getElem?_set_ne (Ne.symm h)]

theorem setMap_self (s : St) (id : Nat) (es : List (Key × Val)) (h : s.maps[id]? = some es) :
    s.setMap id es = s := by
  cases s with
  | mk objs maps visited =>
    simp only [St.setMap, St.mk.injEq, true_and, and_true]
    exact list_set_self _ _ _ h

theorem read_setMap (s : St) (id : Nat) (es : List (Key × Val)) (l : Loc) :
    (s.setMap id es).read l = s.read l := rfl

theorem read_push_old (s : St) (v : Val) (l : Loc) (h : l.block < s.objs.length) :
    (s.push v).read l = s.read l := by
  simp [St.read, push_objs_old s v l.block h]

theorem read_setObj_other (s : St) (b : Nat) (v : Val) (l : Loc) (h : l.block ≠ b) :
    (s.setObj b v).read l = s.read l := by
  simp [St.read, setObj_objs_other s b l.block v h]

theorem read_lt (s : St) (l : Loc) (v : Val) (h : s.read l = some v) : l.block < s.objs.length := by
  by_contra hcon
  simp [St.read, List.getElem?_eq_none (Nat.le_of_not_lt hcon)] at h

theorem upsertKey_self (k : Key) (v : Val) (es : List (Key × Val)) (h : lookupKey k es = some v) :
    upsertKey k v es = es := by
  induction es with
  | nil => simp [lookupKey] at h
  | cons e es ih =>
    obtain ⟨k2, v2⟩ := e
    by_cases hk : k2 = k
    · subst hk
      simp [lookupKey] at h
      simp [upsertKey, h]
    · simp [lookupKey, hk] at h
      simp [upsertKey, hk, ih h]

theorem lookupKey_upsertKey (k k2 : Key) (v : Val) (es : List (Key × Val)) :
    lookupKey k2 (upsertKey k v es) = if k = k2 then some v else lookupKey k2 es := by
  induction es with
  | nil => simp [upsertKey, lookupKey]
  | cons e es ih =>
    obtain ⟨k3, v3⟩ := e
    by_cases hk : k3 = k
    · subst hk
      by_cases hk2 : k3 = k2 <;> simp [upsertKey, lookupKey, hk2]
    · by_cases hk2 : k3 = k2
      · subst hk2
        simp [upsertKey, lookupKey, hk, Ne.symm hk]
      · simp [upsertKey, lookupKey, hk, hk2, ih]

theorem lookupKey_mem (k : Key) (es : List (Key × Val)) (h : k ∈ es.map Prod.fst) :
    ∃ v, lookupKey k es = some v ∧ (k, v) ∈ es := by
  induction es with
  | nil => simp at h
  | cons e es ih =>
    obtain ⟨k2, v2⟩ := e
    by_cases hk : k2 = k
    · subst hk
      exact ⟨v2, by simp [lookupKey], by simp⟩
    · simp only [List.map_cons, List.mem_cons] at h
      rcases h with h | h
      · exact absurd h.symm hk
      · obtain ⟨v, h1, h2⟩ := ih h
        exact ⟨v, by simp [lookupKey, hk, h1], List.mem_cons_of_mem _ h2⟩

theorem lookupKey_none (k : Key) (es : List (Key × Val)) (h : k ∉ es.map Prod.fst) :
    lookupKey k es = none := by
  induction es with
  | nil => rfl
  | cons e es ih =>
    obtain ⟨k2, v2⟩ := e
    simp only [List.map_cons, List.mem_cons, not_or] at h
    simp [lookupKey, Ne.symm h.1, ih h.2]

/-- Closed form of `unionKeep`. -/
theorem lookupKey_unionKeep (ses : List (Key × Val)) (ks : List Key) (cur : List (Key × Val)) (k : Key) :
    lookupKey k (unionKeep ses cur ks) =
      match lookupKey k cur with
      | some v => some v
      | none => if k ∈ ks then lookupKey k ses else none := by
  induction ks generalizing cur with
  | nil => cases h : lookupKey k cur <;> simp [unionKeep, h]
  | cons k2 ks ih =>
    simp only [unionKeep]
    cases h2 : lookupKey k2 cur with
    | some v2 =>
      simp only [ih]
      cases hk : lookupKey k cur with
      | some v => rfl
      | none =>
        have : k2 ≠ k := by
          intro e; subst e; rw [hk] at h2; cases h2
        simp [Ne.symm this]
    | none =>
      cases h3 : lookupKey k2 ses with
      | none =>
        simp only [ih]
        cases hk : lookupKey k cur with
        | some v => rfl
        | none =>
          by_cases e : k = k2
          · subst e; simp [h3]
          · simp [e]
      | some v3 =>
        simp only [ih, lookupKey_upsertKey]
        by_cases e : k2 = k
        · subst e; simp [h2, h3]
        · simp only [e, if_false]
          cases hk : lookupKey k cur with
          | some v => rfl
          | none => simp [Ne.symm e]


@[simp] theorem setMap_length (s : St) (id : Nat) (es : List (Key × Val)) :
    (s.setMap id es).maps.length = s.maps.length := by
  simp [St.setMap]

/-- A destination that cannot be set is left alone by the default scalar handler. -/
theorem deepMerge_unsettable (m : merge) (hm : m.defaultMerge = defaultDefaultFunc)
    (fuel : Nat) (ty : Ty) (hty : ty.isScalar = true) (d x : Val) (p : String) (s : St) :
    m.deepMerge (fuel + 1) (.rval ty d false) (.rval ty x false) p s = .ok none s := by
  rw [merge.deepMerge]
  cases hz : x.isZero <;> cases ty <;> simp [Ty.isScalar] at hty <;>
  simp [RV.IsValid, RV.IsZero, RV.load, hz, reconcile, RV.Type,
    RV.Kind, Ty.kind, RV.CanAddr, hm, defaultDefaultFunc, RV.CanSet]

/-- A scalar source held by value merged into a variable. -/
theorem deepMerge_into_var (m : merge) (hm : m.defaultMerge = defaultDefaultFunc)
    (fuel : Nat) (ty : Ty) (hty : ty.isScalar = true) (b : Nat) (d x : Val) (p : String) (s : St)
    (hb : s.objs[b]? = some d) :
    m.deepMerge (fuel + 1) (.lval ty ⟨b, []⟩ false) (.rval ty x false) p s =
      .ok none (s.setObj b (pick d x)) := by
  have hlt : b < s.objs.length := by
    by_contra hcon
    rw [List.getElem?_eq_none (Nat.le_of_not_lt hcon)] at hb
    cases hb
  rw [merge.deepMerge]
  cases hz : x.isZero with
  | true =>
    simp [RV.IsValid, RV.IsZero, RV.load, hz, pick, setObj_self s b d hb]
  | false =>
    cases ty <;> simp [Ty.isScalar] at hty <;>
    simp [RV.IsValid, RV.IsZero, RV.load, hz, reconcile, RV.Type,
      RV.Kind, Ty.kind, RV.CanAddr, hm, defaultDefaultFunc, RV.CanSet, RV.Set, RV.isRO,
      writeLoc_of_write (write_root s b x hlt), pick]

/-- One iteration of the map handler for a scalar element type. -/
theorem mapKeyStep_scalar (decls : Decls) (m : merge) (hm : m.defaultMerge = defaultDefaultFunc)
    (fuel : Nat) (kty ety : Ty) (hety : ety.isScalar = true) (dl sl : Loc) (did sid : Nat)
    (cur ses : List (Key × Val)) (k : Key) (v : Val) (p : String) (s : St)
    (hd : s.read dl = some (.map (some did))) (hs : s.read sl = some (.map (some sid)))
    (hcur : s.maps[did]? = some cur) (hses : s.maps[sid]? = some ses)
    (hk : lookupKey k ses = some v) (hv : v.hasTy decls ety = true) :
    mapKeyStep decls (m.deepMerge (fuel + 1)) (.lval (.map kty ety) dl false)
        (.lval (.map kty ety) sl false) ety p k s =
      .ok none (match lookupKey k cur with
        | some _ => s
        | none => (s.push v).setMap did (upsertKey k v cur)) := by
  have hdlt := read_lt s dl _ hd
  have hslt := read_lt s sl _ hs
  cases hc : lookupKey k cur with
  | some v0 =>
    simp [mapKeyStep, RV.MapIndex, RV.load, readLoc_of_read hd, readLoc_of_read hs, RV.Kind, Ty.kind,
      readMap, hcur, hses, RV.Type, Ty.Elem, hc, hk, RV.isRO, RV.IsValid,
      deepMerge_unsettable m hm fuel ety hety, RV.SetMapIndex, writeMap, upsertKey_self k v0 cur hc,
      setMap_self s did cur hcur]
  | none =>
    have hd2 : (s.push (zeroOf decls ety)).read dl = some (.map (some did)) := by
      rw [read_push_old s _ dl hdlt]; exact hd
    have hs2 : (s.push (zeroOf decls ety)).read sl = some (.map (some sid)) := by
      rw [read_push_old s _ sl hslt]; exact hs
    have hd3 : (s.push v).read dl = some (.map (some did)) := by
      rw [read_push_old s _ dl hdlt]; exact hd
    have hnew : (s.push v).read ⟨s.objs.length, []⟩ = some v := read_root _ _ _ (push_objs_new s v)
    have hpick : pick (zeroOf decls ety) v = v := by
      cases hz : v.isZero with
      | false => simp [pick, hz]
      | true =>
        simp only [pick, hz, if_true]
        exact (eq_zeroOf_of_isZero decls v ety hety hv hz).symm
    simp [mapKeyStep, RV.MapIndex, RV.load, readLoc_of_read hd, readLoc_of_read hs2, RV.Kind, Ty.kind,
      readMap, hcur, hses, RV.Type, Ty.Elem, hc, hk, RV.isRO, RV.IsValid, NewElem, alloc_apply,
      deepMerge_into_var m hm fuel ety hety s.objs.length (zeroOf decls ety) v _ _ (push_objs_new s _),
      hpick, push_setObj_new, RV.SetMapIndex, readLoc_of_read hd3, readLoc_of_read hnew, writeMap]


/-- The loop of the map handler over the keys `ks` of the source, for a scalar element type. -/
theorem forEach_mapKeys (decls : Decls) (m : merge) (hm : m.defaultMerge = defaultDefaultFunc)
    (fuel : Nat) (kty ety : Ty) (hety : ety.isScalar = true) (dl sl : Loc) (did sid : Nat)
    (hne : did ≠ sid) (ses : List (Key × Val)) (p : String)
    (hty : ∀ e ∈ ses, e.2.hasTy decls ety = true) :
    ∀ (ks : List Key) (cur : List (Key × Val)) (s : St),
      (∀ k ∈ ks, k ∈ ses.map Prod.fst) →
      s.read dl = some (.map (some did)) → s.read sl = some (.map (some sid)) →
      s.maps[did]? = some cur → s.maps[sid]? = some ses →
      ∃ s2, forEach (mapKeyStep decls (m.deepMerge (fuel + 1)) (.lval (.map kty ety) dl false)
            (.lval (.map kty ety) sl false) ety p) ks s = .ok none s2 ∧
        s2.read dl = some (.map (some did)) ∧
        s2.maps[did]? = some (unionKeep ses cur ks) := by
  intro ks
  induction ks with
  | nil =>
    intro cur s _ hd _ hcur _
    exact ⟨s, rfl, hd, hcur⟩
  | cons k ks ih =>
    intro cur s hks hd hs hcur hses
    obtain ⟨v, hkv, hmem⟩ := lookupKey_mem k ses (hks k (List.mem_cons_self _ _))
    have hv := hty _ hmem
    have hstep := mapKeyStep_scalar decls m hm fuel kty ety hety dl sl did sid cur ses k v p s
      hd hs hcur hses hkv hv
    have hdlt := read_lt s dl _ hd
    have hslt := read_lt s sl _ hs
    have hdid : did < s.maps.length := by
      by_contra hcon
      rw [List.getElem?_eq_none (Nat.le_of_not_lt hcon)] at hcur
      cases hcur
    simp only [forEach, M_bind_apply, hstep, unionKeep, hkv]
    cases hc : lookupKey k cur with
    | some v0 =>
      exact ih cur s (fun k2 h2 => hks k2 (List.mem_cons_of_mem _ h2)) hd hs hcur hses
    | none =>
      exact ih (upsertKey k v cur) ((s.push v).setMap did (upsertKey k v cur))
        (fun k2 h2 => hks k2 (List.mem_cons_of_mem _ h2))
        (by rw [read_setMap, read_push_old s _ dl hdlt]; exact hd)
        (by rw [read_setMap, read_push_old s _ sl hslt]; exact hs)
        (setMap_maps_same _ did _ (by simpa using hdid))
        (by rw [setMap_maps_other _ did sid _ (Ne.symm hne)]; exact hses)

theorem get_set (root : Val) (path : List Nat) (v w : Val) (h : root.get path = some v) :
    ∃ root2, root.set path w = some root2 ∧ root2.get path = some w := by
  induction path generalizing root with
  | nil => exact ⟨w, rfl, rfl⟩
  | cons i rest ih =>
    simp only [Val.get] at h
    cases hc : root.children[i]? with
    | none => simp [hc] at h
    | some c =>
      simp only [hc] at h
      obtain ⟨c2, h1, h2⟩ := ih c h
      have hi : i < root.children.length := by
        by_contra hcon
        rw [List.getElem?_eq_none (Nat.le_of_not_lt hcon)] at hc
        cases hc
      refine ⟨root.withChildren (root.children.set i c2), by simp [Val.set, hc, h1], ?_⟩
      have hch : (root.withChildren (root.children.set i c2)).children = root.children.set i c2 := by
        cases root <;> simp_all [Val.children, Val.withChildren]
      simp [Val.get, hch, hi, h2]

/-- Writing to a readable location succeeds and only changes the block written to. -/
theorem write_of_read (s : St) (l : Loc) (v w : Val) (h : s.read l = some v) :
    ∃ s2, s.write l w = some s2 ∧ s2.read l = some w ∧
      (∀ l2 : Loc, l2.block ≠ l.block → s2.read l2 = s.read l2) ∧
      s2.maps = s.maps ∧ s2.visited = s.visited ∧ s2.objs.length = s.objs.length := by
  simp only [St.read] at h
  cases hr : s.objs[l.block]? with
  | none => simp [hr] at h
  | some root =>
    simp only [hr] at h
    obtain ⟨root2, h1, h2⟩ := get_set root l.path v w h
    have hlt : l.block < s.objs.length := by
      by_contra hcon
      rw [List.getElem?_eq_none (Nat.le_of_not_lt hcon)] at hr
      cases hr
    refine ⟨s.setObj l.block root2, by simp [St.write, hr, h1, St.setObj], ?_, ?_, rfl, rfl, by simp⟩
    · simp [St.read, setObj_objs_same s l.block root2 hlt, h2]
    · intro l2 hl2
      exact read_setObj_other s l.block root2 l2 hl2


theorem lookupKey_unionKeep_keys (ses cur : List (Key × Val)) (k : Key) :
    lookupKey k (unionKeep ses cur (ses.map Prod.fst)) =
      match lookupKey k cur with
      | some v => some v
      | none => lookupKey k ses := by
  rw [lookupKey_unionKeep]
  cases lookupKey k cur with
  | some v => rfl
  | none =>
    by_cases hk : k ∈ ses.map Prod.fst
    · simp only [hk, if_true]
    · simp only [hk, if_false, lookupKey_none k ses hk]

@[simp] theorem read_pushMap (s : St) (l : Loc) : s.pushMap.read l = s.read l := rfl

theorem unionKeep_present (ses cur : List (Key × Val)) (ks : List Key)
    (h : ∀ k ∈ ks, (lookupKey k cur).isSome = true) : unionKeep ses cur ks = cur := by
  induction ks with
  | nil => rfl
  | cons k ks ih =>
    have hk := h k (List.mem_cons_self _ _)
    cases hc : lookupKey k cur with
    | none => simp [hc] at hk
    | some v0 =>
      simp only [unionKeep, hc]
      exact ih (fun k2 h2 => h k2 (List.mem_cons_of_mem _ h2))

/-- The loop of the map handler when destination and source are one and the same map: every
key is present, nothing changes. -/
theorem forEach_mapKeys_same (decls : Decls) (m : merge) (hm : m.defaultMerge = defaultDefaultFunc)
    (fuel : Nat) (kty ety : Ty) (hety : ety.isScalar = true) (dl sl : Loc) (sid : Nat)
    (ses : List (Key × Val)) (p : String) (hty : ∀ e ∈ ses, e.2.hasTy decls ety = true)
    (s : St) (hd : s.read dl = some (.map (some sid))) (hs : s.read sl = some (.map (some sid)))
    (hses : s.maps[sid]? = some ses) :
    ∀ (ks : List Key), (∀ k ∈ ks, k ∈ ses.map Prod.fst) →
      forEach (mapKeyStep decls (m.deepMerge (fuel + 1)) (.lval (.map kty ety) dl false)
        (.lval (.map kty ety) sl false) ety p) ks s = .ok none s := by
  intro ks
  induction ks with
  | nil => intro _; rfl
  | cons k ks ih =>
    intro hks
    obtain ⟨v, hkv, hmem⟩ := lookupKey_mem k ses (hks k (List.mem_cons_self _ _))
    have hstep := mapKeyStep_scalar decls m hm fuel kty ety hety dl sl sid sid ses ses k v p s
      hd hs hses hses hkv (hty _ hmem)
    simp only [forEach, M_bind_apply, hstep, hkv]
    exact ih (fun k2 h2 => hks k2 (List.mem_cons_of_mem _ h2))

/-- The default map handler on two map variables with a scalar element type: the handler
succeeds and the destination variable then holds a map whose entries are those of the
destination, followed by the entries of the source under new keys. -/
theorem defaultMapFunc_scalar (decls : Decls) (m : merge) (hm : m.defaultMerge = defaultDefaultFunc)
    (fuel : Nat) (kty ety : Ty) (hety : ety.isScalar = true) (dl sl : Loc) (dmid : Option Nat)
    (sid : Nat) (des ses : List (Key × Val)) (p : String) (s : St)
    (hd : s.read dl = some (.map dmid))
    (hnil : dmid = none → des = [])
    (hdes : ∀ did, dmid = some did → s.maps[did]? = some des)
    (hs : s.read sl = some (.map (some sid))) (hses : s.maps[sid]? = some ses)
    (hblk : dmid = none → dl.block ≠ sl.block)
    (hty : ∀ e ∈ ses, e.2.hasTy decls ety = true) :
    ∃ s2 id2, defaultMapFunc decls (m.deepMerge (fuel + 1)) (.lval (.map kty ety) dl false)
          (.lval (.map kty ety) sl false) p s = .ok none s2 ∧
      s2.read dl = some (.map (some id2)) ∧
      s2.maps[id2]? = some (unionKeep ses des (ses.map Prod.fst)) := by
  cases dmid with
  | some did =>
    have hcur := hdes did rfl
    by_cases hne : did = sid
    · subst hne
      have hds : des = ses := by
        rw [hcur] at hses
        exact Option.some.inj hses
      subst hds
      have h1 := forEach_mapKeys_same decls m hm fuel kty ety hety dl sl did des p hty s hd hs hcur
        (des.map Prod.fst) (fun k hk => hk)
      refine ⟨s, did, ?_, hd, ?_⟩
      · simp [defaultMapFunc, RV.Type, RV.IsNil, RV.load, readLoc_of_read hd, readLoc_of_read hs,
          Ty.Elem, RV.MapKeys, readMap, hcur, h1]
      · rw [unionKeep_present des des (des.map Prod.fst) (fun k hk => by
          obtain ⟨v, hv, _⟩ := lookupKey_mem k des hk
          simp [hv])]
        exact hcur
    · obtain ⟨s2, h1, h2, h3⟩ := forEach_mapKeys decls m hm fuel kty ety hety dl sl did sid hne ses p
        hty (ses.map Prod.fst) des s (fun k hk => hk) hd hs hcur hses
      refine ⟨s2, did, ?_, h2, h3⟩
      simp [defaultMapFunc, RV.Type, RV.IsNil, RV.load, readLoc_of_read hd, readLoc_of_read hs,
        Ty.Elem, RV.MapKeys, readMap, hses, h1]
  | none =>
    have hnil2 := hnil rfl
    have hblk := hblk rfl
    subst hnil2
    have hsid : sid < s.maps.length := by
      by_contra hcon
      rw [List.getElem?_eq_none (Nat.le_of_not_lt hcon)] at hses
      cases hses
    obtain ⟨s1, hw, hr1, hfr, hmaps, _, _⟩ := write_of_read s.pushMap dl _ (.map (some s.maps.length))
      (by rw [read_pushMap]; exact hd)
    have hs1 : s1.read sl = some (.map (some sid)) := by
      rw [hfr sl (Ne.symm hblk), read_pushMap]; exact hs
    have hnew : s1.maps[s.maps.length]? = some [] := by
      rw [hmaps]; simp [St.pushMap]
    have hses1 : s1.maps[sid]? = some ses := by
      rw [hmaps]; simp [St.pushMap, List.getElem?_append_left hsid, hses]
    obtain ⟨s2, h1, h2, h3⟩ := forEach_mapKeys decls m hm fuel kty ety hety dl sl s.maps.length sid
      (Nat.ne_of_gt hsid) ses p hty (ses.map Prod.fst) [] s1 (fun k hk => hk) hr1 hs1 hnew hses1
    refine ⟨s2, s.maps.length, ?_, h2, h3⟩
    simp [defaultMapFunc, RV.Type, RV.IsNil, RV.load, readLoc_of_read hd, readLoc_of_read hs, Ty.Elem,
      RV.Len, readMap, hses, MakeMapWithSize, allocMap, RV.Set, RV.isRO, writeLoc_of_write hw,
      RV.MapKeys, readLoc_of_read hs1, hses1, h1]

theorem readLoc_of_read_none (s : St) (l : Loc) (h : s.read l = none) :
    readLoc l s = .panic "invalid memory address" := by
  simp [readLoc, h]

theorem mapKeyStep_gen (decls : Decls) (rec : Engine) (kty ety : Ty) (dl sl : Loc) (D sid : Nat)
    (cur ses : List (Key × Val)) (k : Key) (v : Val) (p : String) (t t1 : St)
    (hfr : leavesMaps rec ety dl sl D sid)
    (hd : t.read dl = some (.map (some D))) (hs : t.read sl = some (.map (some sid)))
    (hcur : t.maps[D]? = some cur) (hses : t.maps[sid]? = some ses)
    (hk : lookupKey k ses = some v)
    (hrun : mapKeyStep decls rec (.lval (.map kty ety) dl false) (.lval (.map kty ety) sl false)
      ety p k t = .ok none t1) :
    t1.read dl = some (.map (some D)) ∧ t1.read sl = some (.map (some sid)) ∧
    t1.maps[sid]? = some ses ∧
    ((∃ v0, lookupKey k cur = some v0 ∧ t1.maps[D]? = some cur) ∨
      (lookupKey k cur = none ∧ ∃ t2 w,
        rec (.lval ety ⟨t.objs.length, []⟩ false) (.rval ety v false)
          (p ++ "[" ++ fmtKey k ++ "]") (t.push (zeroOf decls ety)) = .ok none t2 ∧
        t2.read ⟨t.objs.length, []⟩ = some w ∧ t1.maps[D]? = some (upsertKey k w cur))) := by
  have hdlt := read_lt t dl _ hd
  have hslt := read_lt t sl _ hs
  cases hc : lookupKey k cur with
  | some v0 =>
    cases hrec : rec (.rval ety v0 false) (.rval ety v false) (p ++ "[" ++ fmtKey k ++ "]") t with
    | timeout =>
      simp [mapKeyStep, RV.MapIndex, RV.load, readLoc_of_read hd, readLoc_of_read hs, RV.Kind, Ty.kind,
        readMap, hcur, hses, RV.Type, Ty.Elem, hc, hk, RV.isRO, RV.IsValid, hrec] at hrun
    | panic msg =>
      simp [mapKeyStep, RV.MapIndex, RV.load, readLoc_of_read hd, readLoc_of_read hs, RV.Kind, Ty.kind,
        readMap, hcur, hses, RV.Type, Ty.Elem, hc, hk, RV.isRO, RV.IsValid, hrec] at hrun
    | ok r t2 =>
      obtain ⟨f1, f2, f3, f4⟩ := hfr _ _ _ _ _ _ (Or.inl ⟨v0, rfl⟩) hrec
      have hd2 : t2.read dl = some (.map (some D)) := f3.trans hd
      have hs2 : t2.read sl = some (.map (some sid)) := f4.trans hs
      have hcur2 : t2.maps[D]? = some cur := f1.trans hcur
      have hses2 : t2.maps[sid]? = some ses := f2.trans hses
      cases r with
      | some e =>
        simp [mapKeyStep, RV.MapIndex, RV.load, readLoc_of_read hd, readLoc_of_read hs, RV.Kind,
          Ty.kind, readMap, hcur, hses, RV.Type, Ty.Elem, hc, hk, RV.isRO, RV.IsValid, hrec] at hrun
      | none =>
        simp [mapKeyStep, RV.MapIndex, RV.load, readLoc_of_read hd, readLoc_of_read hs, RV.Kind,
          Ty.kind, readMap, hcur, hses, RV.Type, Ty.Elem, hc, hk, RV.isRO, RV.IsValid, hrec,
          RV.SetMapIndex, readLoc_of_read hd2, hcur2, writeMap, upsertKey_self k v0 cur hc,
          setMap_self t2 D cur hcur2] at hrun
        subst hrun
        exact ⟨hd2, hs2, hses2, Or.inl ⟨v0, rfl, hcur2⟩⟩
  | none =>
    have hDs : D ≠ sid := by
      intro e
      subst e
      rw [hcur] at hses
      have := Option.some.inj hses
      subst this
      rw [hc] at hk
      cases hk
    have hd0 : (t.push (zeroOf decls ety)).read dl = some (.map (some D)) := by
      rw [read_push_old t _ dl hdlt]; exact hd
    have hs0 : (t.push (zeroOf decls ety)).read sl = some (.map (some sid)) := by
      rw [read_push_old t _ sl hslt]; exact hs
    cases hrec : rec (.lval ety ⟨t.objs.length, []⟩ false) (.rval ety v false)
        (p ++ "[" ++ fmtKey k ++ "]") (t.push (zeroOf decls ety)) with
    | timeout =>
      simp [mapKeyStep, RV.MapIndex, RV.load, readLoc_of_read hd, readLoc_of_read hs0, RV.Kind,
        Ty.kind, readMap, hcur, hses, RV.Type, Ty.Elem, hc, hk, RV.isRO, RV.IsValid, NewElem,
        alloc_apply, hrec] at hrun
    | panic msg =>
      simp [mapKeyStep, RV.MapIndex, RV.load, readLoc_of_read hd, readLoc_of_read hs0, RV.Kind,
        Ty.kind, readMap, hcur, hses, RV.Type, Ty.Elem, hc, hk, RV.isRO, RV.IsValid, NewElem,
        alloc_apply, hrec] at hrun
    | ok r t2 =>
      obtain ⟨f1, f2, f3, f4⟩ := hfr _ _ _ _ _ _
        (Or.inr ⟨t.objs.length, Nat.ne_of_gt hdlt, Nat.ne_of_gt hslt, rfl⟩) hrec
      have hd2 : t2.read dl = some (.map (some D)) := f3.trans hd0
      have hs2 : t2.read sl = some (.map (some sid)) := f4.trans hs0
      have hcur2 : t2.maps[D]? = some cur := f1.trans hcur
      have hses2 : t2.maps[sid]? = some ses := f2.trans hses
      have hDlt : D < t2.maps.length := by
        by_contra hcon
        rw [List.getElem?_eq_none (Nat.le_of_not_lt hcon)] at hcur2
        cases hcur2
      cases r with
      | some e =>
        simp [mapKeyStep, RV.MapIndex, RV.load, readLoc_of_read hd, readLoc_of_read hs0, RV.Kind,
          Ty.kind, readMap, hcur, hses, RV.Type, Ty.Elem, hc, hk, RV.isRO, RV.IsValid, NewElem,
          alloc_apply, hrec] at hrun
      | none =>
        cases hw : t2.read ⟨t.objs.length, []⟩ with
        | none =>
          simp [mapKeyStep, RV.MapIndex, RV.load, readLoc_of_read hd, readLoc_of_read hs0, RV.Kind,
            Ty.kind, readMap, hcur, hses, RV.Type, Ty.Elem, hc, hk, RV.isRO, RV.IsValid, NewElem,
            alloc_apply, hrec, RV.SetMapIndex, readLoc_of_read hd2, readLoc_of_read_none _ _ hw] at hrun
        | some w =>
          simp [mapKeyStep, RV.MapIndex, RV.load, readLoc_of_read hd, readLoc_of_read hs0, RV.Kind,
            Ty.kind, readMap, hcur, hses, RV.Type, Ty.Elem, hc, hk, RV.isRO, RV.IsValid, NewElem,
            alloc_apply, hrec, RV.SetMapIndex, readLoc_of_read hd2, readLoc_of_read hw, hcur2,
            writeMap] at hrun
          subst hrun
          refine ⟨by rw [read_setMap]; exact hd2, by rw [read_setMap]; exact hs2,
            by rw [setMap_maps_other _ D sid _ (Ne.symm hDs)]; exact hses2, Or.inr ⟨rfl, t2, w, rfl, hw,
              setMap_maps_same _ D _ hDlt⟩⟩

theorem lookupKey_not_mem (k : Key) (es : List (Key × Val)) (h : lookupKey k es = none) :
    k ∉ es.map Prod.fst := by
  intro hmem
  obtain ⟨v, hv, _⟩ := lookupKey_mem k es hmem
  rw [h] at hv
  cases hv

/-- The loop of the map handler over the keys `ks` of the source, for any callback that leaves
the two maps alone: if the loop succeeds, entries already present are unchanged, keys outside
`ks` stay absent, and an absent key of `ks` gets what the callback left in a fresh variable. -/
theorem forEach_mapKeys_gen (decls : Decls) (rec : Engine) (kty ety : Ty) (dl sl : Loc)
    (D sid : Nat) (ses : List (Key × Val)) (p : String) (s2 : St)
    (hfr : leavesMaps rec ety dl sl D sid) :
    ∀ (ks : List Key) (cur : List (Key × Val)) (t : St),
      (∀ k ∈ ks, k ∈ ses.map Prod.fst) →
      t.read dl = some (.map (some D)) → t.read sl = some (.map (some sid)) →
      t.maps[D]? = some cur → t.maps[sid]? = some ses →
      forEach (mapKeyStep decls rec (.lval (.map kty ety) dl false)
        (.lval (.map kty ety) sl false) ety p) ks t = .ok none s2 →
      s2.read dl = some (.map (some D)) ∧
      ∃ res, s2.maps[D]? = some res ∧
        (∀ k v0, lookupKey k cur = some v0 → lookupKey k res = some v0) ∧
        (∀ k, lookupKey k cur = none → k ∉ ks → lookupKey k res = none) ∧
        (∀ k v, k ∈ ks → lookupKey k cur = none → lookupKey k ses = some v →
          ∃ (t1 t2 : St) (w : Val), rec (.lval ety ⟨t1.objs.length, []⟩ false) (.rval ety v false)
              (p ++ "[" ++ fmtKey k ++ "]") (t1.push (zeroOf decls ety)) = .ok none t2 ∧
            t2.read ⟨t1.objs.length, []⟩ = some w ∧ lookupKey k res = some w) := by
  intro ks
  induction ks with
  | nil =>
    intro cur t _ hd _ hcur _ hrun
    simp only [forEach] at hrun
    have : t = s2 := by
      have h := hrun
      simp only [M_pure_apply] at h
      injection h
    subst this
    exact ⟨hd, cur, hcur, fun _ _ h => h, fun _ h _ => h, fun _ _ h => absurd h (List.not_mem_nil _)⟩
  | cons k ks ih =>
    intro cur t hks hd hs hcur hses hrun
    obtain ⟨v, hkv, _⟩ := lookupKey_mem k ses (hks k (List.mem_cons_self _ _))
    cases hstep : mapKeyStep decls rec (.lval (.map kty ety) dl false)
        (.lval (.map kty ety) sl false) ety p k t with
    | timeout => simp [forEach, hstep] at hrun
    | panic msg => simp [forEach, hstep] at hrun
    | ok r t1 =>
      cases r with
      | some e => simp [forEach, hstep] at hrun
      | none =>
        simp only [forEach, M_bind_apply, hstep] at hrun
        obtain ⟨hd1, hs1, hses1, hcase⟩ := mapKeyStep_gen decls rec kty ety dl sl D sid cur ses k v p
          t t1 hfr hd hs hcur hses hkv hstep
        have hks2 : ∀ k2 ∈ ks, k2 ∈ ses.map Prod.fst :=
          fun k2 h2 => hks k2 (List.mem_cons_of_mem _ h2)
        rcases hcase with ⟨v0, hc, hcur1⟩ | ⟨hc, t2, w, hrec, hw, hcur1⟩
        · obtain ⟨hdE, res, hres, hA, hB, hC⟩ := ih cur t1 hks2 hd1 hs1 hcur1 hses1 hrun
          refine ⟨hdE, res, hres, hA, ?_, ?_⟩
          · intro k2 h2 hnot
            exact hB k2 h2 (fun hm => hnot (List.mem_cons_of_mem _ hm))
          · intro k2 v2 hmem h2 hs2
            rcases List.mem_cons.mp hmem with heq | hin
            · subst heq
              rw [hc] at h2
              cases h2
            · exact hC k2 v2 hin h2 hs2
        · obtain ⟨hdE, res, hres, hA, hB, hC⟩ := ih (upsertKey k w cur) t1 hks2 hd1 hs1 hcur1 hses1 hrun
          refine ⟨hdE, res, hres, ?_, ?_, ?_⟩
          · intro k2 v0 h2
            have hne : k ≠ k2 := by
              intro e
              subst e
              rw [hc] at h2
              cases h2
            exact hA k2 v0 (by rw [lookupKey_upsertKey, if_neg hne]; exact h2)
          · intro k2 h2 hnot
            have hne : k ≠ k2 := fun e => hnot (by rw [e]; exact List.mem_cons_self _ _)
            exact hB k2 (by rw [lookupKey_upsertKey, if_neg hne]; exact h2)
              (fun hm => hnot (List.mem_cons_of_mem _ hm))
          · intro k2 v2 hmem h2 hs2
            by_cases hne : k = k2
            · subst hne
              rw [hkv] at hs2
              injection hs2 with hs2
              subst hs2
              exact ⟨t, t2, w, hrec, hw, hA k w (by rw [lookupKey_upsertKey, if_pos rfl])⟩
            · rcases List.mem_cons.mp hmem with heq | hin
              · exact absurd heq.symm hne
              · exact hC k2 v2 hin (by rw [lookupKey_upsertKey, if_neg hne]; exact h2) hs2

/-- The default map handler with any callback that leaves the two maps alone. -/
theorem defaultMapFunc_gen (decls : Decls) (rec : Engine) (kty ety : Ty) (dl sl : Loc)
    (dmid : Option Nat) (sid : Nat) (des ses : List (Key × Val)) (p : String) (s s2 : St)
    (hd : s.read dl = some (.map dmid))
    (hnil : dmid = none → des = [])
    (hdes : ∀ did, dmid = some did → s.maps[did]? = some des)
    (hs : s.read sl = some (.map (some sid))) (hses : s.maps[sid]? = some ses)
    (hblk : dmid = none → dl.block ≠ sl.block)
    (hfr : leavesMaps rec ety dl sl (dmid.getD s.maps.length) sid)
    (hrun : defaultMapFunc decls rec (.lval (.map kty ety) dl false)
      (.lval (.map kty ety) sl false) p s = .ok none s2) :
    ∃ id2 res, s2.read dl = some (.map (some id2)) ∧ s2.maps[id2]? = some res ∧
      (∀ k, (lookupKey k res).isSome = ((lookupKey k des).isSome || (lookupKey k ses).isSome)) ∧
      (∀ k, lookupKey k ses = none → lookupKey k res = lookupKey k des) ∧
      (∀ k v, lookupKey k des = none → lookupKey k ses = some v →
        ∃ (t1 t2 : St) (w : Val), rec (.lval ety ⟨t1.objs.length, []⟩ false) (.rval ety v false)
            (p ++ "[" ++ fmtKey k ++ "]") (t1.push (zeroOf decls ety)) = .ok none t2 ∧
          t2.read ⟨t1.objs.length, []⟩ = some w ∧ lookupKey k res = some w) := by
  have key : ∃ D, s2.read dl = some (.map (some D)) ∧
      ∃ res, s2.maps[D]? = some res ∧
        (∀ k v0, lookupKey k des = some v0 → lookupKey k res = some v0) ∧
        (∀ k, lookupKey k des = none → k ∉ ses.map Prod.fst → lookupKey k res = none) ∧
        (∀ k v, k ∈ ses.map Prod.fst → lookupKey k des = none → lookupKey k ses = some v →
          ∃ (t1 t2 : St) (w : Val), rec (.lval ety ⟨t1.objs.length, []⟩ false) (.rval ety v false)
              (p ++ "[" ++ fmtKey k ++ "]") (t1.push (zeroOf decls ety)) = .ok none t2 ∧
            t2.read ⟨t1.objs.length, []⟩ = some w ∧ lookupKey k res = some w) := by
    cases dmid with
    | some did =>
      have hcur := hdes did rfl
      simp [defaultMapFunc, RV.Type, RV.IsNil, RV.load, readLoc_of_read hd, readLoc_of_read hs,
        Ty.Elem, RV.MapKeys, readMap, hses] at hrun
      exact ⟨did, forEach_mapKeys_gen decls rec kty ety dl sl did sid ses p s2 hfr
        (ses.map Prod.fst) des s (fun k hk => hk) hd hs hcur hses hrun⟩
    | none =>
      have hnil2 := hnil rfl
      have hblk := hblk rfl
      subst hnil2
      have hsid : sid < s.maps.length := by
        by_contra hcon
        rw [List.getElem?_eq_none (Nat.le_of_not_lt hcon)] at hses
        cases hses
      obtain ⟨s1, hw, hr1, hfr1, hmaps, _, _⟩ := write_of_read s.pushMap dl _
        (.map (some s.maps.length)) (by rw [read_pushMap]; exact hd)
      have hs1 : s1.read sl = some (.map (some sid)) := by
        rw [hfr1 sl (Ne.symm hblk), read_pushMap]; exact hs
      have hnew : s1.maps[s.maps.length]? = some [] := by
        rw [hmaps]; simp [St.pushMap]
      have hses1 : s1.maps[sid]? = some ses := by
        rw [hmaps]; simp [St.pushMap, List.getElem?_append_left hsid, hses]
      simp [defaultMapFunc, RV.Type, RV.IsNil, RV.load, readLoc_of_read hd, readLoc_of_read hs,
        Ty.Elem, RV.Len, readMap, hses, MakeMapWithSize, allocMap, RV.Set, RV.isRO,
        writeLoc_of_write hw, RV.MapKeys, readLoc_of_read hs1, hses1] at hrun
      exact ⟨s.maps.length, forEach_mapKeys_gen decls rec kty ety dl sl s.maps.length sid ses p s2 hfr
        (ses.map Prod.fst) [] s1 (fun k hk => hk) hr1 hs1 hnew hses1 hrun⟩
  obtain ⟨D, hdE, res, hres, hA, hB, hC⟩ := key
  refine ⟨D, res, hdE, hres, ?_, ?_, ?_⟩
  · intro k
    cases hkd : lookupKey k des with
    | some v0 => simp [hA k v0 hkd]
    | none =>
      by_cases hm : k ∈ ses.map Prod.fst
      · obtain ⟨v, hv, _⟩ := lookupKey_mem k ses hm
        obtain ⟨_, _, w, _, _, hw⟩ := hC k v hm hkd hv
        simp [hw, hv]
      · simp [hB k hkd hm, lookupKey_none k ses hm]
  · intro k hk
    cases hkd : lookupKey k des with
    | some v0 => exact hA k v0 hkd
    | none => exact hB k hkd (lookupKey_not_mem k ses hk)
  · intro k v hkd hks
    have hm : k ∈ ses.map Prod.fst := by
      by_contra hcon
      rw [lookupKey_none k ses hcon] at hks
      cases hks
    exact hC k v hm hkd hks

theorem Below.rfl {α : Type} (x : M α) : Below x x := fun _ _ _ h => h

theorem Below.bind {α β : Type} (x y : M α) (f g : α → M β) (hx : Below x y)
    (hf : ∀ a, Below (f a) (g a)) : Below (x >>= f) (y >>= g) := by
  intro s b s2 h
  simp only [M_bind_apply] at h ⊢
  cases hxs : x s with
  | timeout => rw [hxs] at h; cases h
  | panic msg => rw [hxs] at h; cases h
  | ok a s1 =>
    rw [hxs] at h
    rw [hx s a s1 hxs]
    exact hf a s1 b s2 h

theorem watch_ok (rec : Engine) (dl sl : Loc) (D sid : Nat) (a b : RV) (q : String) (t t2 : St)
    (r : Option MergeErr) (h : watch rec dl sl D sid a b q t = .ok r t2) :
    rec a b q t = .ok r t2 ∧ unchangedMaps dl sl D sid t t2 = true := by
  unfold watch at h
  cases hr : rec a b q t with
  | timeout => rw [hr] at h; cases h
  | panic msg => rw [hr] at h; cases h
  | ok r1 t1 =>
    rw [hr] at h
    cases hu : unchangedMaps dl sl D sid t t1 with
    | false => simp [hu] at h
    | true =>
      simp only [hu, if_true] at h
      injection h with h1 h2
      subst h1; subst h2
      exact ⟨rfl, hu⟩

theorem watch_below (rec : Engine) (dl sl : Loc) (D sid : Nat) (a b : RV) (q : String) :
    Below (watch rec dl sl D sid a b q) (rec a b q) :=
  fun t r t2 h => (watch_ok rec dl sl D sid a b q t t2 r h).1

theorem leavesMaps_watch (rec : Engine) (ety : Ty) (dl sl : Loc) (D sid : Nat) :
    leavesMaps (watch rec dl sl D sid) ety dl sl D sid := by
  intro a v q t t2 r _ h
  have hu := (watch_ok rec dl sl D sid a _ q t t2 r h).2
  simp only [unchangedMaps, Bool.and_eq_true, decide_eq_true_eq] at hu
  exact ⟨hu.1.1.1, hu.1.1.2, hu.1.2, hu.2⟩

theorem mapKeyStep_below (decls : Decls) (R R2 : Engine) (h : ∀ a b q, Below (R a b q) (R2 a b q))
    (d x : RV) (e : Ty) (p : String) (k : Key) :
    Below (mapKeyStep decls R d x e p k) (mapKeyStep decls R2 d x e p k) := by
  simp only [mapKeyStep]
  refine Below.bind _ _ _ _ (Below.rfl _) (fun v0 => ?_)
  refine Below.bind _ _ _ _ (Below.rfl _) (fun vd => ?_)
  refine Below.bind _ _ _ _ (Below.rfl _) (fun sv => ?_)
  exact Below.bind _ _ _ _ (h _ _ _) (fun r => Below.rfl _)

theorem forEach_below {α : Type} (body body2 : α → M (Option MergeErr))
    (h : ∀ a, Below (body a) (body2 a)) (xs : List α) :
    Below (forEach body xs) (forEach body2 xs) := by
  induction xs with
  | nil => exact Below.rfl _
  | cons a xs ih =>
    simp only [forEach]
    refine Below.bind _ _ _ _ (h a) (fun r => ?_)
    cases r with
    | some e => exact Below.rfl _
    | none => exact ih

theorem defaultMapFunc_below (decls : Decls) (R R2 : Engine)
    (h : ∀ a b q, Below (R a b q) (R2 a b q)) (d x : RV) (p : String) :
    Below (defaultMapFunc decls R d x p) (defaultMapFunc decls R2 d x p) := by
  simp only [defaultMapFunc]
  refine Below.bind _ _ _ _ (Below.rfl _) (fun dT => ?_)
  refine Below.bind _ _ _ _ (Below.rfl _) (fun b => ?_)
  have tail : Below
      (do
        let dElem ← dT.Elem
        let ks ← x.MapKeys
        forEach (mapKeyStep decls R d x dElem p) ks)
      (do
        let dElem ← dT.Elem
        let ks ← x.MapKeys
        forEach (mapKeyStep decls R2 d x dElem p) ks) := by
    refine Below.bind _ _ _ _ (Below.rfl _) (fun dE => ?_)
    refine Below.bind _ _ _ _ (Below.rfl _) (fun ks => ?_)
    exact forEach_below _ _ (fun k => mapKeyStep_below decls R R2 h d x dE p k) ks
  cases b with
  | true =>
    simp only [if_true]
    refine Below.bind _ _ _ _ (Below.rfl _) (fun n => ?_)
    refine Below.bind _ _ _ _ (Below.rfl _) (fun mk => ?_)
    exact Below.bind _ _ _ _ (Below.rfl _) (fun u => tail)
  | false =>
    simp only [Bool.false_eq_true, if_false]
    exact Below.bind _ _ _ _ (Below.rfl _) (fun u => tail)

/-- The engine with the default scalar handler, called on scalars, leaves every map and every
variable other than its destination alone. -/
theorem leavesMaps_scalar (m : merge) (hm : m.defaultMerge = defaultDefaultFunc) (fuel : Nat)
    (ety : Ty) (hety : ety.isScalar = true) (dl sl : Loc) (D sid : Nat) :
    leavesMaps (m.deepMerge (fuel + 1)) ety dl sl D sid := by
  intro a v q t t2 r hshape hrec
  rcases hshape with ⟨v0, rfl⟩ | ⟨n, hnd, hns, rfl⟩
  · rw [deepMerge_unsettable m hm fuel ety hety] at hrec
    injection hrec with _ h2
    subst h2
    exact ⟨rfl, rfl, rfl, rfl⟩
  · cases hb : t.objs[n]? with
    | some d =>
      rw [deepMerge_into_var m hm fuel ety hety n d v q t hb] at hrec
      injection hrec with _ h2
      subst h2
      exact ⟨rfl, rfl, read_setObj_other t n _ dl (Ne.symm hnd), read_setObj_other t n _ sl (Ne.symm hns)⟩
    | none =>
      rw [merge.deepMerge] at hrec
      cases hz : v.isZero with
      | true =>
        simp [RV.IsValid, RV.IsZero, RV.load, hz] at hrec
        obtain ⟨_, h2⟩ := hrec
        subst h2
        exact ⟨rfl, rfl, rfl, rfl⟩
      | false =>
        cases ety <;> simp [Ty.isScalar] at hety <;>
        simp [RV.IsValid, RV.IsZero, RV.load, hz, reconcile, RV.Type, RV.Kind, Ty.kind, RV.CanAddr,
          hm, defaultDefaultFunc, RV.CanSet, RV.Set, RV.isRO, writeLoc, St.write, hb] at hrec

/-- C6, counterexample: a destination map that contains itself.  With
`d = {"k": &Rec{M: d}}` and `s = {"k": &Rec{M: {"z": &Rec{}}}}` the handler succeeds, and
merging the value under `"k"` reaches `d` again through the field `M`: the destination ends
with the keys `"k"` and `"z"`, although `"z"` is a key of neither `d` nor `s`. -/
theorem map_union_counterexample :
    defaultMapFunc selfMapDecls ((New selfMapDecls []).deepMerge 6)
        (.lval (.map .string (.ptr (.struct "Rec"))) ⟨0, []⟩ false)
        (.lval (.map .string (.ptr (.struct "Rec"))) ⟨1, []⟩ false) "" selfMapSt =
      .ok none
        { objs :=
            [.map (some 0),
             .map (some 1),
             .struct [.map (some 0)],
             .struct [.map (some 2)],
             .struct [.map none],
             .ptr none],
          maps :=
            [[(.str "k", .ptr (some ⟨2, []⟩)), (.str "z", .ptr none)],
             [(.str "k", .ptr (some ⟨3, []⟩))],
             [(.str "z", .ptr (some ⟨4, []⟩))]],
          visited := [(3, 0)] } := by
  decide!

/-- C6, amended: mapping union and preservation, for maps held in two variables (a nil
destination map and one map held by both variables included).  (1) Any element type and any
callback `rec`: whenever the run of the default map handler succeeds and no merge of a value
in that run changed the two maps or the two variables (the run with the observed callback
`watch rec` succeeds; it is then the run with `rec`), the destination variable holds a map
whose key set is the union of the key sets of destination and source, whose entries under
keys absent from the source are unchanged, and in which a key present only in the source
maps to what `rec` left in a fresh zero-valued variable after merging the value of the
source into it.  (2) Scalar values: with the engine as callback the handler succeeds, and a
key present only in the source maps to the value of the source. -/
theorem map_union_preservation (decls : Decls) :
    (∀ (rec : Engine) (kty ety : Ty) (dl sl : Loc) (dmid : Option Nat) (sid : Nat)
        (des ses : List (Key × Val)) (p : String) (s s2 : St),
      s.read dl = some (.map dmid) → (dmid = none → des = []) →
      (∀ did, dmid = some did → s.maps[did]? = some des) →
      s.read sl = some (.map (some sid)) → s.maps[sid]? = some ses →
      (dmid = none → dl.block ≠ sl.block) →
      defaultMapFunc decls (watch rec dl sl (dmid.getD s.maps.length) sid)
        (.lval (.map kty ety) dl false) (.lval (.map kty ety) sl false) p s = .ok none s2 →
      defaultMapFunc decls rec (.lval (.map kty ety) dl false)
        (.lval (.map kty ety) sl false) p s = .ok none s2 ∧
      ∃ id2 res, s2.read dl = some (.map (some id2)) ∧ s2.maps[id2]? = some res ∧
        (∀ k, (lookupKey k res).isSome = ((lookupKey k des).isSome || (lookupKey k ses).isSome)) ∧
        (∀ k, lookupKey k ses = none → lookupKey k res = lookupKey k des) ∧
        (∀ k v, lookupKey k des = none → lookupKey k ses = some v →
          ∃ (t1 t2 : St) (w : Val), rec (.lval ety ⟨t1.objs.length, []⟩ false) (.rval ety v false)
              (p ++ "[" ++ fmtKey k ++ "]") (t1.push (zeroOf decls ety)) = .ok none t2 ∧
            t2.read ⟨t1.objs.length, []⟩ = some w ∧ lookupKey k res = some w)) ∧
    (∀ (m : merge) (fuel : Nat) (kty ety : Ty) (dl sl : Loc) (dmid : Option Nat) (sid : Nat)
        (des ses : List (Key × Val)) (p : String) (s : St),
      m.defaultMerge = defaultDefaultFunc → ety.isScalar = true →
      s.read dl = some (.map dmid) → (dmid = none → des = []) →
      (∀ did, dmid = some did → s.maps[did]? = some des) →
      s.read sl = some (.map (some sid)) → s.maps[sid]? = some ses →
      (dmid = none → dl.block ≠ sl.block) →
      (∀ e ∈ ses, e.2.hasTy decls ety = true) →
      ∃ s2 id2 res, defaultMapFunc decls (m.deepMerge (fuel + 1)) (.lval (.map kty ety) dl false)
            (.lval (.map kty ety) sl false) p s = .ok none s2 ∧
        s2.read dl = some (.map (some id2)) ∧ s2.maps[id2]? = some res ∧
        (∀ k, (lookupKey k res).isSome = ((lookupKey k des).isSome || (lookupKey k ses).isSome)) ∧
        (∀ k, lookupKey k ses = none → lookupKey k res = lookupKey k des) ∧
        (∀ k v, lookupKey k des = none → lookupKey k ses = some v → lookupKey k res = some v)) := by
  refine ⟨?_, ?_⟩
  · intro rec kty ety dl sl dmid sid des ses p s s2 hd hnil hdes hs hses hblk hrun
    refine ⟨defaultMapFunc_below decls _ rec (watch_below rec dl sl _ sid) _ _ p s none s2 hrun, ?_⟩
    obtain ⟨id2, res, h1, h2, h3, h4, h5⟩ := defaultMapFunc_gen decls
      (watch rec dl sl (dmid.getD s.maps.length) sid) kty ety dl sl dmid sid des ses p s s2 hd hnil
      hdes hs hses hblk (leavesMaps_watch rec ety dl sl _ sid) hrun
    refine ⟨id2, res, h1, h2, h3, h4, ?_⟩
    intro k v hk hv
    obtain ⟨t1, t2, w, hw1, hw2, hw3⟩ := h5 k v hk hv
    exact ⟨t1, t2, w, (watch_ok rec dl sl _ sid _ _ _ _ _ _ hw1).1, hw2, hw3⟩
  · intro m fuel kty ety dl sl dmid sid des ses p s hm hety hd hnil hdes hs hses hblk hty
    obtain ⟨s2, id2, h1, h2, h3⟩ := defaultMapFunc_scalar decls m hm fuel kty ety hety dl sl dmid sid
      des ses p s hd hnil hdes hs hses hblk hty
    refine ⟨s2, id2, _, h1, h2, h3, ?_, ?_, ?_⟩
    · intro k
      rw [lookupKey_unionKeep_keys]
      cases lookupKey k des <;> simp
    · intro k hk
      rw [lookupKey_unionKeep_keys, hk]
      cases lookupKey k des <;> rfl
    · intro k v hkd hks
      rw [lookupKey_unionKeep_keys, hkd, hks]

/-- Witness for C6 (amended): (1) the map variables of `recordMapsSt`, whose values are
references to records, with the engine as callback; (2) the map variables of
`conflictVarsSt`, whose values are integers. -/
theorem map_union_preservation_witness :
    (defaultMapFunc ptrDecls ((New ptrDecls []).deepMerge 3)
        (.lval (.map .string (.ptr (.struct "B"))) ⟨0, []⟩ false)
        (.lval (.map .string (.ptr (.struct "B"))) ⟨1, []⟩ false) "" recordMapsSt =
      .ok none
        (St.mk [.map (some 0), .map (some 1), .struct [.int 5], .struct [.int 5], .struct [.int 0],
            .ptr none]
          [[(.str "x", .ptr (some ⟨2, []⟩)), (.str "y", .ptr none)],
            [(.str "x", .ptr (some ⟨3, []⟩)), (.str "y", .ptr (some ⟨4, []⟩))]] [(3, 0)]) ∧
      ∃ id2 res,
        (St.mk [.map (some 0), .map (some 1), .struct [.int 5], .struct [.int 5], .struct [.int 0],
            .ptr none]
          [[(.str "x", .ptr (some ⟨2, []⟩)), (.str "y", .ptr none)],
            [(.str "x", .ptr (some ⟨3, []⟩)), (.str "y", .ptr (some ⟨4, []⟩))]]
          [(3, 0)]).read ⟨0, []⟩ = some (.map (some id2)) ∧
        (St.mk [.map (some 0), .map (some 1), .struct [.int 5], .struct [.int 5], .struct [.int 0],
            .ptr none]
          [[(.str "x", .ptr (some ⟨2, []⟩)), (.str "y", .ptr none)],
            [(.str "x", .ptr (some ⟨3, []⟩)), (.str "y", .ptr (some ⟨4, []⟩))]]
          [(3, 0)]).maps[id2]? = some res ∧
        (∀ k, (lookupKey k res).isSome =
          ((lookupKey k [(.str "x", .ptr (some ⟨2, []⟩))]).isSome ||
            (lookupKey k [(.str "x", .ptr (some ⟨3, []⟩)), (.str "y", .ptr (some ⟨4, []⟩))]).isSome)) ∧
        (∀ k, lookupKey k [(.str "x", .ptr (some ⟨3, []⟩)), (.str "y", .ptr (some ⟨4, []⟩))] = none →
          lookupKey k res = lookupKey k [(.str "x", .ptr (some ⟨2, []⟩))]) ∧
        (∀ k v, lookupKey k [(.str "x", .ptr (some ⟨2, []⟩))] = none →
          lookupKey k [(.str "x", .ptr (some ⟨3, []⟩)), (.str "y", .ptr (some ⟨4, []⟩))] = some v →
          ∃ (t1 t2 : St) (w : Val),
            (New ptrDecls []).deepMerge 3 (.lval (.ptr (.struct "B")) ⟨t1.objs.length, []⟩ false)
                (.rval (.ptr (.struct "B")) v false) ("" ++ "[" ++ fmtKey k ++ "]")
                (t1.push (zeroOf ptrDecls (.ptr (.struct "B")))) = .ok none t2 ∧
              t2.read ⟨t1.objs.length, []⟩ = some w ∧ lookupKey k res = some w)) ∧
    (∃ s2 id2 res, defaultMapFunc [] ((New [] []).deepMerge 1) (.lval (.map .string .int) ⟨0, []⟩ false)
          (.lval (.map .string .int) ⟨1, []⟩ false) "" conflictVarsSt = .ok none s2 ∧
      s2.read ⟨0, []⟩ = some (.map (some id2)) ∧ s2.maps[id2]? = some res ∧
      (∀ k, (lookupKey k res).isSome =
        ((lookupKey k [(.str "b", .int 9), (.str "c", .int 3)]).isSome ||
          (lookupKey k [(.str "a", .int 1), (.str "b", .int 2)]).isSome)) ∧
      (∀ k, lookupKey k [(.str "a", .int 1), (.str "b", .int 2)] = none →
        lookupKey k res = lookupKey k [(.str "b", .int 9), (.str "c", .int 3)]) ∧
      (∀ k v, lookupKey k [(.str "b", .int 9), (.str "c", .int 3)] = none →
        lookupKey k [(.str "a", .int 1), (.str "b", .int 2)] = some v → lookupKey k res = some v)) :=
  ⟨(map_union_preservation ptrDecls).1 ((New ptrDecls []).deepMerge 3) .string (.ptr (.struct "B"))
      ⟨0, []⟩ ⟨1, []⟩ (some 0) 1 [(.str "x", .ptr (some ⟨2, []⟩))]
      [(.str "x", .ptr (some ⟨3, []⟩)), (.str "y", .ptr (some ⟨4, []⟩))] "" recordMapsSt _
      (by decide) (by decide) (by intro did h; cases h; decide) (by decide) (by decide) (by decide)
      (by decide!),
    (map_union_preservation []).2 (New [] []) 0 .string .int ⟨0, []⟩ ⟨1, []⟩ (some 0) 1
      [(.str "b", .int 9), (.str "c", .int 3)] [(.str "a", .int 1), (.str "b", .int 2)] ""
      conflictVarsSt rfl rfl (by decide) (by decide) (by intro did h; cases h; decide) (by decide)
      (by decide) (by decide) (by decide)⟩

theorem read_cell (s : St) (b i : Nat) (cells : List Val) (x : Val)
    (hb : s.objs[b]? = some (.array cells)) (hi : cells[i]? = some x) :
    s.read ⟨b, [i]⟩ = some x := by
  simp [St.read, hb, Val.get, Val.children, hi]

theorem write_cell (s : St) (b i : Nat) (cells : List Val) (x : Val)
    (hb : s.objs[b]? = some (.array cells)) (hi : i < cells.length) :
    s.write ⟨b, [i]⟩ x = some (s.setObj b (.array (cells.set i x))) := by
  simp [St.write, hb, Val.set, Val.children, hi, Val.withChildren, St.setObj]

/-- The engine on cell `i` of array block `D` and cell `j` of array block `S`. -/
theorem deepMerge_cell (m : merge) (hm : m.defaultMerge = defaultDefaultFunc)
    (fuel : Nat) (ty : Ty) (hty : ty.isScalar = true) (D S i j : Nat) (dcells scells : List Val)
    (d x : Val) (p : String) (s : St)
    (hD : s.objs[D]? = some (.array dcells)) (hS : s.objs[S]? = some (.array scells))
    (hd : dcells[i]? = some d) (hx : scells[j]? = some x) :
    m.deepMerge (fuel + 1) (.lval ty ⟨D, [i]⟩ false) (.lval ty ⟨S, [j]⟩ false) p s =
      .ok none (s.setObj D (.array (dcells.set i (pick d x)))) := by
  have hrx := read_cell s S j scells x hS hx
  cases hz : x.isZero with
  | true =>
    rw [deepMerge_skip m fuel _ ty _ false p s x hrx hz]
    simp only [pick, hz, if_true]
    rw [list_set_self dcells i d hd, setObj_self s D _ hD]
  | false =>
    have hi : i < dcells.length := by
      by_contra hcon
      rw [List.getElem?_eq_none (Nat.le_of_not_lt hcon)] at hd
      cases hd
    have hw := write_cell s D i dcells x hD hi
    rw [deepMerge_scalar m hm fuel ty hty _ _ p s _ x hrx hz hw]
    simp [pick, hz]

/-- One iteration of the slice handler on element `i`. -/
theorem sliceElemStep_scalar (m : merge) (hm : m.defaultMerge = defaultDefaultFunc)
    (fuel : Nat) (ety : Ty) (hety : ety.isScalar = true) (dl sl : Loc) (dh sh : SliceHdr)
    (dcells scells : List Val) (i : Nat) (d x : Val) (p : String) (s : St)
    (hd : s.read dl = some (.slice (some dh))) (hs : s.read sl = some (.slice (some sh)))
    (hD : s.objs[dh.block]? = some (.array dcells)) (hS : s.objs[sh.block]? = some (.array scells))
    (hid : i < dh.len) (his : i < sh.len)
    (hdc : dcells[dh.off + i]? = some d) (hsc : scells[sh.off + i]? = some x) :
    sliceElemStep (m.deepMerge (fuel + 1)) (.lval (.slice ety) dl false) (.lval (.slice ety) sl false) p i s =
      .ok none (s.setObj dh.block (.array (dcells.set (dh.off + i) (pick d x)))) := by
  simp [sliceElemStep, RV.Index, RV.load, readLoc_of_read hd, readLoc_of_read hs, hid, his,
    deepMerge_cell m hm fuel ety hety dh.block sh.block (dh.off + i) (sh.off + i) dcells scells d x _ s
      hD hS hdc hsc]

/-- The loop of the slice handler over the indices `k, ..., k+n-1`. -/
theorem forEach_slice (m : merge) (hm : m.defaultMerge = defaultDefaultFunc)
    (fuel : Nat) (ety : Ty) (hety : ety.isScalar = true) (dl sl : Loc) (dh sh : SliceHdr)
    (scells : List Val) (p : String)
    (hb1 : dh.block ≠ sh.block) (hb2 : dl.block ≠ dh.block) (hb3 : sl.block ≠ dh.block)
    (hsb : sh.off + sh.len ≤ scells.length) :
    ∀ (n k : Nat) (dcells : List Val) (s : St),
      k + n ≤ sh.len → k + n ≤ dh.len → dh.off + dh.len ≤ dcells.length →
      s.read dl = some (.slice (some dh)) → s.read sl = some (.slice (some sh)) →
      s.objs[dh.block]? = some (.array dcells) → s.objs[sh.block]? = some (.array scells) →
      forEach (sliceElemStep (m.deepMerge (fuel + 1)) (.lval (.slice ety) dl false)
          (.lval (.slice ety) sl false) p) (List.range' k n) s =
        .ok none (s.setObj dh.block
          (.array (overlayCells ((scells.drop sh.off).take sh.len) dh.off k n dcells))) := by
  intro n
  induction n with
  | zero =>
    intro k dcells s _ _ _ _ _ hD _
    simp [forEach, List.range', overlayCells, setObj_self s _ _ hD]
  | succ n ih =>
    intro k dcells s hks hkd hdb hd hs hD hS
    have hdi : dh.off + k < dcells.length := by omega
    have hsi : sh.off + k < scells.length := by omega
    have hdc : dcells[dh.off + k]? = some dcells[dh.off + k] := List.getElem?_eq_getElem hdi
    have hsc : scells[sh.off + k]? = some scells[sh.off + k] := List.getElem?_eq_getElem hsi
    have hblt : dh.block < s.objs.length := by
      by_contra hcon
      rw [List.getElem?_eq_none (Nat.le_of_not_lt hcon)] at hD
      cases hD
    have hsk : ((scells.drop sh.off).take sh.len)[k]? = some scells[sh.off + k] := by
      rw [List.getElem?_take_of_lt (by omega), List.getElem?_drop, hsc]
    simp only [List.range', forEach, M_bind_apply]
    rw [sliceElemStep_scalar m hm fuel ety hety dl sl dh sh dcells scells k _ _ p s hd hs hD hS
      (by omega) (by omega) hdc hsc]
    simp only []
    rw [ih (k + 1) (dcells.set (dh.off + k) (pick dcells[dh.off + k] scells[sh.off + k])) _
      (by omega) (by omega) (by simpa using hdb)
      (by rw [read_setObj_other _ _ _ _ hb2]; exact hd)
      (by rw [read_setObj_other _ _ _ _ hb3]; exact hs)
      (setObj_objs_same s _ _ hblt)
      (by rw [setObj_objs_other s _ _ _ (Ne.symm hb1)]; exact hS)]
    rw [setObj_setObj]
    simp only [overlayCells, hdc, hsk]


theorem overlayCells_length (ss : List Val) (off : Nat) (n k : Nat) (cells : List Val) :
    (overlayCells ss off k n cells).length = cells.length := by
  induction n generalizing k cells with
  | zero => rfl
  | succ n ih =>
    simp only [overlayCells]
    rw [ih]
    split <;> simp

/-- Cell `j` after the loop of the slice handler. -/
theorem overlayCells_get (ss : List Val) (off : Nat) (n k : Nat) (cells : List Val) (j : Nat)
    (hc : off + k + n ≤ cells.length) (hs : k + n ≤ ss.length) :
    (overlayCells ss off k n cells)[j]? =
      if off + k ≤ j ∧ j < off + k + n then
        (match cells[j]?, ss[j - off]? with
         | some d, some x => some (pick d x)
         | _, _ => none)
      else cells[j]? := by
  induction n generalizing k cells with
  | zero =>
    have hn : ¬ (off + k ≤ j ∧ j < off + k) := by omega
    simp only [overlayCells, Nat.add_zero, hn, if_false]
  | succ n ih =>
    have hdi : off + k < cells.length := by omega
    have hsi : k < ss.length := by omega
    have hdc : cells[off + k]? = some cells[off + k] := List.getElem?_eq_getElem hdi
    have hsc : ss[k]? = some ss[k] := List.getElem?_eq_getElem hsi
    simp only [overlayCells, hdc, hsc]
    rw [ih (k + 1) _ (by simp; omega) (by omega)]
    by_cases h1 : j = off + k
    · subst h1
      have hn : ¬ (off + (k + 1) ≤ off + k ∧ off + k < off + (k + 1) + n) := by omega
      have hy : (off + k ≤ off + k ∧ off + k < off + k + (n + 1)) := by omega
      simp only [hn, hy, if_false, if_true, hdc]
      simp [hdi, hsc]
    · by_cases h2 : off + (k + 1) ≤ j ∧ j < off + (k + 1) + n
      · have hy : (off + k ≤ j ∧ j < off + k + (n + 1)) := by omega
        simp only [h2, hy, and_self, if_true]
        rw [List.getElem?_set_ne (Ne.symm h1)]
      · have hy : ¬ (off + k ≤ j ∧ j < off + k + (n + 1)) := by omega
        simp only [h2, hy, if_false]
        rw [List.getElem?_set_ne (Ne.symm h1)]

theorem writeCells_eq (vs : List Val) (cells : List Val) (k : Nat) (h : k + vs.length ≤ cells.length) :
    writeCells cells k vs = cells.take k ++ vs ++ cells.drop (k + vs.length) := by
  induction vs generalizing cells k with
  | nil => simp [writeCells]
  | cons v vs ih =>
    simp only [List.length_cons] at h
    simp only [writeCells]
    rw [ih (cells.set k v) (k + 1) (by simp; omega)]
    have hk : k < cells.length := by omega
    rw [take_succ_set cells k v hk]
    have : k + 1 + vs.length = k + (vs.length + 1) := by omega
    rw [this, List.drop_set_of_lt _ _ (by omega)]
    simp


theorem read_root_eq (s : St) (b : Nat) : s.read ⟨b, []⟩ = s.objs[b]? := by
  simp only [St.read]
  cases s.objs[b]? <;> simp [Val.get]

theorem objs_of_write (s s2 : St) (l : Loc) (b : Nat)
    (hfr : ∀ l2 : Loc, l2.block ≠ l.block → s2.read l2 = s.read l2) (hb : b ≠ l.block) :
    s2.objs[b]? = s.objs[b]? := by
  rw [← read_root_eq, ← read_root_eq]
  exact hfr ⟨b, []⟩ hb

/-- The growth step on a nil destination: a new backing array of `n` zero values. -/
theorem sliceGrow_nil (decls : Decls) (ety : Ty) (dl sl : Loc) (sh : SliceHdr) (scells : List Val)
    (n : Nat) (s : St)
    (hd : s.read dl = some (.slice none)) (hs : s.read sl = some (.slice (some sh)))
    (hS : s.objs[sh.block]? = some (.array scells))
    (hsep : dl.block ≠ sl.block ∧ dl.block ≠ sh.block) :
    ∃ s1 h1 c1, sliceGrow decls (.lval (.slice ety) dl false) n s = .ok () s1 ∧
      s1.read dl = some (.slice (some h1)) ∧ s1.read sl = some (.slice (some sh)) ∧
      s1.objs[h1.block]? = some (.array c1) ∧ s1.objs[sh.block]? = some (.array scells) ∧
      h1.off + h1.len ≤ c1.length ∧
      (c1.drop h1.off).take h1.len = List.replicate n (zeroOf decls ety) ∧
      h1.block ≠ sh.block ∧ dl.block ≠ h1.block ∧ sl.block ≠ h1.block := by
  have hdlt := read_lt s dl _ hd
  have hslt := read_lt s sl _ hs
  have hshlt : sh.block < s.objs.length := by
    by_contra hcon
    rw [List.getElem?_eq_none (Nat.le_of_not_lt hcon)] at hS
    cases hS
  obtain ⟨s1, hw, hr1, hfr, _, _, _⟩ :=
    write_of_read (s.push (.array (List.replicate n (zeroOf decls ety)))) dl _
      (.slice (some ⟨s.objs.length, 0, n, n⟩)) (by rw [read_push_old s _ dl hdlt]; exact hd)
  refine ⟨s1, ⟨s.objs.length, 0, n, n⟩, List.replicate n (zeroOf decls ety), ?_, hr1, ?_, ?_, ?_,
    by simp, by simp, by simp; omega, by simp; omega, by simp; omega⟩
  · simp [sliceGrow, RV.IsNil, RV.load, readLoc_of_read hd, RV.Type, MakeSlice, alloc_apply, RV.Set,
      RV.isRO, writeLoc_of_write hw]
  · rw [hfr sl (Ne.symm hsep.1), read_push_old s _ sl hslt]; exact hs
  · rw [objs_of_write _ s1 dl s.objs.length hfr (by omega)]; exact push_objs_new s _
  · rw [objs_of_write _ s1 dl sh.block hfr (Ne.symm hsep.2), push_objs_old s _ _ hshlt]; exact hS


/-- The growth step on a destination that is long enough: nothing happens. -/
theorem sliceGrow_fits (decls : Decls) (ety : Ty) (dl : Loc) (dh : SliceHdr) (n : Nat) (s : St)
    (hd : s.read dl = some (.slice (some dh))) (hn : n ≤ dh.len) :
    sliceGrow decls (.lval (.slice ety) dl false) n s = .ok () s := by
  have hdiff : ¬ (dh.len < n) := by omega
  simp [sliceGrow, RV.IsNil, RV.load, readLoc_of_read hd, RV.Len, RV.Type, hdiff]

/-- The growth step within the capacity of the destination: the new elements are written as
zero values into the backing array of the destination. -/
theorem sliceGrow_inplace (decls : Decls) (ety : Ty) (dl : Loc) (dh : SliceHdr) (dcells : List Val)
    (n : Nat) (s : St)
    (hd : s.read dl = some (.slice (some dh))) (hD : s.objs[dh.block]? = some (.array dcells))
    (hlt : dh.len < n) (hcap : n ≤ dh.cap) (hb : dl.block ≠ dh.block) :
    ∃ s1, sliceGrow decls (.lval (.slice ety) dl false) n s = .ok () s1 ∧
      s1.read dl = some (.slice (some { dh with len := n })) ∧
      s1.objs[dh.block]? = some (.array (writeCells dcells (dh.off + dh.len)
        (List.replicate (n - dh.len) (zeroOf decls ety)))) ∧
      (∀ l2 : Loc, l2.block ≠ dl.block → l2.block ≠ dh.block → l2.block < s.objs.length →
        s1.read l2 = s.read l2) := by
  have hdlt := read_lt s dl _ hd
  have hblt : dh.block < s.objs.length := by
    by_contra hcon
    rw [List.getElem?_eq_none (Nat.le_of_not_lt hcon)] at hD
    cases hD
  have hlen : dh.len + (n - dh.len) = n := by omega
  let zs := List.replicate (n - dh.len) (zeroOf decls ety)
  let sA := s.push (.array zs)
  have hdA : sA.read dl = some (.slice (some dh)) := by
    rw [read_push_old s _ dl hdlt]; exact hd
  have hDA : sA.objs[dh.block]? = some (.array dcells) := by
    rw [push_objs_old s _ _ hblt]; exact hD
  have hnewA : sA.read ⟨s.objs.length, []⟩ = some (.array zs) := read_root _ _ _ (push_objs_new s _)
  have hwA := write_root sA dh.block (.array (writeCells dcells (dh.off + dh.len) zs))
    (by simp [sA]; omega)
  let sB := sA.setObj dh.block (.array (writeCells dcells (dh.off + dh.len) zs))
  have hdB : sB.read dl = some (.slice (some dh)) := by
    rw [read_setObj_other _ _ _ _ hb]; exact hdA
  obtain ⟨s1, hw, hr1, hfr, _, _, _⟩ := write_of_read sB dl _ (.slice (some { dh with len := n })) hdB
  refine ⟨s1, ?_, hr1, ?_, ?_⟩
  · simp [sliceGrow, RV.IsNil, RV.load, readLoc_of_read hd, RV.Len, hlt, RV.Type, MakeSlice,
      alloc_apply, AppendSlice, readLoc_of_read hdA, RV.Kind, Ty.kind, RV.isRO, sliceElems,
      readLoc_of_read hnewA, Val.children, hlen, hcap, readLoc_of_read (read_root _ _ _ hDA),
      Val.withChildren, writeLoc_of_write hwA, RV.Set, writeLoc_of_write hw, sA, zs]
  · rw [objs_of_write _ s1 dl dh.block hfr (Ne.symm hb)]
    exact setObj_objs_same sA _ _ (by simp [sA]; omega)
  · intro l2 h1 h2 h3
    rw [hfr l2 h1, read_setObj_other _ _ _ _ h2, read_push_old s _ l2 h3]

/-- The growth step beyond the capacity of the destination: a new backing array holds the
old elements followed by zero values. -/
theorem sliceGrow_realloc (decls : Decls) (ety : Ty) (dl : Loc) (dh : SliceHdr) (dcells : List Val)
    (n : Nat) (s : St)
    (hd : s.read dl = some (.slice (some dh))) (hD : s.objs[dh.block]? = some (.array dcells))
    (hlt : dh.len < n) (hcap : dh.cap < n) :
    ∃ s1, sliceGrow decls (.lval (.slice ety) dl false) n s = .ok () s1 ∧
      s1.read dl = some (.slice (some ⟨s.objs.length + 1, 0, n, n⟩)) ∧
      s1.objs[s.objs.length + 1]? = some (.array ((dcells.drop dh.off).take dh.len ++
        List.replicate (n - dh.len) (zeroOf decls ety))) ∧
      (∀ l2 : Loc, l2.block ≠ dl.block → l2.block < s.objs.length → s1.read l2 = s.read l2) := by
  have hdlt := read_lt s dl _ hd
  have hblt : dh.block < s.objs.length := by
    by_contra hcon
    rw [List.getElem?_eq_none (Nat.le_of_not_lt hcon)] at hD
    cases hD
  have hlen : dh.len + (n - dh.len) = n := by omega
  have hncap : ¬ (n ≤ dh.cap) := by omega
  let zs := List.replicate (n - dh.len) (zeroOf decls ety)
  let sA := s.push (.array zs)
  have hdA : sA.read dl = some (.slice (some dh)) := by
    rw [read_push_old s _ dl hdlt]; exact hd
  have hDA : sA.objs[dh.block]? = some (.array dcells) := by
    rw [push_objs_old s _ _ hblt]; exact hD
  have hnewA : sA.read ⟨s.objs.length, []⟩ = some (.array zs) := read_root _ _ _ (push_objs_new s _)
  let sB := sA.push (.array ((dcells.drop dh.off).take dh.len ++ zs))
  have hdB : sB.read dl = some (.slice (some dh)) := by
    rw [read_push_old sA _ dl (by simp [sA]; omega)]; exact hdA
  obtain ⟨s1, hw, hr1, hfr, _, _, _⟩ :=
    write_of_read sB dl _ (.slice (some ⟨s.objs.length + 1, 0, n, n⟩)) hdB
  refine ⟨s1, ?_, hr1, ?_, ?_⟩
  · simp [sliceGrow, RV.IsNil, RV.load, readLoc_of_read hd, RV.Len, hlt, RV.Type, MakeSlice,
      alloc_apply, AppendSlice, readLoc_of_read hdA, RV.Kind, Ty.kind, RV.isRO, sliceElems,
      readLoc_of_read hnewA, Val.children, hlen, hncap, readLoc_of_read (read_root _ _ _ hDA),
      RV.Set, writeLoc_of_write hw, sA, sB, zs]
  · rw [objs_of_write _ s1 dl (s.objs.length + 1) hfr (by omega)]
    have h := push_objs_new sA (.array ((dcells.drop dh.off).take dh.len ++ zs))
    have hl : sA.objs.length = s.objs.length + 1 := push_length s _
    rw [hl] at h
    exact h
  · intro l2 h1 h3
    rw [hfr l2 h1, read_push_old sA _ l2 (by simp [sA]; omega), read_push_old s _ l2 h3]


theorem grow_cells (cells : List Val) (off len n : Nat) (z : Val) (h1 : len < n)
    (h2 : off + n ≤ cells.length) :
    ((cells.take (off + len) ++ List.replicate (n - len) z ++
        cells.drop (off + len + (List.replicate (n - len) z).length)).drop off).take n =
      (cells.drop off).take len ++ List.replicate (n - len) z := by
  apply List.ext_getElem?
  intro i
  by_cases hi : i < n
  · rw [List.getElem?_take_of_lt hi, List.getElem?_drop]
    by_cases hil : i < len
    · rw [List.append_assoc, List.getElem?_append_left (by simp; omega),
        List.getElem?_append_left (by simp; omega), List.getElem?_take_of_lt (by omega),
        List.getElem?_take_of_lt hil, List.getElem?_drop]
    · rw [List.getElem?_append_left (by simp; omega),
        List.getElem?_append_right (by simp; omega), List.getElem?_append_right (by simp; omega)]
      simp
      have e1 : off + i - min (off + len) cells.length = i - len := by omega
      have e2 : i - min len (cells.length - off) = i - len := by omega
      rw [e1, e2]
  · rw [List.getElem?_eq_none (by simp; omega), List.getElem?_eq_none (by simp; omega)]

theorem elems_eq (s : St) (h : SliceHdr) (cells : List Val) (hb : s.objs[h.block]? = some (.array cells)) :
    s.elems h = (cells.drop h.off).take h.len := by
  simp [St.elems, hb, Val.children]

/-- The growth step of the slice handler: afterwards the destination variable holds a slice
of at least the length of the source, whose elements are the old ones followed by zero
values, in a backing array apart from the source. -/
theorem sliceGrow_spec (decls : Decls) (ety : Ty) (dl sl : Loc) (dmh : Option SliceHdr)
    (sh : SliceHdr) (dcells scells : List Val) (s : St)
    (hd : s.read dl = some (.slice dmh)) (hs : s.read sl = some (.slice (some sh)))
    (hS : s.objs[sh.block]? = some (.array scells))
    (hdst : ∀ dh, dmh = some dh →
      s.objs[dh.block]? = some (.array dcells) ∧ dh.len ≤ dh.cap ∧
        dh.off + dh.cap ≤ dcells.length ∧ dh.block ≠ sh.block ∧ dl.block ≠ dh.block ∧
        sl.block ≠ dh.block)
    (hsep : dl.block ≠ sl.block ∧ dl.block ≠ sh.block) :
    ∃ s1 h1 c1, sliceGrow decls (.lval (.slice ety) dl false) sh.len s = .ok () s1 ∧
      s1.read dl = some (.slice (some h1)) ∧ s1.read sl = some (.slice (some sh)) ∧
      s1.objs[h1.block]? = some (.array c1) ∧ s1.objs[sh.block]? = some (.array scells) ∧
      h1.off + h1.len ≤ c1.length ∧ sh.len ≤ h1.len ∧
      (c1.drop h1.off).take h1.len =
        s.elemsOpt dmh ++ List.replicate (sh.len - (s.elemsOpt dmh).length) (zeroOf decls ety) ∧
      h1.block ≠ sh.block ∧ dl.block ≠ h1.block ∧ sl.block ≠ h1.block := by
  have hslt := read_lt s sl _ hs
  have hshlt : sh.block < s.objs.length := by
    by_contra hcon
    rw [List.getElem?_eq_none (Nat.le_of_not_lt hcon)] at hS
    cases hS
  cases dmh with
  | none =>
    obtain ⟨s1, h1, c1, r1, r2, r3, r4, r5, r6, r7, r8, r9, r10⟩ :=
      sliceGrow_nil decls ety dl sl sh scells sh.len s hd hs hS hsep
    refine ⟨s1, h1, c1, r1, r2, r3, r4, r5, r6, ?_, by simpa [St.elemsOpt] using r7, r8, r9, r10⟩
    have hl := congrArg List.length r7
    simp only [List.length_take, List.length_drop, List.length_replicate] at hl
    omega
  | some dh =>
    obtain ⟨hD, hlc, hbound, hb1, hb2, hb3⟩ := hdst dh rfl
    have hel : s.elemsOpt (some dh) = (dcells.drop dh.off).take dh.len := elems_eq s dh dcells hD
    have hell : (s.elemsOpt (some dh)).length = dh.len := by
      rw [hel]; simp; omega
    rw [hell, hel]
    by_cases hfit : sh.len ≤ dh.len
    · refine ⟨s, dh, dcells, sliceGrow_fits decls ety dl dh sh.len s hd hfit, hd, hs, hD, hS,
        by omega, hfit, ?_, hb1, hb2, hb3⟩
      simp [Nat.sub_eq_zero_of_le hfit]
    · have hlt : dh.len < sh.len := by omega
      by_cases hcap : sh.len ≤ dh.cap
      · obtain ⟨s1, r1, r2, r3, r4⟩ :=
          sliceGrow_inplace decls ety dl dh dcells sh.len s hd hD hlt hcap hb2
        refine ⟨s1, { dh with len := sh.len }, _, r1, r2, ?_, r3, ?_, ?_, Nat.le_refl _, ?_,
          hb1, hb2, hb3⟩
        · rw [r4 sl (Ne.symm hsep.1) hb3 hslt]; exact hs
        · rw [← read_root_eq, r4 ⟨sh.block, []⟩ (Ne.symm hsep.2) (Ne.symm hb1) hshlt, read_root_eq]
          exact hS
        · rw [writeCells_eq _ _ _ (by simp; omega)]
          simp
          omega
        · rw [writeCells_eq _ _ _ (by simp; omega)]
          exact grow_cells dcells dh.off dh.len sh.len (zeroOf decls ety) (by omega) (by omega)
      · obtain ⟨s1, r1, r2, r3, r4⟩ :=
          sliceGrow_realloc decls ety dl dh dcells sh.len s hd hD hlt (by omega)
        have hdlt := read_lt s dl _ hd
        refine ⟨s1, ⟨s.objs.length + 1, 0, sh.len, sh.len⟩, _, r1, r2, ?_, r3, ?_, ?_,
          Nat.le_refl _, ?_, by simp; omega, by simp; omega, by simp; omega⟩
        · rw [r4 sl (Ne.symm hsep.1) hslt]; exact hs
        · rw [← read_root_eq, r4 ⟨sh.block, []⟩ (Ne.symm hsep.2) hshlt, read_root_eq]
          exact hS
        · simp
          omega
        · simp
          omega


/-- The default slice handler on two slice variables with a scalar element type and
separate backing arrays. -/
theorem defaultSliceFunc_scalar (decls : Decls) (m : merge) (hm : m.defaultMerge = defaultDefaultFunc)
    (fuel : Nat) (ety : Ty) (hety : ety.isScalar = true) (dl sl : Loc) (dmh : Option SliceHdr)
    (sh : SliceHdr) (dcells scells : List Val) (p : String) (s : St)
    (hd : s.read dl = some (.slice dmh)) (hs : s.read sl = some (.slice (some sh)))
    (hpos : 0 < sh.len)
    (hS : s.objs[sh.block]? = some (.array scells)) (hsb : sh.off + sh.len ≤ scells.length)
    (hdst : ∀ dh, dmh = some dh →
      s.objs[dh.block]? = some (.array dcells) ∧ dh.len ≤ dh.cap ∧
        dh.off + dh.cap ≤ dcells.length ∧ dh.block ≠ sh.block ∧ dl.block ≠ dh.block ∧
        sl.block ≠ dh.block)
    (hsep : dl.block ≠ sl.block ∧ dl.block ≠ sh.block) :
    ∃ s2 h2 c2, defaultSliceFunc decls (m.deepMerge (fuel + 1)) (.lval (.slice ety) dl false)
          (.lval (.slice ety) sl false) p s = .ok none s2 ∧
      s2.read dl = some (.slice (some h2)) ∧
      s2.elems h2 = ((overlayCells (s.elems sh) h2.off 0 sh.len c2).drop h2.off).take h2.len ∧
      h2.off + h2.len ≤ c2.length ∧ sh.len ≤ h2.len ∧
      (c2.drop h2.off).take h2.len =
        s.elemsOpt dmh ++ List.replicate (sh.len - (s.elemsOpt dmh).length) (zeroOf decls ety) := by
  obtain ⟨s1, h1, c1, r1, r2, r3, r4, r5, r6, r7, r8, r9, r10, r11⟩ :=
    sliceGrow_spec decls ety dl sl dmh sh dcells scells s hd hs hS hdst hsep
  have hloop := forEach_slice m hm fuel ety hety dl sl h1 sh scells p r9 r10 r11 hsb sh.len 0 c1 s1
    (by omega) (by omega) r6 r2 r3 r4 r5
  rw [← List.range_eq_range'] at hloop
  have hblt : h1.block < s1.objs.length := by
    by_contra hcon
    rw [List.getElem?_eq_none (Nat.le_of_not_lt hcon)] at r4
    cases r4
  refine ⟨s1.setObj h1.block
      (.array (overlayCells ((scells.drop sh.off).take sh.len) h1.off 0 sh.len c1)),
    h1, c1, ?_, ?_, ?_, r6, r7, r8⟩
  · simp [defaultSliceFunc, RV.Len, RV.Type, RV.load, readLoc_of_read hs, hpos, r1, hloop]
  · rw [read_setObj_other _ _ _ _ r10]; exact r2
  · rw [elems_eq _ h1 _ (setObj_objs_same s1 _ _ hblt), elems_eq s sh scells hS]


/-- The elements of the destination slice after the default slice handler ran on two slice
variables with a scalar element type and separate backing arrays. -/
theorem defaultSliceFunc_elems (decls : Decls) (m : merge) (hm : m.defaultMerge = defaultDefaultFunc)
    (fuel : Nat) (ety : Ty) (hety : ety.isScalar = true) (dl sl : Loc) (dmh : Option SliceHdr)
    (sh : SliceHdr) (dcells scells : List Val) (p : String) (s : St)
    (hd : s.read dl = some (.slice dmh)) (hs : s.read sl = some (.slice (some sh)))
    (hpos : 0 < sh.len)
    (hS : s.objs[sh.block]? = some (.array scells)) (hsb : sh.off + sh.len ≤ scells.length)
    (hdst : ∀ dh, dmh = some dh →
      s.objs[dh.block]? = some (.array dcells) ∧ dh.len ≤ dh.cap ∧
        dh.off + dh.cap ≤ dcells.length ∧ dh.block ≠ sh.block ∧ dl.block ≠ dh.block ∧
        sl.block ≠ dh.block)
    (hsep : dl.block ≠ sl.block ∧ dl.block ≠ sh.block) :
    ∃ s2 h2, defaultSliceFunc decls (m.deepMerge (fuel + 1)) (.lval (.slice ety) dl false)
          (.lval (.slice ety) sl false) p s = .ok none s2 ∧
      s2.read dl = some (.slice (some h2)) ∧
      (s2.elems h2).length = max (s.elemsOpt dmh).length (s.elems sh).length ∧
      (∀ i x, (s.elems sh)[i]? = some x →
        (s2.elems h2)[i]? =
          some (if x.isZero = true then (s.elemsOpt dmh).getD i (zeroOf decls ety) else x)) ∧
      (∀ i, (s.elems sh).length ≤ i → (s2.elems h2)[i]? = (s.elemsOpt dmh)[i]?) := by
  obtain ⟨s2, h2, c2, r1, r2, r3, r4, r5, r6⟩ := defaultSliceFunc_scalar decls m hm fuel ety hety
    dl sl dmh sh dcells scells p s hd hs hpos hS hsb hdst hsep
  have hss : (s.elems sh).length = sh.len := by
    rw [elems_eq s sh scells hS]; simp; omega
  have hlen : h2.len = (s.elemsOpt dmh).length + (sh.len - (s.elemsOpt dmh).length) := by
    have h := congrArg List.length r6
    simp only [List.length_take, List.length_drop, List.length_append, List.length_replicate] at h
    omega
  have hcell : ∀ i, i < h2.len → c2[h2.off + i]? =
      (s.elemsOpt dmh ++ List.replicate (sh.len - (s.elemsOpt dmh).length) (zeroOf decls ety))[i]? := by
    intro i hi
    rw [← r6, List.getElem?_take_of_lt hi, List.getElem?_drop]
  refine ⟨s2, h2, r1, r2, ?_, ?_, ?_⟩
  · rw [r3, hss]
    simp only [List.length_take, List.length_drop, overlayCells_length]
    omega
  · intro i x hx
    have hi : i < sh.len := by
      by_contra hcon
      rw [List.getElem?_eq_none (by omega)] at hx
      cases hx
    rw [r3, List.getElem?_take_of_lt (by omega), List.getElem?_drop,
      overlayCells_get _ _ _ _ _ _ (by omega) (by omega)]
    have hin : h2.off + 0 ≤ h2.off + i ∧ h2.off + i < h2.off + 0 + sh.len := by omega
    simp only [hin, and_self, if_true, Nat.add_sub_cancel_left, hx, hcell i (by omega)]
    by_cases hid : i < (s.elemsOpt dmh).length
    · rw [List.getElem?_append_left hid, List.getElem?_eq_getElem hid]
      simp [pick, List.getD_eq_getElem?_getD, List.getElem?_eq_getElem hid]
    · rw [List.getElem?_append_right (by omega),
        List.getElem?_replicate]
      have : i - (s.elemsOpt dmh).length < sh.len - (s.elemsOpt dmh).length := by omega
      simp [this, pick, List.getD_eq_getElem?_getD, List.getElem?_eq_none (Nat.le_of_not_lt hid)]
  · intro i hi
    rw [hss] at hi
    rw [r3]
    by_cases hil : i < h2.len
    · rw [List.getElem?_take_of_lt hil, List.getElem?_drop,
        overlayCells_get _ _ _ _ _ _ (by omega) (by omega)]
      have hout : ¬ (h2.off + 0 ≤ h2.off + i ∧ h2.off + i < h2.off + 0 + sh.len) := by omega
      simp only [hout, if_false, hcell i hil]
      by_cases hid : i < (s.elemsOpt dmh).length
      · rw [List.getElem?_append_left hid]
      · rw [List.getElem?_append_right (by omega), List.getElem?_eq_none (by simp; omega),
          List.getElem?_eq_none (by omega)]
    · rw [List.getElem?_eq_none (by simp; omega), List.getElem?_eq_none (by omega)]

/-- C7, counterexample: destination `arr[0:1]` and source `arr[0:3]` over one backing array
`arr = [1, 2, 3]`.  The handler grows the destination in place, which fills `arr[1]` and
`arr[2]` with zeros before the source is read: the destination ends as `[1, 0, 0]`, not as
`[1, 2, 3]`. -/
theorem slice_growth_counterexample :
    aliasVarsSt.elems ⟨2, 0, 1, 3⟩ = [.int 1] ∧
    aliasVarsSt.elems ⟨2, 0, 3, 3⟩ = [.int 1, .int 2, .int 3] ∧
    defaultSliceFunc [] ((New [] []).deepMerge 1) (.lval (.slice .int) ⟨0, []⟩ false)
        (.lval (.slice .int) ⟨1, []⟩ false) "" aliasVarsSt =
      .ok none
        { objs :=
            [.slice (some ⟨2, 0, 3, 3⟩),
             .slice (some ⟨2, 0, 3, 3⟩),
             .array [.int 1, .int 0, .int 0],
             .array [.int 0, .int 0]],
          maps := [],
          visited := [] } := by
  decide!

/-- C7, amended: ordered-sequence growth, for slices of scalars held in two variables whose
backing arrays are apart.  For every settable destination slice `d` (nil included) and every
source slice `s` with `len(s) > 0`, the default slice handler succeeds and leaves in the
destination variable a slice `r` with `len(r) = max(len(d), len(s))`; for `i < len(s)`,
`r[i] = s[i]` when `s[i]` is non-empty, otherwise `d[i]` if `i < len(d)` and the zero value
if not; for `len(s) <= i`, `r[i] = d[i]`. -/
theorem slice_growth (decls : Decls) (m : merge) (hm : m.defaultMerge = defaultDefaultFunc)
    (fuel : Nat) (ety : Ty) (hety : ety.isScalar = true) (dl sl : Loc) (dmh : Option SliceHdr)
    (sh : SliceHdr) (dcells scells : List Val) (p : String) (s : St)
    (hd : s.read dl = some (.slice dmh)) (hs : s.read sl = some (.slice (some sh)))
    (hpos : 0 < sh.len)
    (hS : s.objs[sh.block]? = some (.array scells)) (hsb : sh.off + sh.len ≤ scells.length)
    (hdst : ∀ dh, dmh = some dh →
      s.objs[dh.block]? = some (.array dcells) ∧ dh.len ≤ dh.cap ∧
        dh.off + dh.cap ≤ dcells.length ∧ dh.block ≠ sh.block ∧ dl.block ≠ dh.block ∧
        sl.block ≠ dh.block)
    (hsep : dl.block ≠ sl.block ∧ dl.block ≠ sh.block) :
    ∃ s2 h2, defaultSliceFunc decls (m.deepMerge (fuel + 1)) (.lval (.slice ety) dl false)
          (.lval (.slice ety) sl false) p s = .ok none s2 ∧
      s2.read dl = some (.slice (some h2)) ∧
      (s2.elems h2).length = max (s.elemsOpt dmh).length (s.elems sh).length ∧
      (∀ i x, (s.elems sh)[i]? = some x →
        (s2.elems h2)[i]? =
          some (if x.isZero = true then (s.elemsOpt dmh).getD i (zeroOf decls ety) else x)) ∧
      (∀ i, (s.elems sh).length ≤ i → (s2.elems h2)[i]? = (s.elemsOpt dmh)[i]?) :=
  defaultSliceFunc_elems decls m hm fuel ety hety dl sl dmh sh dcells scells p s hd hs hpos hS hsb
    hdst hsep

/-- Witness for C7 (amended): the slice variables of `sliceVarsSt`; the destination grows in place. -/
theorem slice_growth_witness :
    (New [] []).defaultMerge = defaultDefaultFunc ∧ Ty.int.isScalar = true ∧
    sliceVarsSt.read ⟨0, []⟩ = some (.slice (some ⟨2, 0, 1, 3⟩)) ∧
    sliceVarsSt.read ⟨1, []⟩ = some (.slice (some ⟨3, 0, 3, 3⟩)) ∧
    0 < (SliceHdr.mk 3 0 3 3).len ∧
    sliceVarsSt.objs[3]? = some (.array [.int 0, .int 5, .int 6]) ∧
    (0 : Nat) + 3 ≤ [Val.int 0, Val.int 5, Val.int 6].length ∧
    ((0 : Nat) ≠ 1 ∧ (0 : Nat) ≠ 3) ∧
    ∃ s2 h2, defaultSliceFunc [] ((New [] []).deepMerge 1) (.lval (.slice .int) ⟨0, []⟩ false)
          (.lval (.slice .int) ⟨1, []⟩ false) "" sliceVarsSt = .ok none s2 ∧
      s2.read ⟨0, []⟩ = some (.slice (some h2)) ∧
      (s2.elems h2).length =
        max (sliceVarsSt.elemsOpt (some ⟨2, 0, 1, 3⟩)).length (sliceVarsSt.elems ⟨3, 0, 3, 3⟩).length ∧
      (∀ i x, (sliceVarsSt.elems ⟨3, 0, 3, 3⟩)[i]? = some x →
        (s2.elems h2)[i]? =
          some (if x.isZero = true then (sliceVarsSt.elemsOpt (some ⟨2, 0, 1, 3⟩)).getD i (zeroOf [] .int)
            else x)) ∧
      (∀ i, (sliceVarsSt.elems ⟨3, 0, 3, 3⟩).length ≤ i →
        (s2.elems h2)[i]? = (sliceVarsSt.elemsOpt (some ⟨2, 0, 1, 3⟩))[i]?) :=
  ⟨rfl, rfl, by decide, by decide, by decide, by decide, by decide, by decide,
    slice_growth [] (New [] []) rfl 0 .int rfl ⟨0, []⟩ ⟨1, []⟩ (some ⟨2, 0, 1, 3⟩) ⟨3, 0, 3, 3⟩
      [.int 1, .int 7, .int 8] [.int 0, .int 5, .int 6] "" sliceVarsSt (by decide) (by decide)
      (by decide) (by decide) (by decide) (by intro dh h; cases h; decide) (by decide)⟩

theorem fieldOK_cases (graph : List (Nat × String)) (fd : FieldDecl) (v : Val)
    (h : fieldOK graph fd v = true) :
    fd.exported = true ∧
      (fd.ty.isScalar = true ∨
        ∃ n2 b2, fd.ty = .ptr (.struct n2) ∧ v = .ptr (some ⟨b2, []⟩) ∧ (b2, n2) ∈ graph) := by
  obtain ⟨fname, ex, ty⟩ := fd
  simp only [fieldOK, Bool.and_eq_true, Bool.or_eq_true] at h
  refine ⟨h.1, ?_⟩
  rcases h.2 with h2 | h2
  · exact Or.inl h2
  · right
    cases ty with
    | ptr e =>
      cases e with
      | struct n2 =>
        cases v with
        | ptr t =>
          cases t with
          | none => simp at h2
          | some l =>
            obtain ⟨b, path⟩ := l
            simp only [Bool.and_eq_true, List.isEmpty_iff, List.contains_eq_any_beq,
              List.any_eq_true, beq_iff_eq] at h2
            obtain ⟨rfl, e, he, hee⟩ := h2
            subst hee
            exact ⟨n2, b, rfl, rfl, he⟩
        | _ => simp at h2
      | _ => simp at h2
    | _ => simp at h2

theorem fieldsOK_length (graph : List (Nat × String)) (fds : List FieldDecl) (fs : List Val)
    (h : fieldsOK graph fds fs = true) : fs.length = fds.length := by
  induction fds generalizing fs with
  | nil => cases fs <;> simp_all [fieldsOK]
  | cons fd fds ih =>
    cases fs with
    | nil => simp [fieldsOK] at h
    | cons v vs =>
      simp only [fieldsOK, Bool.and_eq_true] at h
      simp [ih vs h.2]

theorem fieldsOK_get (graph : List (Nat × String)) (fds : List FieldDecl) (fs : List Val)
    (h : fieldsOK graph fds fs = true) (i : Nat) (fd : FieldDecl) (v : Val)
    (hfd : fds[i]? = some fd) (hv : fs[i]? = some v) : fieldOK graph fd v = true := by
  induction fds generalizing fs i with
  | nil => simp at hfd
  | cons fd0 fds ih =>
    cases fs with
    | nil => simp at hv
    | cons v0 vs =>
      simp only [fieldsOK, Bool.and_eq_true] at h
      cases i with
      | zero =>
        simp at hfd hv
        subst hfd; subst hv
        exact h.1
      | succ i =>
        simp at hfd hv
        exact ih vs h.2 i hfd hv

theorem fieldsOK_set (graph : List (Nat × String)) (fds : List FieldDecl) (fs : List Val)
    (h : fieldsOK graph fds fs = true) (i : Nat) (fd : FieldDecl) (v : Val)
    (hfd : fds[i]? = some fd) (hok : fieldOK graph fd v = true) :
    fieldsOK graph fds (fs.set i v) = true := by
  induction fds generalizing fs i with
  | nil => simp at hfd
  | cons fd0 fds ih =>
    cases fs with
    | nil => simp [fieldsOK] at h
    | cons v0 vs =>
      simp only [fieldsOK, Bool.and_eq_true] at h
      cases i with
      | zero =>
        simp at hfd
        subst hfd
        simp [fieldsOK, hok, h.2]
      | succ i =>
        simp at hfd
        simp [fieldsOK, h.1, ih vs h.2 i hfd]

theorem graphOK_record (decls : Decls) (graph : List (Nat × String)) (s : St)
    (h : graphOK decls graph s = true) (b : Nat) (name : String) (hm : (b, name) ∈ graph) :
    ∃ fs, s.objs[b]? = some (.struct fs) ∧ fieldsOK graph (fieldsOf decls name) fs = true := by
  have h2 := List.all_eq_true.mp h (b, name) hm
  simp only [recordOK] at h2
  split at h2
  · next fs heq => exact ⟨fs, heq, h2⟩
  · cases h2

/-- A graph stays a graph when objects are untouched. -/
theorem graphOK_congr (decls : Decls) (graph : List (Nat × String)) (s s2 : St)
    (h : graphOK decls graph s = true) (hobjs : s2.objs = s.objs) :
    graphOK decls graph s2 = true := by
  simp only [graphOK, List.all_eq_true] at h ⊢
  intro e he
  have := h e he
  simpa [recordOK, hobjs] using this

/-- A graph stays a graph when a scalar field of one of its records is overwritten. -/
theorem graphOK_setField (decls : Decls) (graph : List (Nat × String)) (s : St)
    (hnd : (graph.map Prod.fst).Nodup)
    (h : graphOK decls graph s = true) (D : Nat) (name : String) (hm : (D, name) ∈ graph)
    (ds : List Val) (hD : s.objs[D]? = some (.struct ds)) (i : Nat) (fd : FieldDecl) (v : Val)
    (hfd : (fieldsOf decls name)[i]? = some fd) (hex : fd.exported = true)
    (hsc : fd.ty.isScalar = true) :
    graphOK decls graph (s.setObj D (.struct (ds.set i v))) = true := by
  have hDlt : D < s.objs.length := by
    by_contra hcon
    rw [List.getElem?_eq_none (Nat.le_of_not_lt hcon)] at hD
    cases hD
  simp only [graphOK, List.all_eq_true] at h ⊢
  intro e he
  have hrec := h e he
  by_cases heD : e.1 = D
  · have hee : e = (D, name) := by
      obtain ⟨b, nm⟩ := e
      simp only at heD
      subst heD
      have := List.inj_on_of_nodup_map hnd he hm rfl
      exact this
    subst hee
    simp only [recordOK, hD] at hrec
    simp only [recordOK, setObj_objs_same s D _ hDlt]
    exact fieldsOK_set graph _ ds hrec i fd v hfd (by simp [fieldOK, hex, hsc])
  · simpa [recordOK, setObj_objs_other s D e.1 _ heD] using hrec


/-- The engine on a record of a graph: an empty or visited source is skipped; otherwise the
source is marked and the record handler runs over the fields. -/
theorem deepMerge_record (decls : Decls) (m : merge) (hms : m.structMerge = defaultStructFunc decls)
    (fuel : Nat) (name : String) (D S : Nat) (ss : List Val) (p : String) (s : St)
    (hS : s.objs[S]? = some (.struct ss)) :
    m.deepMerge (fuel + 1) (.lval (.struct name) ⟨D, []⟩ false) (.lval (.struct name) ⟨S, []⟩ false) p s =
      if (Val.struct ss).isZero = true then .ok none s
      else if (S, 0) ∈ s.visited then .ok none s
      else forEach (structFieldStep decls (m.deepMerge fuel) (.lval (.struct name) ⟨D, []⟩ false)
        (.lval (.struct name) ⟨S, []⟩ false) (.struct name) p)
        (List.range (fieldsOf decls name).length) (s.mark (S, 0)) := by
  have hrS := read_root s S _ hS
  rw [merge.deepMerge]
  cases hz : (Val.struct ss).isZero with
  | true => simp [RV.IsValid, RV.IsZero, RV.load, readLoc_of_read hrS, hz]
  | false =>
    by_cases hv : (S, 0) ∈ s.visited
    · simp [RV.IsValid, RV.IsZero, RV.load, readLoc_of_read hrS, hz, reconcile, RV.Type,
        RV.Kind, Ty.kind, RV.CanAddr, RV.Pointer, hS, Val.offsetOf, isVisited, hv]
    · simp [RV.IsValid, RV.IsZero, RV.load, readLoc_of_read hrS, hz, reconcile, RV.Type,
        RV.Kind, Ty.kind, RV.CanAddr, RV.Pointer, hS, Val.offsetOf, isVisited, hv, markVisited, hms,
        defaultStructFunc, RV.NumField]

/-- The engine on a reference field of two records: both references are followed. -/
theorem deepMerge_ref_field (m : merge) (hmp : m.pointerMerge = defaultPointerFunc)
    (fuel : Nat) (n2 : String) (D S i D2 S2 : Nat) (ds ss : List Val) (p : String) (s : St)
    (hD : s.objs[D]? = some (.struct ds)) (hS : s.objs[S]? = some (.struct ss))
    (hd : ds[i]? = some (.ptr (some ⟨D2, []⟩))) (hx : ss[i]? = some (.ptr (some ⟨S2, []⟩))) :
    m.deepMerge (fuel + 1) (.lval (.ptr (.struct n2)) ⟨D, [i]⟩ false)
        (.lval (.ptr (.struct n2)) ⟨S, [i]⟩ false) p s =
      m.deepMerge fuel (.lval (.struct n2) ⟨D2, []⟩ false) (.lval (.struct n2) ⟨S2, []⟩ false) p s := by
  have hrd := read_field s D i ds _ hD hd
  have hrs := read_field s S i ss _ hS hx
  rw [merge.deepMerge]
  simp [RV.IsValid, RV.IsZero, RV.load, readLoc_of_read hrs, readLoc_of_read hrd, Val.isZero, reconcile,
    RV.Type, RV.Kind, Ty.kind, RV.Elem, RV.CanAddr, hmp, defaultPointerFunc]

/-- One iteration of the record handler on a reference field. -/
theorem structFieldStep_ref (decls : Decls) (m : merge) (hmp : m.pointerMerge = defaultPointerFunc)
    (fuel : Nat) (name n2 : String) (fd : FieldDecl) (D S i D2 S2 : Nat) (ds ss : List Val)
    (dType : Ty) (p : String) (s : St)
    (hfd : (fieldsOf decls name)[i]? = some fd) (hex : fd.exported = true)
    (hty : fd.ty = .ptr (.struct n2))
    (hD : s.objs[D]? = some (.struct ds)) (hS : s.objs[S]? = some (.struct ss))
    (hd : ds[i]? = some (.ptr (some ⟨D2, []⟩))) (hx : ss[i]? = some (.ptr (some ⟨S2, []⟩))) :
    ∃ nf, structFieldStep decls (m.deepMerge (fuel + 1)) (.lval (.struct name) ⟨D, []⟩ false)
        (.lval (.struct name) ⟨S, []⟩ false) dType p i s =
      match m.deepMerge fuel (.lval (.struct n2) ⟨D2, []⟩ false) (.lval (.struct n2) ⟨S2, []⟩ false) nf s with
      | .ok (some err) s2 => .ok (some (.inField nf err)) s2
      | .ok none s2 => .ok none s2
      | .panic msg => .panic msg
      | .timeout => .timeout := by
  refine ⟨p ++ "." ++ fieldName decls dType i ++ "(" ++ toString i ++ ")", ?_⟩
  simp only [structFieldStep, RV.Field, hfd, hex, M_bind_apply, M_pure_apply, Bool.not_true,
    Bool.or_false, RV.CanSet, Bool.not_false, if_true, hty, List.nil_append,
    deepMerge_ref_field m hmp fuel n2 D S i D2 S2 ds ss _ s hD hS hd hx]
  generalize m.deepMerge fuel _ _ _ s = r
  rcases r with ⟨a, s2⟩ | msg | _
  · cases a <;> rfl
  · rfl
  · rfl

theorem unvisited_mono (graph : List (Nat × String)) (s s2 : St)
    (h : ∀ a ∈ s.visited, a ∈ s2.visited) : unvisited graph s2 ≤ unvisited graph s := by
  unfold unvisited
  apply List.countP_mono_left
  intro e _ he
  simp only [Bool.not_eq_true', List.contains_eq_any_beq, List.any_eq_false, beq_iff_eq] at he ⊢
  intro a ha
  exact he a (h a ha)

theorem countP_lt_of_mem {α : Type} (p q : α → Bool) (l : List α) (x : α) (hx : x ∈ l)
    (hpq : ∀ e, q e = true → p e = true) (hp : p x = true) (hq : q x = false) :
    l.countP q < l.countP p := by
  induction l with
  | nil => simp at hx
  | cons a l ih =>
    have hle : l.countP q ≤ l.countP p := List.countP_mono_left (fun e _ h => hpq e h)
    simp only [List.mem_cons] at hx
    rcases hx with rfl | hx
    · simp only [List.countP_cons, hp, hq, if_true]
      simp
      omega
    · have := ih hx
      simp only [List.countP_cons]
      cases hqa : q a
      · simp
        split <;> omega
      · simp [hpq a hqa]
        omega

theorem unvisited_mark (graph : List (Nat × String)) (s : St) (S : Nat) (name : String)
    (hm : (S, name) ∈ graph) (hv : (S, 0) ∉ s.visited) :
    unvisited graph (s.mark (S, 0)) < unvisited graph s := by
  unfold unvisited
  apply countP_lt_of_mem _ _ graph (S, name) hm
  · intro e he
    simp only [mark_visited, Bool.not_eq_true', List.contains_eq_any_beq, List.any_eq_false,
      beq_iff_eq, List.mem_cons, forall_eq_or_imp] at he ⊢
    intro a ha
    exact he.2 a ha
  · simpa using hv
  · simp


theorem GraphStep.refl (decls : Decls) (graph : List (Nat × String)) (s : St)
    (h : graphOK decls graph s = true) (hn : s.visited.Nodup) : GraphStep decls graph s s :=
  ⟨h, hn, fun _ ha => ha, rfl, fun _ _ => rfl, fun _ fs _ v h1 h2 h3 => ⟨fs, v, h1, h2, h3⟩⟩

theorem GraphStep.trans (decls : Decls) (graph : List (Nat × String)) (s1 s2 s3 : St)
    (h12 : GraphStep decls graph s1 s2) (h23 : GraphStep decls graph s2 s3) :
    GraphStep decls graph s1 s3 :=
  ⟨h23.ok, h23.nodup, fun a ha => h23.grows a (h12.grows a ha),
    h23.size.trans h12.size, fun b hb => (h23.frame b hb).trans (h12.frame b hb),
    fun b fs i v h1 h2 h3 => by
      obtain ⟨fs2, v2, g1, g2, g3⟩ := h12.keeps b fs i v h1 h2 h3
      exact h23.keeps b fs2 i v2 g1 g2 g3⟩

theorem forEach_walk (decls : Decls) (graph : List (Nat × String)) (m : merge)
    (hmp : m.pointerMerge = defaultPointerFunc) (hm : m.defaultMerge = defaultDefaultFunc)
    (hnd : (graph.map Prod.fst).Nodup) (k f : Nat) (walk : String → Nat → Nat → St → St)
    (hR : ∀ (s : St) (D S : Nat) (name p : String),
      graphOK decls graph s = true → s.visited.Nodup → (D, name) ∈ graph → (S, name) ∈ graph →
      unvisited graph s ≤ k →
      m.deepMerge f (.lval (.struct name) ⟨D, []⟩ false) (.lval (.struct name) ⟨S, []⟩ false) p s =
          .ok none (walk name D S s) ∧ GraphStep decls graph s (walk name D S s))
    (D S : Nat) (name : String) (dType : Ty) (p : String)
    (hD : (D, name) ∈ graph) (hS : (S, name) ∈ graph) :
    ∀ (is : List Nat) (s : St), (∀ i ∈ is, i < (fieldsOf decls name).length) →
      graphOK decls graph s = true → s.visited.Nodup → unvisited graph s ≤ k →
      forEach (structFieldStep decls (m.deepMerge (f + 1)) (.lval (.struct name) ⟨D, []⟩ false)
            (.lval (.struct name) ⟨S, []⟩ false) dType p) is s =
          .ok none (is.foldl (walkField decls walk name D S) s) ∧
        GraphStep decls graph s (is.foldl (walkField decls walk name D S) s) := by
  intro is
  induction is with
  | nil =>
    intro s _ hg hn _
    exact ⟨rfl, GraphStep.refl decls graph s hg hn⟩
  | cons i is ih =>
    intro s his hg hn hk
    obtain ⟨ds, hDo, hDf⟩ := graphOK_record decls graph s hg D name hD
    obtain ⟨ss, hSo, hSf⟩ := graphOK_record decls graph s hg S name hS
    have hi : i < (fieldsOf decls name).length := his i (List.mem_cons_self _ _)
    have hfd : (fieldsOf decls name)[i]? = some (fieldsOf decls name)[i] := List.getElem?_eq_getElem hi
    have hdl := fieldsOK_length graph _ ds hDf
    have hsl := fieldsOK_length graph _ ss hSf
    have hd : ds[i]? = some ds[i] := List.getElem?_eq_getElem (by omega)
    have hx : ss[i]? = some ss[i] := List.getElem?_eq_getElem (by omega)
    obtain ⟨hex, hkind⟩ := fieldOK_cases graph _ _ (fieldsOK_get graph _ ds hDf i _ _ hfd hd)
    obtain ⟨_, hkind2⟩ := fieldOK_cases graph _ _ (fieldsOK_get graph _ ss hSf i _ _ hfd hx)
    have hstep : structFieldStep decls (m.deepMerge (f + 1)) (.lval (.struct name) ⟨D, []⟩ false)
          (.lval (.struct name) ⟨S, []⟩ false) dType p i s =
            .ok none (walkField decls walk name D S s i) ∧
        GraphStep decls graph s (walkField decls walk name D S s i) := by
      rcases hkind with hsc | ⟨n2, D2, hty, hdv, hD2⟩
      · have hDlt : D < s.objs.length := by
          by_contra hcon
          rw [List.getElem?_eq_none (Nat.le_of_not_lt hcon)] at hDo
          cases hDo
        have hw : walkField decls walk name D S s i =
            s.setObj D (.struct (ds.set i (pick ds[i] ss[i]))) := by
          simp only [walkField, hfd, hDo, hSo, hsc, if_true, hd, hx]
        rw [hw]
        refine ⟨structFieldStep_flat decls m hm f name _ D S i ds ss _ _ dType p s hfd hex hsc
          hDo hSo hd hx, ?_, hn, fun _ ha => ha, by simp, ?_, ?_⟩
        · exact graphOK_setField decls graph s hnd hg D name hD ds hDo i _ _ hfd hex hsc
        · intro b hb
          have hbD : b ≠ D := by
            intro e
            subst e
            exact hb (List.mem_map_of_mem Prod.fst hD)
          exact setObj_objs_other s D b _ hbD
        · intro b fs j v h1 h2 h3
          by_cases hbD : b = D
          · subst hbD
            rw [hDo] at h1
            injection h1 with h1
            injection h1 with h1
            subst h1
            refine ⟨ds.set i (pick ds[i] ss[i]), (ds.set i (pick ds[i] ss[i]))[j]?.getD v,
              setObj_objs_same s b _ hDlt, ?_, ?_⟩
            · by_cases hij : i = j
              · subst hij
                simp [List.getElem?_set_self (show i < ds.length by omega)]
              · simp [List.getElem?_set_ne hij, h2]
            · by_cases hij : i = j
              · subst hij
                rw [hd] at h2
                injection h2 with h2
                simp only [List.getElem?_set_self (show i < ds.length by omega), Option.getD_some]
                rw [h2]
                simp only [pick]
                split
                · exact h3
                · next hx0 => simpa using hx0
              · simpa [List.getElem?_set_ne hij, h2] using h3
          · exact ⟨fs, v, by rw [setObj_objs_other s D b _ hbD]; exact h1, h2, h3⟩
      · rcases hkind2 with hsc | ⟨n3, S2, hty2, hsv, hS2⟩
        · rw [hty] at hsc
          simp [Ty.isScalar] at hsc
        · rw [hty] at hty2
          injection hty2 with hty3
          injection hty3 with hty4
          subst hty4
          obtain ⟨nf, hnf⟩ := structFieldStep_ref decls m hmp f name n2 _ D S i D2 S2 ds ss dType p s
            hfd hex hty hDo hSo (by rw [hd, hdv]) (by rw [hx, hsv])
          obtain ⟨hrun, hgs⟩ := hR s D2 S2 n2 nf hg hn hD2 hS2 hk
          have hw : walkField decls walk name D S s i = walk n2 D2 S2 s := by
            simp only [walkField, hfd, hDo, hSo, hty, Ty.isScalar, Bool.false_eq_true, if_false,
              hd, hx, hdv, hsv]
          rw [hw]
          exact ⟨by rw [hnf, hrun], hgs⟩
    obtain ⟨hrun1, hgs1⟩ := hstep
    obtain ⟨hrun2, hgs2⟩ := ih _ (fun j hj => his j (List.mem_cons_of_mem _ hj)) hgs1.ok hgs1.nodup
      (Nat.le_trans (unvisited_mono graph s _ hgs1.grows) hk)
    exact ⟨by simp only [forEach, M_bind_apply, hrun1, hrun2, List.foldl_cons],
      GraphStep.trans decls graph s _ _ hgs1 (by simpa only [List.foldl_cons] using hgs2)⟩

/-- The engine on the records of a graph is the walk: with `k` unvisited records, `2k + 1`
units of fuel are enough, and the memory it leaves is the one of the walk. -/
theorem deepMerge_walk (decls : Decls) (graph : List (Nat × String)) (m : merge)
    (hmp : m.pointerMerge = defaultPointerFunc) (hms : m.structMerge = defaultStructFunc decls)
    (hm : m.defaultMerge = defaultDefaultFunc) (hnd : (graph.map Prod.fst).Nodup) :
    ∀ (k fuel : Nat) (s : St) (D S : Nat) (name p : String), 2 * k + 1 ≤ fuel →
      graphOK decls graph s = true → s.visited.Nodup → (D, name) ∈ graph → (S, name) ∈ graph →
      unvisited graph s ≤ k →
      m.deepMerge fuel (.lval (.struct name) ⟨D, []⟩ false) (.lval (.struct name) ⟨S, []⟩ false) p s =
          .ok none (graphWalk decls (k + 1) name D S s) ∧
        GraphStep decls graph s (graphWalk decls (k + 1) name D S s) := by
  intro k
  induction k with
  | zero =>
    intro fuel s D S name p hfuel hg hn hD hS hk
    obtain ⟨f, rfl⟩ : ∃ f, fuel = f + 1 := ⟨fuel - 1, by omega⟩
    obtain ⟨ss, hSo, _⟩ := graphOK_record decls graph s hg S name hS
    rw [deepMerge_record decls m hms f name D S ss p s hSo]
    by_cases hz : (Val.struct ss).isZero = true
    · have hw : graphWalk decls 1 name D S s = s := by
        simp only [Val.isZero] at hz
        simp [graphWalk, hSo, hz]
      rw [hw]
      exact ⟨by simp [hz], GraphStep.refl decls graph s hg hn⟩
    · by_cases hv : (S, 0) ∈ s.visited
      · have hw : graphWalk decls 1 name D S s = s := by
          simp [graphWalk, hSo, hv]
        rw [hw]
        exact ⟨by simp [hz, hv], GraphStep.refl decls graph s hg hn⟩
      · have := unvisited_mark graph s S name hS hv
        omega
  | succ k ih =>
    intro fuel s D S name p hfuel hg hn hD hS hk
    obtain ⟨f, rfl⟩ : ∃ f, fuel = f + 2 := ⟨fuel - 2, by omega⟩
    obtain ⟨ss, hSo, _⟩ := graphOK_record decls graph s hg S name hS
    rw [deepMerge_record decls m hms (f + 1) name D S ss p s hSo]
    by_cases hz : (Val.struct ss).isZero = true
    · have hw : graphWalk decls (k + 1 + 1) name D S s = s := by
        simp only [Val.isZero] at hz
        simp [graphWalk, hSo, hz]
      rw [hw]
      exact ⟨by simp [hz], GraphStep.refl decls graph s hg hn⟩
    · by_cases hv : (S, 0) ∈ s.visited
      · have hw : graphWalk decls (k + 1 + 1) name D S s = s := by
          simp [graphWalk, hSo, hv]
        rw [hw]
        exact ⟨by simp [hz, hv], GraphStep.refl decls graph s hg hn⟩
      · have hlt := unvisited_mark graph s S name hS hv
        have hw : graphWalk decls (k + 1 + 1) name D S s =
            (List.range (fieldsOf decls name).length).foldl
              (walkField decls (graphWalk decls (k + 1)) name D S) (s.mark (S, 0)) := by
          simp only [Val.isZero] at hz
          simp [graphWalk, hSo, hz, hv]
        rw [hw]
        obtain ⟨hrun, hgs⟩ := forEach_walk decls graph m hmp hm hnd k f (graphWalk decls (k + 1))
          (fun s0 D0 S0 name0 p0 h1 h2 h3 h4 h5 => ih f s0 D0 S0 name0 p0 (by omega) h1 h2 h3 h4 h5)
          D S name (.struct name) p hD hS (List.range (fieldsOf decls name).length) (s.mark (S, 0))
          (fun i hi => List.mem_range.mp hi)
          (graphOK_congr decls graph s _ hg rfl)
          (by simpa using ⟨hv, hn⟩)
          (by omega)
        refine ⟨by simp [hz, hv, hrun], hgs.ok, hgs.nodup, ?_, hgs.size, hgs.frame, hgs.keeps⟩
        intro a ha
        exact hgs.grows a (by simp [ha])

/-- The engine on two variables holding non-nil references to records: both references are
followed. -/
theorem deepMerge_ref_var (m : merge) (hmp : m.pointerMerge = defaultPointerFunc)
    (fuel : Nat) (n2 : String) (dl sl : Loc) (D2 S2 : Nat) (p : String) (s : St)
    (hd : s.read dl = some (.ptr (some ⟨D2, []⟩))) (hx : s.read sl = some (.ptr (some ⟨S2, []⟩))) :
    m.deepMerge (fuel + 1) (.lval (.ptr (.struct n2)) dl false) (.lval (.ptr (.struct n2)) sl false) p s =
      m.deepMerge fuel (.lval (.struct n2) ⟨D2, []⟩ false) (.lval (.struct n2) ⟨S2, []⟩ false) p s := by
  rw [merge.deepMerge]
  simp [RV.IsValid, RV.IsZero, RV.load, readLoc_of_read hx, readLoc_of_read hd, Val.isZero, reconcile,
    RV.Type, RV.Kind, Ty.kind, RV.Elem, RV.CanAddr, hmp, defaultPointerFunc]

theorem graph_block_lt (decls : Decls) (graph : List (Nat × String)) (s : St)
    (h : graphOK decls graph s = true) (b : Nat) (hb : b ∈ graph.map Prod.fst) :
    b < s.objs.length := by
  obtain ⟨e, he, rfl⟩ := List.mem_map.mp hb
  obtain ⟨fs, hfs, _⟩ := graphOK_record decls graph s h e.1 e.2 he
  by_contra hcon
  rw [List.getElem?_eq_none (Nat.le_of_not_lt hcon)] at hfs
  cases hfs

theorem graphOK_push (decls : Decls) (graph : List (Nat × String)) (s : St) (v : Val)
    (h : graphOK decls graph s = true) : graphOK decls graph (s.push v) = true := by
  have hlt := graph_block_lt decls graph s h
  simp only [graphOK, List.all_eq_true] at h ⊢
  intro e he
  have hrec := h e he
  have helt : e.1 < s.objs.length := hlt e.1 (List.mem_map_of_mem Prod.fst he)
  simpa [recordOK, push_objs_old s v e.1 helt] using hrec

/-- `Merge` of two references into a graph of records is the walk from the two records. -/
theorem Merge_walk (decls : Decls) (graph : List (Nat × String)) (m : merge)
    (hmp : m.pointerMerge = defaultPointerFunc) (hms : m.structMerge = defaultStructFunc decls)
    (hm : m.defaultMerge = defaultDefaultFunc) (hnd : (graph.map Prod.fst).Nodup)
    (s : St) (D S : Nat) (name : String) (fuel k : Nat)
    (hg : graphOK decls graph s = true) (hD : (D, name) ∈ graph) (hS : (S, name) ∈ graph)
    (hk : graph.length ≤ k) (hfuel : 2 * k + 3 ≤ fuel) :
    m.Merge decls (.ptr (.struct name)) fuel [.ptr (some ⟨D, []⟩), .ptr (some ⟨S, []⟩)] s =
        .ok (.ptr (some ⟨D, []⟩), none)
          (graphWalk decls (k + 1) name D S
            (((s.push (.ptr (some ⟨D, []⟩))).clearVisited).push (.ptr (some ⟨S, []⟩)))) ∧
      GraphStep decls graph (((s.push (.ptr (some ⟨D, []⟩))).clearVisited).push (.ptr (some ⟨S, []⟩)))
        (graphWalk decls (k + 1) name D S
          (((s.push (.ptr (some ⟨D, []⟩))).clearVisited).push (.ptr (some ⟨S, []⟩)))) := by
  obtain ⟨f, rfl⟩ : ∃ f, fuel = f + 2 := ⟨fuel - 2, by omega⟩
  have hg0 : graphOK decls graph
      (((s.push (.ptr (some ⟨D, []⟩))).clearVisited).push (.ptr (some ⟨S, []⟩))) = true :=
    graphOK_push decls graph _ _ (graphOK_congr decls graph _ _ (graphOK_push decls graph s _ hg) rfl)
  have hrd : (((s.push (.ptr (some ⟨D, []⟩))).clearVisited).push (.ptr (some ⟨S, []⟩))).read
      ⟨s.objs.length, []⟩ = some (.ptr (some ⟨D, []⟩)) := by
    apply read_root
    rw [push_objs_old _ _ _ (by simp)]
    exact push_objs_new s _
  have hrs : (((s.push (.ptr (some ⟨D, []⟩))).clearVisited).push (.ptr (some ⟨S, []⟩))).read
      ⟨s.objs.length + 1, []⟩ = some (.ptr (some ⟨S, []⟩)) := by
    have h := push_objs_new (s.push (.ptr (some ⟨D, []⟩))).clearVisited (.ptr (some ⟨S, []⟩))
    rw [clearVisited_objs, push_length] at h
    exact read_root _ _ _ h
  obtain ⟨hrun, hgs⟩ := deepMerge_walk decls graph m hmp hms hm hnd k f _ D S name ""
    (by omega) hg0 (by simp) hD hS (Nat.le_trans (List.countP_le_length _) hk)
  have hkeep : (graphWalk decls (k + 1) name D S
      (((s.push (.ptr (some ⟨D, []⟩))).clearVisited).push (.ptr (some ⟨S, []⟩)))).read
      ⟨s.objs.length, []⟩ = some (.ptr (some ⟨D, []⟩)) := by
    rw [read_root_eq, hgs.frame s.objs.length (by
      intro hmem
      have := graph_block_lt decls graph s hg _ hmem
      omega), ← read_root_eq]
    exact hrd
  refine ⟨?_, hgs⟩
  rw [Merge_first decls m hmp _ (f + 1), deepMerge_ref_var m hmp f name _ _ D S "" _ hrd hrs, hrun]
  simp [mergeLoop, readLoc_of_read hkeep]

/-- C10: cycle termination.  Take any graph of records in memory whose fields are exported
scalars or non-nil references to records of the graph, with cycles of any shape (a record
referring to itself, `A -> B -> A`, ...).  (1) `Merge` of references to two records of one
type with the default handlers terminates with success (`2 * (number of records) + 3` units
of fuel are enough), it returns the destination reference, and the memory it leaves is the
one of `graphWalk`, which applies the record merge once per source record: a source record
that is not empty enters the visited set the first time it is met, its scalars overlay
those of the destination record it is met with and its references are followed; met again,
it is left out.  (2) The bound on the depth of the walk is immaterial from the number of
records on.  (3) The records are still a graph and the visited set ends without
duplicates.  (4) The reason for termination: the engine skips a source record
already in the visited set with success and no mutation. -/
theorem cycle_termination (decls : Decls) (graph : List (Nat × String)) (s : St) (D S : Nat)
    (name : String) (fuel : Nat) (hnd : (graph.map Prod.fst).Nodup)
    (hg : graphOK decls graph s = true) (hD : (D, name) ∈ graph) (hS : (S, name) ∈ graph)
    (hfuel : 2 * graph.length + 3 ≤ fuel) :
    Merge decls (.ptr (.struct name)) fuel (.ptr (some ⟨D, []⟩)) (.ptr (some ⟨S, []⟩)) [] s =
        .ok (.ptr (some ⟨D, []⟩), none)
          (graphWalk decls (graph.length + 1) name D S
            (((s.push (.ptr (some ⟨D, []⟩))).clearVisited).push (.ptr (some ⟨S, []⟩)))) ∧
    (∀ k, graph.length ≤ k →
      graphWalk decls (k + 1) name D S
          (((s.push (.ptr (some ⟨D, []⟩))).clearVisited).push (.ptr (some ⟨S, []⟩))) =
        graphWalk decls (graph.length + 1) name D S
          (((s.push (.ptr (some ⟨D, []⟩))).clearVisited).push (.ptr (some ⟨S, []⟩)))) ∧
    (graphOK decls graph (graphWalk decls (graph.length + 1) name D S
        (((s.push (.ptr (some ⟨D, []⟩))).clearVisited).push (.ptr (some ⟨S, []⟩)))) = true ∧
      (graphWalk decls (graph.length + 1) name D S
        (((s.push (.ptr (some ⟨D, []⟩))).clearVisited).push (.ptr (some ⟨S, []⟩)))).visited.Nodup) ∧
    (∀ (f : Nat) (p : String) (s1 : St), graphOK decls graph s1 = true → (S, 0) ∈ s1.visited →
      (New decls []).deepMerge (f + 1) (.lval (.struct name) ⟨D, []⟩ false)
        (.lval (.struct name) ⟨S, []⟩ false) p s1 = .ok none s1) := by
  have h0 := Merge_walk decls graph (New decls []) rfl rfl rfl hnd s D S name fuel graph.length
    hg hD hS (Nat.le_refl _) hfuel
  refine ⟨h0.1, ?_, ⟨h0.2.ok, h0.2.nodup⟩, ?_⟩
  · intro k hk
    have h1 := (Merge_walk decls graph (New decls []) rfl rfl rfl hnd s D S name (2 * k + 3) k
      hg hD hS hk (Nat.le_refl _)).1
    have h2 := (Merge_walk decls graph (New decls []) rfl rfl rfl hnd s D S name (2 * k + 3)
      graph.length hg hD hS (Nat.le_refl _) (by omega)).1
    rw [h1] at h2
    injection h2
  · intro f p s1 hg1 hv
    obtain ⟨ss, hSo, _⟩ := graphOK_record decls graph s1 hg1 S name hS
    rw [deepMerge_record decls (New decls []) rfl f name D S ss p s1 hSo]
    simp [hv]

/-- Witness for C10: two cycles `A -> B -> A`.  The merge terminates and overlays each
record once: `A.V` keeps 1 (the source is empty), `B.W` becomes "y". -/
theorem cycle_termination_witness :
    (cycleGraph.map Prod.fst).Nodup ∧ graphOK cycleDecls cycleGraph cycleSt = true ∧
    (0, "A") ∈ cycleGraph ∧ (2, "A") ∈ cycleGraph ∧ 2 * cycleGraph.length + 3 ≤ 11 ∧
    Merge cycleDecls (.ptr (.struct "A")) 11 (.ptr (some ⟨0, []⟩)) (.ptr (some ⟨2, []⟩)) []
        cycleSt =
      .ok (.ptr (some ⟨0, []⟩), none)
        (graphWalk cycleDecls (cycleGraph.length + 1) "A" 0 2
          (((cycleSt.push (.ptr (some ⟨0, []⟩))).clearVisited).push (.ptr (some ⟨2, []⟩)))) ∧
    graphWalk cycleDecls (cycleGraph.length + 1) "A" 0 2
        (((cycleSt.push (.ptr (some ⟨0, []⟩))).clearVisited).push (.ptr (some ⟨2, []⟩))) =
      { objs :=
          [.struct [.int 1, .ptr (some ⟨1, []⟩)],
           .struct [.str "y", .ptr (some ⟨0, []⟩)],
           .struct [.int 0, .ptr (some ⟨3, []⟩)],
           .struct [.str "y", .ptr (some ⟨2, []⟩)],
           .ptr (some ⟨0, []⟩),
           .ptr (some ⟨2, []⟩)],
        maps := [],
        visited := [(3, 0), (2, 0)] } ∧
    observe 5 (Merge cycleDecls (.ptr (.struct "A")) 11 (.ptr (some ⟨0, []⟩)) (.ptr (some ⟨2, []⟩)) []
        cycleSt) =
      some (.ref (.record [.scalar (.int 1), .ref (.record [.scalar (.str "y"), .ref .cut])]), none) :=
  ⟨by decide, by decide, by decide, by decide, by decide,
    (cycle_termination cycleDecls cycleGraph cycleSt 0 2 "A" 11 (by decide) (by decide) (by decide)
      (by decide) (by decide)).1,
    by decide!, by decide!⟩

/-- C8, counterexample: the destination `Two{A: arr[0:1], B: arr[0:3]}` holds two views of one
backing array `arr = [1, 2, 3]`, the later operand is `Two{A: [0, 0, 9]}`.  Merge succeeds;
growing `A` in place fills `arr[1]` and `arr[2]` with zeros, so the element `B[1]`, which
was 2, is 0 afterwards. -/
theorem strictly_additive_counterexample :
    deepView twoViewsSt 3 (.struct [.slice (some ⟨0, 0, 1, 3⟩), .slice (some ⟨0, 0, 3, 3⟩)]) =
      .record [.seq [.scalar (.int 1)], .seq [.scalar (.int 1), .scalar (.int 2), .scalar (.int 3)]] ∧
    observe 3 (Merge twoViewsDecls (.struct "Two") 8
        (.struct [.slice (some ⟨0, 0, 1, 3⟩), .slice (some ⟨0, 0, 3, 3⟩)])
        (.struct [.slice (some ⟨1, 0, 3, 3⟩), .slice none]) [] twoViewsSt) =
      some (.record [.seq [.scalar (.int 1), .scalar (.int 0), .scalar (.int 9)],
        .seq [.scalar (.int 1), .scalar (.int 0), .scalar (.int 9)]], none) := by
  decide!

theorem mergeLoop_abort (m : merge) (T : Ty) (fuel : Nat) (d sv : Nat) (pre : List Val) :
    ∀ (s s1 s0 sk : St) (o : Val) (post : List Val) (e : MergeErr) (v : Val),
      foldsTo m T fuel d sv pre s s1 →
      s1.write ⟨sv, []⟩ o = some s0 →
      m.deepMerge fuel (refTo T d) (refTo T sv) "" s0 = .ok (some e) sk →
      sk.read ⟨d, []⟩ = some v →
      mergeLoop m T fuel d sv (pre ++ o :: post) s = .ok (v, some e) sk := by
  induction pre with
  | nil =>
    intro s s1 s0 sk o post e v hf hw hrun hv
    simp only [foldsTo] at hf
    subst hf
    simp only [refTo] at hrun
    simp [mergeLoop, writeLoc_of_write hw, hrun, readLoc_of_read hv]
  | cons x pre ih =>
    intro s s1 s0 sk o post e v hf hw hrun hv
    obtain ⟨t0, s2, h0, h1, h2⟩ := hf
    simp only [refTo] at h1
    simp only [List.cons_append, mergeLoop, M_bind_apply, writeLoc_of_write h0, h1]
    exact ih s2 s1 s0 sk o post e v h2 hw hrun hv

theorem forEach_abort {α : Type} (body : α → M (Option MergeErr)) (pre : List α) :
    ∀ (s s1 sk : St) (x : α) (post : List α) (e : MergeErr),
      forEach body pre s = .ok none s1 → body x s1 = .ok (some e) sk →
      forEach body (pre ++ x :: post) s = .ok (some e) sk := by
  induction pre with
  | nil =>
    intro s s1 sk x post e h1 h2
    simp only [forEach, M_pure_apply] at h1
    injection h1 with _ h1
    subst h1
    simp [forEach, h2]
  | cons y pre ih =>
    intro s s1 sk x post e h1 h2
    simp only [forEach, M_bind_apply] at h1
    cases hy : body y s with
    | timeout => simp [hy] at h1
    | panic msg => simp [hy] at h1
    | ok r t =>
      cases r with
      | some e2 => simp [hy] at h1
      | none =>
        simp only [hy] at h1
        simp only [List.cons_append, forEach, M_bind_apply, hy]
        exact ih t s1 sk x post e h1 h2

theorem range_split (n i : Nat) (h : i < n) :
    List.range n = List.range i ++ i :: List.range' (i + 1) (n - (i + 1)) := by
  rw [List.range_eq_range', List.range_eq_range']
  have h1 : n = (n - (i + 1) + 1) + i := by omega
  have h3 := List.range'_append_1 0 i (n - (i + 1) + 1)
  rw [← h1] at h3
  rw [← h3, List.range'_succ]
  simp

/-- C13: the first error aborts the fold.  For every handler table: when the operands before
`o` merge without an error and the merge of `o`, assigned to the loop variable, returns the
error `e`, `Merge` returns `e` together with the destination as it stands in the memory the
failing merge left, and this memory is the final one, whatever operands follow (nothing
runs for them).  Within the
default record handler: when the step of field `i` returns an error, the handler returns it
with the memory that step left, so no later field is touched. -/
theorem first_error_aborts :
    (∀ (decls : Decls) (m : merge) (T : Ty) (fuel : Nat) (x : Val) (pre : List Val) (o : Val)
        (post : List Val) (s s1 s0 sk : St) (e : MergeErr) (v : Val),
      foldsTo m T fuel s.objs.length (s.objs.length + 1) pre
        ((s.push x).clearVisited.push (zeroOf decls T)) s1 →
      s1.write ⟨s.objs.length + 1, []⟩ o = some s0 →
      m.deepMerge fuel (refTo T s.objs.length) (refTo T (s.objs.length + 1)) "" s0 =
        .ok (some e) sk →
      sk.read ⟨s.objs.length, []⟩ = some v →
      m.Merge decls T fuel (x :: (pre ++ o :: post)) s = .ok (v, some e) sk) ∧
    (∀ (decls : Decls) (rec : Engine) (dst src : RV) (name p : String) (i : Nat)
        (s s1 sk : St) (e : MergeErr),
      dst.Type s = .ok (.struct name) s → src.Type s = .ok (.struct name) s →
      i < (fieldsOf decls name).length →
      forEach (structFieldStep decls rec dst src (.struct name) p) (List.range i) s = .ok none s1 →
      structFieldStep decls rec dst src (.struct name) p i s1 = .ok (some e) sk →
      defaultStructFunc decls rec dst src p s = .ok (some e) sk) := by
  refine ⟨?_, ?_⟩
  · intro decls m T fuel x pre o post s s1 s0 sk e v hf hw hrun hv
    have hM : m.Merge decls T fuel (x :: (pre ++ o :: post)) s =
        mergeLoop m T fuel s.objs.length (s.objs.length + 1) (pre ++ o :: post)
          ((s.push x).clearVisited.push (zeroOf decls T)) := by
      cases pre with
      | nil => exact Merge_unfold decls m T fuel x o post s
      | cons y pre => exact Merge_unfold decls m T fuel x y (pre ++ o :: post) s
    rw [hM]
    exact mergeLoop_abort m T fuel s.objs.length (s.objs.length + 1) pre _ s1 s0 sk o post e v hf
      hw hrun hv
  · intro decls rec dst src name p i s s1 sk e hd hs hi h1 h2
    have hrun := forEach_abort (structFieldStep decls rec dst src (.struct name) p) (List.range i)
      s s1 sk i (List.range' (i + 1) ((fieldsOf decls name).length - (i + 1))) e h1 h2
    rw [← range_split _ i hi] at hrun
    cases dst with
    | invalid => simp [RV.Type, throwPanic] at hd
    | rval dty dv dro =>
      simp only [RV.Type, M_pure_apply, Res.ok.injEq, and_true] at hd
      subst hd
      cases src with
      | invalid => simp [RV.Type, throwPanic] at hs
      | rval sty sv sro =>
        simp only [RV.Type, M_pure_apply, Res.ok.injEq, and_true] at hs
        subst hs
        simpa [defaultStructFunc, RV.NumField, RV.Type] using hrun
      | lval sty sl sro =>
        simp only [RV.Type, M_pure_apply, Res.ok.injEq, and_true] at hs
        subst hs
        simpa [defaultStructFunc, RV.NumField, RV.Type] using hrun
    | lval dty dl dro =>
      simp only [RV.Type, M_pure_apply, Res.ok.injEq, and_true] at hd
      subst hd
      cases src with
      | invalid => simp [RV.Type, throwPanic] at hs
      | rval sty sv sro =>
        simp only [RV.Type, M_pure_apply, Res.ok.injEq, and_true] at hs
        subst hs
        simpa [defaultStructFunc, RV.NumField, RV.Type] using hrun
      | lval sty sl sro =>
        simp only [RV.Type, M_pure_apply, Res.ok.injEq, and_true] at hs
        subst hs
        simpa [defaultStructFunc, RV.NumField, RV.Type] using hrun

/-- Witness for C13: a scalar handler that refuses the source `3`.  `Merge(1, 2, 3, 4)`
returns the error with the destination `2`; in a record, the field after the refused one
keeps its value. -/
theorem first_error_aborts_witness :
    (New [] [WithDefaultFunc refuseThree]).Merge [] .int 2 (.int 1 :: ([.int 2] ++ .int 3 :: [.int 4]))
        ⟨[], [], []⟩ =
      .ok (.int 2, some (.numFields "" 0 0)) ⟨[.int 2, .int 3], [], []⟩ ∧
    defaultStructFunc flatDecls ((New flatDecls [WithDefaultFunc refuseThree]).deepMerge 1)
        (.lval (.struct "Conf") ⟨0, []⟩ false) (.lval (.struct "Conf") ⟨1, []⟩ false) "" confPairSt =
      .ok (some (.inField ".Port(1)" (.numFields ".Port(1)" 0 0)))
        { objs :=
            [.struct [.str "b", .int 0, .bool false, .nilIface],
             .struct [.str "b", .int 3, .bool true, .nilIface]],
          maps := [],
          visited := [] } :=
  ⟨first_error_aborts.1 [] (New [] [WithDefaultFunc refuseThree]) .int 2 (.int 1) [.int 2] (.int 3)
      [.int 4] ⟨[], [], []⟩ ⟨[.int 2, .int 2], [], []⟩ ⟨[.int 2, .int 3], [], []⟩
      ⟨[.int 2, .int 3], [], []⟩ (.numFields "" 0 0) (.int 2)
      ⟨⟨[.int 1, .int 2], [], []⟩, _, by decide, by decide!, rfl⟩ (by decide) (by decide!)
      (by decide),
    first_error_aborts.2 flatDecls ((New flatDecls [WithDefaultFunc refuseThree]).deepMerge 1)
      (.lval (.struct "Conf") ⟨0, []⟩ false) (.lval (.struct "Conf") ⟨1, []⟩ false) "Conf" "" 1
      confPairSt
      ⟨[.struct [.str "b", .int 0, .bool false, .nilIface],
        .struct [.str "b", .int 3, .bool true, .nilIface]], [], []⟩
      ⟨[.struct [.str "b", .int 0, .bool false, .nilIface],
        .struct [.str "b", .int 3, .bool true, .nilIface]], [], []⟩
      (.inField ".Port(1)" (.numFields ".Port(1)" 0 0)) rfl rfl (by decide) (by decide!)
      (by decide!)⟩

/-- C14: fewer than two operands.  For every handler table and every amount of fuel, `Merge`
of no operand returns the zero value of `T` and no error, `Merge` of one operand returns the
operand and no error; memory is unchanged in both cases, so no handler ran. -/
theorem fewer_than_two_operands :
    (∀ (decls : Decls) (m : merge) (T : Ty) (fuel : Nat) (s : St),
      m.Merge decls T fuel [] s = .ok (zeroOf decls T, none) s) ∧
    (∀ (decls : Decls) (m : merge) (T : Ty) (fuel : Nat) (x : Val) (s : St),
      m.Merge decls T fuel [x] s = .ok (x, none) s) :=
  ⟨fun _ _ _ _ _ => rfl, fun _ _ _ _ _ _ => rfl⟩


theorem slot_option (k k2 : Slot) (f : Handler) (m : merge) :
    (k.option f m).slot k2 = if k = k2 then f else m.slot k2 := by
  cases k <;> cases k2 <;> rfl

theorem foldl_options (os : List (Slot × Handler)) :
    ∀ (m : merge) (k : Slot),
      ((os.map (fun o => o.1.option o.2)).foldl (fun m opt => opt m) m).slot k =
        (lastFor k os).getD (m.slot k) := by
  induction os with
  | nil => intro m k; rfl
  | cons o os ih =>
    intro m k
    obtain ⟨k2, f⟩ := o
    simp only [List.map_cons, List.foldl_cons, ih, lastFor, slot_option]
    cases lastFor k os with
    | some g => rfl
    | none =>
      by_cases h : k2 = k
      · simp [h]
      · simp [h]

theorem New_slot (decls : Decls) (k : Slot) : (New decls []).slot k = Slot.builtin decls k := by
  cases k <;> rfl

theorem dispatch_eq (m : merge) (R : Engine) (d x : RV) (p : String) :
    (match d.Kind with
      | .Ptr => m.pointerMerge R d x p
      | .Struct => m.structMerge R d x p
      | .Slice => m.sliceMerge R d x p
      | .Array => m.arrayMerge R d x p
      | .Map => m.mapMerge R d x p
      | _ => m.defaultMerge R d x p) = m.slot (Slot.ofKind d.Kind) R d x p := by
  cases d.Kind <;> rfl

theorem deepMerge_enter (m : merge) (fuel : Nat) (dst src : RV) (p : String) :
    m.deepMerge (fuel + 1) dst src p =
      (do match (← enterNode dst src p) with
          | .inl r => pure r
          | .inr (d, x) => m.slot (Slot.ofKind d.Kind) (m.deepMerge fuel) d x p) := by
  funext s
  rw [merge.deepMerge]
  simp only [enterNode]
  cases hv : src.IsValid with
  | false => simp
  | true =>
    simp only [Bool.not_true, Bool.false_eq_true, if_false, M_bind_apply, M_pure_apply]
    cases hz : src.IsZero s with
    | timeout => rfl
    | panic msg => rfl
    | ok z s1 =>
      cases z with
      | true => simp
      | false =>
        simp only [Bool.false_eq_true, if_false, M_bind_apply, M_pure_apply]
        cases hr : reconcile dst src p s1 with
        | timeout => rfl
        | panic msg => rfl
        | ok r s2 =>
          cases r with
          | error e => simp
          | ok pr =>
            obtain ⟨d, x⟩ := pr
            simp only [M_bind_apply, M_pure_apply]
            cases he : (if x.Kind = Kind.Ptr then x.Elem else pure x) s2 with
            | timeout => rfl
            | panic msg => rfl
            | ok x1 s3 =>
              simp only []
              cases hs : (if (decide (x.Kind = Kind.Struct) && x1.CanAddr) = true then do
                    let addr ← x1.Pointer
                    let __do_lift ← isVisited addr
                    if __do_lift = true then pure true
                      else do
                        markVisited addr
                        pure false
                  else pure false : M Bool) s3 with
              | timeout => rfl
              | panic msg => rfl
              | ok seen s4 =>
                cases seen with
                | true => simp
                | false =>
                  simp only [Bool.false_eq_true, if_false]
                  exact congrFun (dispatch_eq m (m.deepMerge fuel) d x1 p) s4

theorem load_state (v : RV) (s s2 : St) (x : Val) (h : v.load s = .ok x s2) : s2 = s := by
  cases v with
  | invalid => simp [RV.load, throwPanic] at h
  | rval ty w ro =>
    simp only [RV.load, M_pure_apply, Res.ok.injEq] at h
    exact h.2.symm
  | lval ty l ro =>
    simp only [RV.load, readLoc] at h
    cases hr : s.read l with
    | none => simp [hr] at h
    | some w =>
      simp only [hr, Res.ok.injEq] at h
      exact h.2.symm

theorem Type_state (v : RV) (s s2 : St) (t : Ty) (h : v.Type s = .ok t s2) : s2 = s := by
  cases v with
  | invalid => simp [RV.Type, throwPanic] at h
  | rval ty w ro =>
    simp only [RV.Type, M_pure_apply, Res.ok.injEq] at h
    exact h.2.symm
  | lval ty l ro =>
    simp only [RV.Type, M_pure_apply, Res.ok.injEq] at h
    exact h.2.symm

theorem Elem_state (v : RV) (s s2 : St) (e : RV) (h : v.Elem s = .ok e s2) : s2 = s := by
  simp only [RV.Elem, M_bind_apply] at h
  cases hl : v.load s with
  | timeout => simp [hl] at h
  | panic msg => simp [hl] at h
  | ok x s1 =>
    have h1 := load_state v s s1 x hl
    subst h1
    simp only [hl] at h
    split at h <;> simp_all [throwPanic]

theorem refCheck_state (v : RV) (f : Ty → Bool) (s s2 : St) (a : Bool)
    (h : (if v.Kind = Kind.Ptr then do
            let e ← v.Elem
            let et ← e.Type
            pure (f et)
          else pure false : M Bool) s = .ok a s2) : s2 = s := by
  by_cases hk : v.Kind = Kind.Ptr
  · simp only [hk, if_true, M_bind_apply] at h
    cases he : v.Elem s with
    | timeout => simp [he] at h
    | panic msg => simp [he] at h
    | ok e s1 =>
      have e1 := Elem_state v s s1 e he
      subst e1
      simp only [he] at h
      cases ht : e.Type s1 with
      | timeout => simp [ht] at h
      | panic msg => simp [ht] at h
      | ok et s3 =>
        have e2 := Type_state e s1 s3 et ht
        subst e2
        simp only [ht, M_pure_apply, Res.ok.injEq] at h
        exact h.2.symm
  · simp only [hk, if_false, M_pure_apply, Res.ok.injEq] at h
    exact h.2.symm

/-- What the type reconciliation returns: memory is untouched, and either side of the pair is
the operand itself or its referent. -/
theorem reconcile_cases (dst src : RV) (p : String) (s s2 : St) (r : Except MergeErr (RV × RV))
    (h : reconcile dst src p s = .ok r s2) :
    s2 = s ∧
      ((∃ e, r = .error e) ∨
        ∃ d x, r = .ok (d, x) ∧ (d = dst ∨ dst.Elem s = .ok d s) ∧ (x = src ∨ src.Elem s = .ok x s)) := by
  simp only [reconcile, M_bind_apply] at h
  cases hdT : dst.Type s with
  | timeout => simp [hdT] at h
  | panic msg => simp [hdT] at h
  | ok dty s1 =>
    have e1 := Type_state dst s s1 dty hdT
    subst e1
    simp only [hdT] at h
    cases hsT : src.Type s1 with
    | timeout => simp [hsT] at h
    | panic msg => simp [hsT] at h
    | ok sty s3 =>
      have e2 := Type_state src s1 s3 sty hsT
      subst e2
      simp only [hsT] at h
      by_cases heq : dty = sty
      · simp only [heq, ne_eq, not_true_eq_false, if_false, M_pure_apply, Res.ok.injEq] at h
        obtain ⟨h1, h2⟩ := h
        subst h1 h2
        exact ⟨rfl, Or.inr ⟨dst, src, rfl, Or.inl rfl, Or.inl rfl⟩⟩
      · simp only [ne_eq, heq, not_false_eq_true, if_true, M_bind_apply] at h
        generalize hc1 : (ite (src.Kind = Kind.Ptr) _ _ : M Bool) s3 = c1 at h
        cases c1 with
        | timeout => simp at h
        | panic msg => simp at h
        | ok a s4 =>
          have e3 := refCheck_state src (fun et => decide (dty = et)) s3 s4 a hc1
          subst e3
          simp only [] at h
          cases a with
          | true =>
            simp only [if_true, M_bind_apply] at h
            cases he : src.Elem s4 with
            | timeout => simp [he] at h
            | panic msg => simp [he] at h
            | ok e s5 =>
              have e4 := Elem_state src s4 s5 e he
              subst e4
              simp only [he, M_pure_apply, Res.ok.injEq] at h
              obtain ⟨h1, h2⟩ := h
              subst h1 h2
              exact ⟨rfl, Or.inr ⟨dst, e, rfl, Or.inl rfl, Or.inr rfl⟩⟩
          | false =>
            simp only [Bool.false_eq_true, if_false, M_bind_apply] at h
            generalize hc2 : (ite (dst.Kind = Kind.Ptr) _ _ : M Bool) s4 = c2 at h
            cases c2 with
            | timeout => simp at h
            | panic msg => simp at h
            | ok b s5 =>
              have e5 := refCheck_state dst (fun et => decide (et = sty)) s4 s5 b hc2
              subst e5
              simp only [] at h
              cases b with
              | true =>
                simp only [if_true, M_bind_apply] at h
                cases he : dst.Elem s5 with
                | timeout => simp [he] at h
                | panic msg => simp [he] at h
                | ok e s6 =>
                  have e6 := Elem_state dst s5 s6 e he
                  subst e6
                  simp only [he, M_pure_apply, Res.ok.injEq] at h
                  obtain ⟨h1, h2⟩ := h
                  subst h1 h2
                  exact ⟨rfl, Or.inr ⟨e, src, rfl, Or.inr rfl, Or.inl rfl⟩⟩
              | false =>
                simp only [Bool.false_eq_true, if_false, M_pure_apply, Res.ok.injEq] at h
                obtain ⟨h1, h2⟩ := h
                subst h1 h2
                exact ⟨rfl, Or.inl ⟨_, rfl⟩⟩


theorem IsZero_state (v : RV) (s s2 : St) (z : Bool) (h : v.IsZero s = .ok z s2) : s2 = s := by
  simp only [RV.IsZero, M_bind_apply] at h
  cases hl : v.load s with
  | timeout => simp [hl] at h
  | panic msg => simp [hl] at h
  | ok x s1 =>
    have h1 := load_state v s s1 x hl
    subst h1
    simp only [hl, M_pure_apply, Res.ok.injEq] at h
    exact h.2.symm

/-- The pair a node is dispatched on holds the destination itself or its referent. -/
theorem enterNode_dst (dst src : RV) (p : String) (s s2 : St) (d x : RV)
    (h : enterNode dst src p s = .ok (.inr (d, x)) s2) :
    d = dst ∨ dst.Elem s = .ok d s := by
  simp only [enterNode] at h
  cases hv : src.IsValid with
  | false => simp [hv] at h
  | true =>
    simp only [hv, Bool.not_true, Bool.false_eq_true, if_false, M_bind_apply, M_pure_apply] at h
    cases hz : src.IsZero s with
    | timeout => simp [hz] at h
    | panic msg => simp [hz] at h
    | ok z s1 =>
      have e1 := IsZero_state src s s1 z hz
      subst e1
      cases z with
      | true => simp [hz] at h
      | false =>
        simp only [hz, Bool.false_eq_true, if_false, M_bind_apply, M_pure_apply] at h
        cases hr : reconcile dst src p s1 with
        | timeout => simp [hr] at h
        | panic msg => simp [hr] at h
        | ok r s3 =>
          obtain ⟨e2, hc⟩ := reconcile_cases dst src p s1 s3 r hr
          subst e2
          rcases hc with ⟨e, rfl⟩ | ⟨d2, x2, rfl, hd, _⟩
          · simp [hr] at h
          · simp only [hr, M_bind_apply, M_pure_apply] at h
            generalize (ite (x2.Kind = Kind.Ptr) _ _ : M RV) s3 = r1 at h
            cases r1 with
            | timeout => simp at h
            | panic msg => simp at h
            | ok x3 s4 =>
              simp only [] at h
              generalize (ite ((decide (x2.Kind = Kind.Struct) && x3.CanAddr) = true) _ _ : M Bool) s4 = r2 at h
              cases r2 with
              | timeout => simp at h
              | panic msg => simp at h
              | ok seen s5 =>
                cases seen with
                | true => simp at h
                | false =>
                  simp only [Bool.false_eq_true, if_false, M_pure_apply, Res.ok.injEq, Sum.inr.injEq,
                    Prod.mk.injEq] at h
                  simp only [M_bind_apply, M_pure_apply, Res.ok.injEq, Sum.inr.injEq,
                    Prod.mk.injEq] at h
                  obtain ⟨⟨h1, _⟩, _⟩ := h
                  subst h1
                  exact hd


/-- C15: option application.  Each slot of `New(opts)` holds the handler of the last option of
`opts` for this slot, or the built-in handler when there is none; an option sets its own slot
and leaves the others alone; `deepMerge` runs the part before the `switch` and then calls the
handler in the slot selected by the kind of the destination, which is the destination itself
or its referent. -/
theorem option_application (decls : Decls) :
    (∀ (os : List (Slot × Handler)) (k : Slot),
      (New decls (os.map (fun o => o.1.option o.2))).slot k =
        (lastFor k os).getD (Slot.builtin decls k)) ∧
    (∀ (k k2 : Slot) (f : Handler) (m : merge),
      (k.option f m).slot k = f ∧ (k ≠ k2 → (k.option f m).slot k2 = m.slot k2)) ∧
    (∀ (m : merge) (fuel : Nat) (dst src : RV) (p : String),
      m.deepMerge (fuel + 1) dst src p =
        (do match (← enterNode dst src p) with
            | .inl r => pure r
            | .inr (d, x) => m.slot (Slot.ofKind d.Kind) (m.deepMerge fuel) d x p)) ∧
    (∀ (dst src : RV) (p : String) (s s2 : St) (d x : RV),
      enterNode dst src p s = .ok (.inr (d, x)) s2 → d = dst ∨ dst.Elem s = .ok d s) := by
  refine ⟨?_, ?_, deepMerge_enter, enterNode_dst⟩
  · intro os k
    have h : New decls (os.map (fun o => o.1.option o.2)) =
        (os.map (fun o => o.1.option o.2)).foldl (fun m opt => opt m) (New decls []) := by
      simp [New, List.foldl_append]
    rw [h, foldl_options, New_slot]
  · intro k k2 f m
    refine ⟨by rw [slot_option, if_pos rfl], fun hne => by rw [slot_option, if_neg hne]⟩

/-- Witness for C15: of two options for the default slot the later one wins, the slice slot
takes its option, the map slot keeps the built-in handler; a scalar node goes to the
default slot. -/
theorem option_application_witness :
    (New [] ([(Slot.defaultMerge, refuseThree), (Slot.sliceMerge, nilHandler),
        (Slot.defaultMerge, nilHandler)].map (fun o => o.1.option o.2))).slot .defaultMerge =
      nilHandler ∧
    (New [] ([(Slot.defaultMerge, refuseThree), (Slot.sliceMerge, nilHandler),
        (Slot.defaultMerge, nilHandler)].map (fun o => o.1.option o.2))).slot .sliceMerge =
      nilHandler ∧
    (New [] ([(Slot.defaultMerge, refuseThree), (Slot.sliceMerge, nilHandler),
        (Slot.defaultMerge, nilHandler)].map (fun o => o.1.option o.2))).slot .mapMerge =
      defaultMapFunc [] ∧
    (New [] [WithDefaultFunc refuseThree]).deepMerge 1 (.lval .int ⟨0, []⟩ false)
        (.rval .int (.int 3) false) "f" ⟨[.int 1], [], []⟩ =
      .ok (some (.numFields "f" 0 0)) ⟨[.int 1], [], []⟩ :=
  ⟨(option_application []).1 _ .defaultMerge, (option_application []).1 _ .sliceMerge,
    (option_application []).1 _ .mapMerge,
    by rw [(option_application []).2.2.1]; decide!⟩

theorem Type_cases (v : RV) (s s2 : St) (t : Ty) (h : v.Type s = .ok t s2) :
    (∃ w ro, v = .rval t w ro) ∨ (∃ l ro, v = .lval t l ro) := by
  cases v with
  | invalid => simp [RV.Type, throwPanic] at h
  | rval ty w ro =>
    simp only [RV.Type, M_pure_apply, Res.ok.injEq] at h
    exact Or.inl ⟨w, ro, by rw [h.1]⟩
  | lval ty l ro =>
    simp only [RV.Type, M_pure_apply, Res.ok.injEq] at h
    exact Or.inr ⟨l, ro, by rw [h.1]⟩

theorem Kind_of_Type (v : RV) (s s2 : St) (t : Ty) (h : v.Type s = .ok t s2) : v.Kind = t.kind := by
  rcases Type_cases v s s2 t h with ⟨w, ro, rfl⟩ | ⟨l, ro, rfl⟩ <;> rfl

theorem kind_ptr_iff (t : Ty) : t.kind = Kind.Ptr ↔ ∃ e, t = .ptr e := by
  cases t <;> simp [Ty.kind]

/-- The referent of a non-nil pointer. -/
theorem Elem_ref (v : RV) (s : St) (e : Ty) (l : Loc) (ht : v.Type s = .ok (.ptr e) s)
    (hl : v.load s = .ok (.ptr (some l)) s) : v.Elem s = .ok (.lval e l v.isRO) s := by
  rcases Type_cases v s s _ ht with ⟨w, ro, rfl⟩ | ⟨l2, ro, rfl⟩
  · simp only [RV.load, M_pure_apply, Res.ok.injEq, and_true] at hl
    subst hl
    simp [RV.Elem, RV.load, RV.isRO]
  · simp only [RV.load] at hl
    simp [RV.Elem, RV.load, hl, RV.isRO]

/-- The referent of a nil pointer is the zero Value. -/
theorem Elem_nil (v : RV) (s : St) (e : Ty) (ht : v.Type s = .ok (.ptr e) s)
    (hl : v.load s = .ok (.ptr none) s) : v.Elem s = .ok .invalid s := by
  rcases Type_cases v s s _ ht with ⟨w, ro, rfl⟩ | ⟨l2, ro, rfl⟩
  · simp only [RV.load, M_pure_apply, Res.ok.injEq, and_true] at hl
    subst hl
    simp [RV.Elem, RV.load]
  · simp only [RV.load] at hl
    simp [RV.Elem, RV.load, hl]

/-- The two referent checks of the type reconciliation, on a pointer whose referent exists. -/
theorem refCheck_ref (v : RV) (f : Ty → Bool) (s : St) (e : Ty) (l : Loc)
    (ht : v.Type s = .ok (.ptr e) s) (hl : v.load s = .ok (.ptr (some l)) s) :
    (if v.Kind = Kind.Ptr then do
        let r ← v.Elem
        let et ← r.Type
        pure (f et)
      else pure false : M Bool) s = .ok (f e) s := by
  have hk := Kind_of_Type v s s _ ht
  simp [hk, Ty.kind, Elem_ref v s e l ht hl, RV.Type]

theorem refCheck_nil (v : RV) (f : Ty → Bool) (s : St) (e : Ty)
    (ht : v.Type s = .ok (.ptr e) s) (hl : v.load s = .ok (.ptr none) s) :
    (if v.Kind = Kind.Ptr then do
        let r ← v.Elem
        let et ← r.Type
        pure (f et)
      else pure false : M Bool) s = .panic "reflect: call of reflect.Value.Type on zero Value" := by
  have hk := Kind_of_Type v s s _ ht
  simp [hk, Ty.kind, Elem_nil v s e ht hl, RV.Type, throwPanic]

theorem refCheck_other (v : RV) (f : Ty → Bool) (s : St) (t : Ty)
    (ht : v.Type s = .ok t s) (hn : ∀ e, t ≠ .ptr e) :
    (if v.Kind = Kind.Ptr then do
        let r ← v.Elem
        let et ← r.Type
        pure (f et)
      else pure false : M Bool) s = .ok false s := by
  have hk := Kind_of_Type v s s _ ht
  have : ¬ t.kind = Kind.Ptr := by
    rw [kind_ptr_iff]
    rintro ⟨e, he⟩
    exact hn e he
  simp [hk, this]

/-- The referent check, whatever the type, on a value that is no nil pointer. -/
theorem refCheck_present (v : RV) (f : Ty → Bool) (s : St) (t : Ty)
    (ht : v.Type s = .ok t s)
    (hr : ∀ e, t = .ptr e → ∃ l, v.load s = .ok (.ptr (some l)) s) :
    ∃ b, (if v.Kind = Kind.Ptr then do
        let r ← v.Elem
        let et ← r.Type
        pure (f et)
      else pure false : M Bool) s = .ok b s ∧ (b = true ↔ ∃ e, t = .ptr e ∧ f e = true) := by
  by_cases hp : ∃ e, t = .ptr e
  · obtain ⟨e, rfl⟩ := hp
    obtain ⟨l, hl⟩ := hr e rfl
    refine ⟨f e, refCheck_ref v f s e l ht hl, ?_⟩
    constructor
    · intro h
      exact ⟨e, rfl, h⟩
    · rintro ⟨e2, h2, h3⟩
      cases h2
      exact h3
  · refine ⟨false, refCheck_other v f s t ht (fun e he => hp ⟨e, he⟩), ?_⟩
    constructor
    · intro h
      cases h
    · rintro ⟨e2, h2, _⟩
      exact absurd ⟨e2, h2⟩ hp

theorem reconcile_equal (dst src : RV) (p : String) (s : St) (t : Ty)
    (hd : dst.Type s = .ok t s) (hs : src.Type s = .ok t s) :
    reconcile dst src p s = .ok (.ok (dst, src)) s := by
  simp [reconcile, hd, hs]

theorem reconcile_mismatch (dst src : RV) (p : String) (s : St) (dty sty : Ty)
    (hd : dst.Type s = .ok dty s) (hs : src.Type s = .ok sty s)
    (hsr : ∀ e, sty = .ptr e → ∃ l, src.load s = .ok (.ptr (some l)) s)
    (hdr : ∀ e, dty = .ptr e → ∃ l, dst.load s = .ok (.ptr (some l)) s)
    (h1 : dty ≠ sty) (h2 : sty ≠ .ptr dty) (h3 : dty ≠ .ptr sty) :
    reconcile dst src p s = .ok (.error (.typesMismatch p dty sty src.Kind dst.Kind)) s := by
  obtain ⟨b1, hc1, hb1⟩ := refCheck_present src (fun et => decide (dty = et)) s sty hs hsr
  obtain ⟨b2, hc2, hb2⟩ := refCheck_present dst (fun et => decide (et = sty)) s dty hd hdr
  have v1 : b1 = false := by
    cases b1 with
    | false => rfl
    | true =>
      obtain ⟨e, he, hf⟩ := hb1.mp rfl
      exact absurd (by rw [he, of_decide_eq_true hf]) h2
  have v2 : b2 = false := by
    cases b2 with
    | false => rfl
    | true =>
      obtain ⟨e, he, hf⟩ := hb2.mp rfl
      exact absurd (by rw [he, of_decide_eq_true hf]) h3
  subst v1 v2
  simp only [reconcile, M_bind_apply, hd, hs, ne_eq, h1, not_false_eq_true, if_true, hc1,
    Bool.false_eq_true, if_false, hc2, M_pure_apply]

theorem reconcile_src_ref (dst src : RV) (p : String) (s : St) (dty : Ty) (l : Loc)
    (hd : dst.Type s = .ok dty s) (hs : src.Type s = .ok (.ptr dty) s)
    (hl : src.load s = .ok (.ptr (some l)) s) :
    src.Elem s = .ok (.lval dty l src.isRO) s ∧
      reconcile dst src p s = .ok (.ok (dst, .lval dty l src.isRO)) s := by
  have he := Elem_ref src s dty l hs hl
  have hc1 := refCheck_ref src (fun et => decide (dty = et)) s dty l hs hl
  have hne : dty ≠ .ptr dty := by
    intro h
    have := congrArg sizeOf h
    simp at this
  simp only [decide_True] at hc1
  refine ⟨he, ?_⟩
  simp only [reconcile, M_bind_apply, hd, hs, ne_eq, hne, not_false_eq_true, if_true, hc1, he,
    M_pure_apply]

theorem reconcile_dst_ref (dst src : RV) (p : String) (s : St) (sty : Ty) (l : Loc)
    (hd : dst.Type s = .ok (.ptr sty) s) (hs : src.Type s = .ok sty s)
    (hsr : ∀ e, sty = .ptr e → ∃ l, src.load s = .ok (.ptr (some l)) s)
    (hl : dst.load s = .ok (.ptr (some l)) s) :
    dst.Elem s = .ok (.lval sty l dst.isRO) s ∧
      reconcile dst src p s = .ok (.ok (.lval sty l dst.isRO, src)) s := by
  have he := Elem_ref dst s sty l hd hl
  obtain ⟨b1, hc1, hb1⟩ := refCheck_present src (fun et => decide (Ty.ptr sty = et)) s sty hs hsr
  have hc2 := refCheck_ref dst (fun et => decide (et = sty)) s sty l hd hl
  have hne : Ty.ptr sty ≠ sty := by
    intro h
    have := congrArg sizeOf h
    simp at this
  have v1 : b1 = false := by
    cases b1 with
    | false => rfl
    | true =>
      obtain ⟨e, he, hf⟩ := hb1.mp rfl
      have h := of_decide_eq_true hf
      rw [he] at h
      have := congrArg sizeOf h
      simp at this
      omega
  subst v1
  simp only [decide_True] at hc2
  refine ⟨he, ?_⟩
  simp only [reconcile, M_bind_apply, hd, hs, ne_eq, hne, not_false_eq_true, if_true, hc1,
    Bool.false_eq_true, if_false, hc2, he, M_pure_apply]

/-- A type-mismatch error ends `deepMerge` before the cycle guard and the dispatch. -/
theorem deepMerge_mismatch (m : merge) (fuel : Nat) (dst src : RV) (p : String) (s : St)
    (e : MergeErr) (hz : src.IsZero s = .ok false s)
    (hr : reconcile dst src p s = .ok (.error e) s) :
    m.deepMerge (fuel + 1) dst src p s = .ok (some e) s := by
  rw [merge.deepMerge]
  cases src with
  | invalid => simp [RV.IsZero, RV.load, throwPanic] at hz
  | rval ty v ro => simp [RV.IsValid, hz, hr]
  | lval ty l ro => simp [RV.IsValid, hz, hr]

/-- An absent destination: `dst.Type()` on the zero Value panics. -/
theorem deepMerge_absent (m : merge) (fuel : Nat) (src : RV) (p : String) (s : St)
    (hz : src.IsZero s = .ok false s) :
    m.deepMerge (fuel + 1) .invalid src p s =
      .panic "reflect: call of reflect.Value.Type on zero Value" := by
  rw [merge.deepMerge]
  cases src with
  | invalid => simp [RV.IsZero, RV.load, throwPanic] at hz
  | rval ty v ro => simp [RV.IsValid, hz, reconcile, RV.Type, throwPanic]
  | lval ty l ro => simp [RV.IsValid, hz, reconcile, RV.Type, throwPanic]

/-- A nil destination pointer whose type differs from the type of the source: the check
`dst.Elem().Type() == sType` panics. -/
theorem deepMerge_nil_mismatch (m : merge) (fuel : Nat) (dst src : RV) (p : String) (s : St)
    (e sty : Ty) (hd : dst.Type s = .ok (.ptr e) s) (hs : src.Type s = .ok sty s)
    (hz : src.IsZero s = .ok false s)
    (hsr : ∀ e2, sty = .ptr e2 → ∃ l, src.load s = .ok (.ptr (some l)) s)
    (hl : dst.load s = .ok (.ptr none) s)
    (h1 : Ty.ptr e ≠ sty) (h2 : sty ≠ .ptr (.ptr e)) :
    m.deepMerge (fuel + 1) dst src p s =
      .panic "reflect: call of reflect.Value.Type on zero Value" := by
  obtain ⟨b1, hc1, hb1⟩ := refCheck_present src (fun et => decide (Ty.ptr e = et)) s sty hs hsr
  have hc2 := refCheck_nil dst (fun et => decide (et = sty)) s e hd hl
  have v1 : b1 = false := by
    cases b1 with
    | false => rfl
    | true =>
      obtain ⟨e2, he, hf⟩ := hb1.mp rfl
      exact absurd (by rw [he, of_decide_eq_true hf]) h2
  subst v1
  have hrec : reconcile dst src p s = .panic "reflect: call of reflect.Value.Type on zero Value" := by
    simp only [reconcile, M_bind_apply, hd, hs, ne_eq, h1, not_false_eq_true, if_true, hc1,
      Bool.false_eq_true, if_false, hc2]
  rw [merge.deepMerge]
  cases src with
  | invalid => simp [RV.IsZero, RV.load, throwPanic] at hz
  | rval ty v ro => simp [RV.IsValid, hz, hrec]
  | lval ty l ro => simp [RV.IsValid, hz, hrec]

/-- The default array handler called on arrays of different declared lengths. -/
theorem defaultArrayFunc_lengths (rec : Engine) (dst src : RV) (p : String) (s : St)
    (n k : Nat) (e e2 : Ty) (hd : dst.Type s = .ok (.array n e) s)
    (hs : src.Type s = .ok (.array k e2) s) (hne : n ≠ k) :
    defaultArrayFunc rec dst src p s = .ok (some (.arrayLengths p n k)) s := by
  have hne2 : ¬ k = n := fun h => hne h.symm
  simp [defaultArrayFunc, RV.Len, hd, hs, hne2]

/-- C12, counterexample: arrays `[2]int` and `[3]int`.  Merging `[1, 2, 3]` into `[0, 0]`
through `deepMerge` fails with the type-mismatch error, not with the array-length error
(the declared length is part of the type, and the type check comes first); merging the
empty `[0, 0, 0]` returns no error at all. -/
theorem fixed_length_mismatch_counterexample :
    (New [] []).deepMerge 3 (.lval (.array 2 .int) ⟨0, []⟩ false)
        (.lval (.array 3 .int) ⟨1, []⟩ false) "" arraysSt =
      .ok (some (.typesMismatch "" (.array 2 .int) (.array 3 .int) .Array .Array)) arraysSt ∧
    (New [] []).deepMerge 3 (.lval (.array 2 .int) ⟨0, []⟩ false)
        (.lval (.array 3 .int) ⟨2, []⟩ false) "" arraysSt = .ok none arraysSt := by
  decide!

/-- C12, amended: for arrays whose declared lengths differ and every handler table,
`deepMerge` on a non-empty source returns the type-mismatch error that names the path and
both array types, with memory unchanged (no handler ran, the destination is as it was); an
empty source is skipped without an error; the array-length error that names the path, the
length of the destination and the length of the source is what the default array handler
returns when it is called itself on such arrays. -/
theorem fixed_length_mismatch :
    (∀ (m : merge) (fuel : Nat) (dst src : RV) (p : String) (s : St) (n k : Nat) (e e2 : Ty),
      n ≠ k → dst.Type s = .ok (.array n e) s → src.Type s = .ok (.array k e2) s →
      src.IsZero s = .ok false s →
      m.deepMerge (fuel + 1) dst src p s =
        .ok (some (.typesMismatch p (.array n e) (.array k e2) .Array .Array)) s) ∧
    (∀ (m : merge) (fuel : Nat) (dst src : RV) (p : String) (s : St),
      src.IsZero s = .ok true s → m.deepMerge (fuel + 1) dst src p s = .ok none s) ∧
    (∀ (rec : Engine) (dst src : RV) (p : String) (s : St) (n k : Nat) (e e2 : Ty),
      n ≠ k → dst.Type s = .ok (.array n e) s → src.Type s = .ok (.array k e2) s →
      defaultArrayFunc rec dst src p s = .ok (some (.arrayLengths p n k)) s) := by
  refine ⟨?_, ?_, ?_⟩
  · intro m fuel dst src p s n k e e2 hne hd hs hz
    have hk1 := Kind_of_Type dst s s _ hd
    have hk2 := Kind_of_Type src s s _ hs
    have hr := reconcile_mismatch dst src p s _ _ hd hs (by intro e3 h; cases h)
      (by intro e3 h; cases h) (by intro h; injection h with h1 _; exact hne h1)
      (by intro h; cases h) (by intro h; cases h)
    rw [hk1, hk2] at hr
    exact deepMerge_mismatch m fuel dst src p s _ hz hr
  · intro m fuel dst src p s hz
    exact deepMerge_inert m fuel dst src p s (Or.inr hz)
  · intro rec dst src p s n k e e2 hne hd hs
    exact defaultArrayFunc_lengths rec dst src p s n k e e2 hd hs hne

/-- Witness for C12 (amended) on the arrays of `arraysSt`. -/
theorem fixed_length_mismatch_witness :
    (New [] []).deepMerge 1 (.lval (.array 2 .int) ⟨0, []⟩ false)
        (.lval (.array 3 .int) ⟨1, []⟩ false) "a" arraysSt =
      .ok (some (.typesMismatch "a" (.array 2 .int) (.array 3 .int) .Array .Array)) arraysSt ∧
    newMerge.deepMerge 1 (.lval (.array 2 .int) ⟨0, []⟩ false)
        (.lval (.array 3 .int) ⟨2, []⟩ false) "a" arraysSt = .ok none arraysSt ∧
    defaultArrayFunc (newMerge.deepMerge 0) (.lval (.array 2 .int) ⟨0, []⟩ false)
        (.lval (.array 3 .int) ⟨1, []⟩ false) "a" arraysSt =
      .ok (some (.arrayLengths "a" 2 3)) arraysSt :=
  ⟨fixed_length_mismatch.1 (New [] []) 0 _ _ "a" arraysSt 2 3 .int .int (by decide) rfl rfl
      (by decide),
    fixed_length_mismatch.2.1 newMerge 0 _ _ "a" arraysSt (by decide),
    fixed_length_mismatch.2.2 (newMerge.deepMerge 0) _ _ "a" arraysSt 2 3 .int .int (by decide)
      rfl rfl⟩

/-- C16: a record held by value as the first field of its parent is not merged.
`Merge(Outer{In: {A: 1, B: 0}, C: 0}, Outer{In: {A: 0, B: 2}, C: 3})` returns
`Outer{In: {A: 1, B: 0}, C: 3}`: the source `In` has the address of the source `Outer`,
which the cycle guard has just marked, so `In.B` keeps 0 instead of taking 2.  With the
same record as the last field (`Outer2`) the nested record is merged: `In.B` becomes 2. -/
theorem nested_first_field_skipped :
    observe 3 (Merge nestedDecls (.struct "Outer") 6
        (.struct [.struct [.int 1, .int 0], .int 0])
        (.struct [.struct [.int 0, .int 2], .int 3]) [] ⟨[], [], []⟩) =
      some (.record [.record [.scalar (.int 1), .scalar (.int 0)], .scalar (.int 3)], none) ∧
    observe 3 (Merge nestedDecls (.struct "Outer2") 6
        (.struct [.int 0, .struct [.int 1, .int 0]])
        (.struct [.int 3, .struct [.int 0, .int 2]]) [] ⟨[], [], []⟩) =
      some (.record [.scalar (.int 3), .record [.scalar (.int 1), .scalar (.int 2)]], none) := by
  decide!

/-- C17: a nil destination reference panics.  With a nil reference field
(`Merge(&A{P: nil}, &A{P: &B{V: 1}})`), a nil reference operand (`Merge((*B)(nil), &B{V: 1})`)
and a reference-valued entry absent from the destination map
(`Merge(map[string]*B{}, map[string]*B{"k": &B{V: 1}})`) the default pointer handler passes
the zero Value `dst.Elem()` on, and `dst.Type()` panics.  A nil destination map, in
contrast, is allocated by its handler. -/
theorem absent_destination_panics :
    Merge ptrDecls (.ptr (.struct "A")) 8 (.ptr (some ⟨0, []⟩)) (.ptr (some ⟨1, []⟩)) [] ptrSt =
      .panic "reflect: call of reflect.Value.Type on zero Value" ∧
    Merge ptrDecls (.ptr (.struct "B")) 8 (.ptr none) (.ptr (some ⟨2, []⟩)) [] ptrSt =
      .panic "reflect: call of reflect.Value.Type on zero Value" ∧
    Merge ptrDecls (.map .string (.ptr (.struct "B"))) 8 (.map (some 0)) (.map (some 1)) [] ptrSt =
      .panic "reflect: call of reflect.Value.Type on zero Value" ∧
    observe 3 (Merge ptrDecls (.map .string (.ptr (.struct "B"))) 8 (.map none) (.map (some 0)) []
        ptrSt) = some (.dict [] [], none) := by
  decide!


/-- C11: the type-compatibility rule.  On a destination that is present and no nil pointer,
and a non-empty source, for every handler table: when the types differ and neither side is
a pointer to the type of the other, `deepMerge` returns the type-mismatch error with memory
unchanged (no handler ran); when the types are equal the pair is kept; when the source is
a pointer to the type of the destination the source is replaced by its referent, and when
the destination is a pointer to the type of the source the destination is.  On an absent
destination, and on a nil destination pointer whose type differs from the type of the
source, the code panics instead: it takes the type of the zero Value. -/
theorem type_compatibility :
    (∀ (m : merge) (fuel : Nat) (dst src : RV) (p : String) (s : St) (dty sty : Ty),
      dst.Type s = .ok dty s → src.Type s = .ok sty s → src.IsZero s = .ok false s →
      (∀ e, sty = .ptr e → ∃ l, src.load s = .ok (.ptr (some l)) s) →
      (∀ e, dty = .ptr e → ∃ l, dst.load s = .ok (.ptr (some l)) s) →
      dty ≠ sty → sty ≠ .ptr dty → dty ≠ .ptr sty →
      m.deepMerge (fuel + 1) dst src p s =
        .ok (some (.typesMismatch p dty sty src.Kind dst.Kind)) s) ∧
    (∀ (dst src : RV) (p : String) (s : St) (t : Ty),
      dst.Type s = .ok t s → src.Type s = .ok t s →
      reconcile dst src p s = .ok (.ok (dst, src)) s) ∧
    (∀ (dst src : RV) (p : String) (s : St) (dty : Ty) (l : Loc),
      dst.Type s = .ok dty s → src.Type s = .ok (.ptr dty) s →
      src.load s = .ok (.ptr (some l)) s →
      src.Elem s = .ok (.lval dty l src.isRO) s ∧
        reconcile dst src p s = .ok (.ok (dst, .lval dty l src.isRO)) s) ∧
    (∀ (dst src : RV) (p : String) (s : St) (sty : Ty) (l : Loc),
      dst.Type s = .ok (.ptr sty) s → src.Type s = .ok sty s →
      (∀ e, sty = .ptr e → ∃ l2, src.load s = .ok (.ptr (some l2)) s) →
      dst.load s = .ok (.ptr (some l)) s →
      dst.Elem s = .ok (.lval sty l dst.isRO) s ∧
        reconcile dst src p s = .ok (.ok (.lval sty l dst.isRO, src)) s) ∧
    (∀ (m : merge) (fuel : Nat) (src : RV) (p : String) (s : St),
      src.IsZero s = .ok false s →
      m.deepMerge (fuel + 1) .invalid src p s =
        .panic "reflect: call of reflect.Value.Type on zero Value") ∧
    (∀ (m : merge) (fuel : Nat) (dst src : RV) (p : String) (s : St) (e sty : Ty),
      dst.Type s = .ok (.ptr e) s → src.Type s = .ok sty s → src.IsZero s = .ok false s →
      (∀ e2, sty = .ptr e2 → ∃ l, src.load s = .ok (.ptr (some l)) s) →
      dst.load s = .ok (.ptr none) s → Ty.ptr e ≠ sty → sty ≠ .ptr (.ptr e) →
      m.deepMerge (fuel + 1) dst src p s =
        .panic "reflect: call of reflect.Value.Type on zero Value") := by
  refine ⟨?_, reconcile_equal, ?_, ?_, deepMerge_absent, ?_⟩
  · intro m fuel dst src p s dty sty hd hs hz hsr hdr h1 h2 h3
    exact deepMerge_mismatch m fuel dst src p s _ hz
      (reconcile_mismatch dst src p s dty sty hd hs hsr hdr h1 h2 h3)
  · intro dst src p s dty l hd hs hl
    exact reconcile_src_ref dst src p s dty l hd hs hl
  · intro dst src p s sty l hd hs hsr hl
    exact reconcile_dst_ref dst src p s sty l hd hs hsr hl
  · intro m fuel dst src p s e sty hd hs hz hsr hl h1 h2
    exact deepMerge_nil_mismatch m fuel dst src p s e sty hd hs hz hsr hl h1 h2

/-- Witness for C11 on `arraysSt` and `ptrSt`: an array against a string is a type mismatch;
a pointer to `B` against `B` is unwrapped on either side; an absent destination and a nil
`*int` against a string panic. -/
theorem type_compatibility_witness :
    newMerge.deepMerge 1 (.lval (.array 2 .int) ⟨0, []⟩ false) (.lval .string ⟨4, []⟩ false) "f"
        arraysSt =
      .ok (some (.typesMismatch "f" (.array 2 .int) .string .String .Array)) arraysSt ∧
    reconcile (.lval (.ptr .int) ⟨3, []⟩ false) (.lval (.ptr .int) ⟨3, []⟩ false) "f" arraysSt =
      .ok (.ok (.lval (.ptr .int) ⟨3, []⟩ false, .lval (.ptr .int) ⟨3, []⟩ false)) arraysSt ∧
    reconcile (.lval (.struct "B") ⟨2, []⟩ false) (.lval (.ptr (.struct "B")) ⟨1, [0]⟩ false) "f"
        ptrSt =
      .ok (.ok (.lval (.struct "B") ⟨2, []⟩ false, .lval (.struct "B") ⟨2, []⟩ false)) ptrSt ∧
    reconcile (.lval (.ptr (.struct "B")) ⟨1, [0]⟩ false) (.lval (.struct "B") ⟨2, []⟩ false) "f"
        ptrSt =
      .ok (.ok (.lval (.struct "B") ⟨2, []⟩ false, .lval (.struct "B") ⟨2, []⟩ false)) ptrSt ∧
    (New [] []).deepMerge 1 .invalid (.lval .string ⟨4, []⟩ false) "f" arraysSt =
      .panic "reflect: call of reflect.Value.Type on zero Value" ∧
    (New [] []).deepMerge 1 (.lval (.ptr .int) ⟨3, []⟩ false) (.lval .string ⟨4, []⟩ false) "f"
        arraysSt =
      .panic "reflect: call of reflect.Value.Type on zero Value" :=
  ⟨type_compatibility.1 newMerge 0 _ _ "f" arraysSt _ _ rfl rfl (by decide)
      (by intro e h; cases h) (by intro e h; cases h) (by decide) (by decide) (by decide),
    type_compatibility.2.1 _ _ "f" arraysSt _ rfl rfl,
    (type_compatibility.2.2.1 (.lval (.struct "B") ⟨2, []⟩ false)
      (.lval (.ptr (.struct "B")) ⟨1, [0]⟩ false) "f" ptrSt (.struct "B") ⟨2, []⟩ rfl rfl
      (by decide)).2,
    (type_compatibility.2.2.2.1 (.lval (.ptr (.struct "B")) ⟨1, [0]⟩ false)
      (.lval (.struct "B") ⟨2, []⟩ false) "f" ptrSt (.struct "B") ⟨2, []⟩ rfl rfl
      (by intro e h; cases h) (by decide)).2,
    type_compatibility.2.2.2.2.1 (New [] []) 0 _ "f" arraysSt (by decide),
    type_compatibility.2.2.2.2.2 (New [] []) 0 _ _ "f" arraysSt .int .string rfl rfl (by decide)
      (by intro e h; cases h) (by decide) (by decide) (by decide)⟩

theorem NoErr_pure_none : NoErr (pure none) := by
  intro s e s2 h
  simp at h

theorem NoErr_bind {α : Type} (x : M α) (f : α → M (Option MergeErr)) (P : α → Prop)
    (hx : ∀ s a s2, x s = .ok a s2 → P a) (hf : ∀ a, P a → NoErr (f a)) : NoErr (x >>= f) := by
  intro s e s2 h
  simp only [M_bind_apply] at h
  cases hr : x s with
  | timeout => simp [hr] at h
  | panic msg => simp [hr] at h
  | ok a s1 =>
    simp only [hr] at h
    exact hf a (hx s a s1 hr) s1 e s2 h

theorem NoErr_bind_any {α : Type} (x : M α) (f : α → M (Option MergeErr))
    (hf : ∀ a, NoErr (f a)) : NoErr (x >>= f) :=
  NoErr_bind x f (fun _ => True) (fun _ _ _ _ => trivial) (fun a _ => hf a)

theorem NoErr_throw (msg : String) : NoErr (throwPanic msg) := by
  intro s e s2 h
  simp [throwPanic] at h

theorem NoErr_forEach {α : Type} (body : α → M (Option MergeErr)) (h : ∀ a, NoErr (body a)) :
    ∀ xs : List α, NoErr (forEach body xs) := by
  intro xs
  induction xs with
  | nil => exact NoErr_pure_none
  | cons x xs ih =>
    intro s e s2 hrun
    simp only [forEach, M_bind_apply] at hrun
    cases hb : body x s with
    | timeout => simp [hb] at hrun
    | panic msg => simp [hb] at hrun
    | ok r s1 =>
      cases r with
      | some e2 => exact h x s e2 s1 hb
      | none =>
        simp only [hb] at hrun
        exact ih s1 e s2 hrun

/-- A callback result wrapped by a loop body: an error only comes from the callback. -/
theorem NoErr_wrap (x : M (Option MergeErr)) (w : MergeErr → MergeErr) (h : NoErr x) :
    NoErr (do match (← x) with
              | some err => pure (some (w err))
              | none => pure none) := by
  intro s e s2 hrun
  simp only [M_bind_apply] at hrun
  cases hb : x s with
  | timeout => simp [hb] at hrun
  | panic msg => simp [hb] at hrun
  | ok r s1 =>
    cases r with
    | some e2 => exact h s e2 s1 hb
    | none => simp [hb] at hrun

theorem typ_of_Type (v : RV) (s s2 : St) (t : Ty) (h : v.Type s = .ok t s2) : v.typ = some t := by
  rcases Type_cases v s s2 t h with ⟨w, ro, rfl⟩ | ⟨l, ro, rfl⟩ <;> rfl

theorem Type_of_typ (v : RV) (s : St) (t : Ty) (h : v.typ = some t) : v.Type s = .ok t s := by
  cases v with
  | invalid => cases h
  | rval ty w ro => cases h; rfl
  | lval ty l ro => cases h; rfl

theorem Elem_typ (v : RV) (e : Ty) (s s2 : St) (a : RV) (ht : v.typ = some (.ptr e))
    (h : v.Elem s = .ok a s2) : a.typ = none ∨ a.typ = some e := by
  simp only [RV.Elem, M_bind_apply] at h
  cases hl : v.load s with
  | timeout => simp [hl] at h
  | panic msg => simp [hl] at h
  | ok x s1 =>
    simp only [hl] at h
    split at h <;> simp_all [throwPanic, RV.typ]
    all_goals
      obtain ⟨h1, _⟩ := h
      subst h1
      simp [RV.typ]

theorem Field_typ (decls : Decls) (v : RV) (name : String) (i : Nat) (s s2 : St) (a : RV)
    (ht : v.typ = some (.struct name)) (h : v.Field decls i s = .ok a s2) :
    ∃ fd, (fieldsOf decls name)[i]? = some fd ∧ a.typ = some fd.ty := by
  cases v with
  | invalid => cases ht
  | rval ty w ro =>
    cases ht
    simp only [RV.Field] at h
    cases hf : (fieldsOf decls name)[i]? with
    | none => simp [hf, throwPanic] at h
    | some fd =>
      cases hc : w.children[i]? with
      | none => simp [hf, hc, throwPanic] at h
      | some c =>
        simp only [hf, hc, M_pure_apply, Res.ok.injEq] at h
        obtain ⟨h1, _⟩ := h
        subst h1
        exact ⟨fd, rfl, rfl⟩
  | lval ty l ro =>
    cases ht
    simp only [RV.Field] at h
    cases hf : (fieldsOf decls name)[i]? with
    | none => simp [hf, throwPanic] at h
    | some fd =>
      simp only [hf, M_pure_apply, Res.ok.injEq] at h
      obtain ⟨h1, _⟩ := h
      subst h1
      exact ⟨fd, rfl, rfl⟩

theorem Index_slice_typ (v : RV) (e : Ty) (i : Nat) (s s2 : St) (a : RV)
    (ht : v.typ = some (.slice e)) (h : v.Index i s = .ok a s2) : a.typ = some e := by
  simp only [RV.Index, M_bind_apply] at h
  cases hl : v.load s with
  | timeout => simp [hl] at h
  | panic msg => simp [hl] at h
  | ok x s1 =>
    simp only [hl] at h
    cases v with
    | invalid => cases ht
    | rval ty w ro =>
      cases ht
      cases x with
      | slice hh =>
        cases hh with
        | none => simp [throwPanic] at h
        | some hdr =>
          by_cases hi : i < hdr.len
          · simp only [hi, if_true, M_pure_apply, Res.ok.injEq] at h
            obtain ⟨h1, _⟩ := h
            subst h1
            rfl
          · simp [hi, throwPanic] at h
      | _ => simp [throwPanic] at h
    | lval ty l ro =>
      cases ht
      cases x with
      | slice hh =>
        cases hh with
        | none => simp [throwPanic] at h
        | some hdr =>
          by_cases hi : i < hdr.len
          · simp only [hi, if_true, M_pure_apply, Res.ok.injEq] at h
            obtain ⟨h1, _⟩ := h
            subst h1
            rfl
          · simp [hi, throwPanic] at h
      | _ => simp [throwPanic] at h

theorem Index_array_typ (v : RV) (n : Nat) (e : Ty) (i : Nat) (s s2 : St) (a : RV)
    (ht : v.typ = some (.array n e)) (h : v.Index i s = .ok a s2) : a.typ = some e := by
  simp only [RV.Index, M_bind_apply] at h
  cases hl : v.load s with
  | timeout => simp [hl] at h
  | panic msg => simp [hl] at h
  | ok x s1 =>
    simp only [hl] at h
    cases v with
    | invalid => cases ht
    | rval ty w ro =>
      cases ht
      cases x with
      | array es =>
        simp only at h
        cases hc : es[i]? with
        | none => simp [hc, throwPanic] at h
        | some c =>
          simp only [hc, M_pure_apply, Res.ok.injEq] at h
          obtain ⟨h1, _⟩ := h
          subst h1
          rfl
      | _ => simp [throwPanic] at h
    | lval ty l ro =>
      cases ht
      simp only at h
      by_cases hi : i < n
      · simp only [hi, if_true, M_pure_apply, Res.ok.injEq] at h
        obtain ⟨h1, _⟩ := h
        subst h1
        rfl
      · simp [hi, throwPanic] at h

theorem MapIndex_typ (v : RV) (k e : Ty) (key : Key) (s s2 : St) (a : RV)
    (ht : v.typ = some (.map k e)) (h : v.MapIndex key s = .ok a s2) :
    a.typ = none ∨ a.typ = some e := by
  have hk : v.Kind = Kind.Map := by
    cases v with
    | invalid => cases ht
    | rval ty w ro => cases ht; rfl
    | lval ty l ro => cases ht; rfl
  have hT : ∀ t : St, v.Type t = .ok (.map k e) t := fun t => Type_of_typ v t _ ht
  simp only [RV.MapIndex, M_bind_apply, hk] at h
  cases hl : v.load s with
  | timeout => simp [hl] at h
  | panic msg => simp [hl] at h
  | ok x s1 =>
    simp only [hl] at h
    cases x with
    | map mid =>
      cases mid with
      | none =>
        simp only [M_pure_apply, Res.ok.injEq] at h
        obtain ⟨h1, _⟩ := h
        subst h1
        exact Or.inl rfl
      | some id =>
        simp only [M_bind_apply, readMap] at h
        cases hm : s1.maps[id]? with
        | none => simp [hm] at h
        | some es =>
          simp only [hm, hT, Ty.Elem, M_pure_apply] at h
          cases hc : lookupKey key es with
          | none =>
            simp only [hc] at h
            injection h with h1 _
            subst h1
            exact Or.inl rfl
          | some c =>
            simp only [hc] at h
            injection h with h1 _
            subst h1
            exact Or.inr rfl
    | _ => simp [throwPanic] at h

theorem NewElem_typ (decls : Decls) (t : Ty) (s s2 : St) (a : RV)
    (h : NewElem decls t s = .ok a s2) : a.typ = some t := by
  simp only [NewElem, M_bind_apply, alloc_apply, M_pure_apply, Res.ok.injEq] at h
  obtain ⟨h1, _⟩ := h
  subst h1
  rfl

theorem sameType_of (a b : RV) (t : Ty) (ha : a.typ = none ∨ a.typ = some t)
    (hb : b.typ = none ∨ b.typ = some t) : sameType a b := by
  rcases ha with ha | ha
  · exact Or.inl ha
  · rcases hb with hb | hb
    · exact Or.inr (Or.inl hb)
    · exact Or.inr (Or.inr (by rw [ha, hb]))

theorem NoErr_pointer (rec : Engine) (hrec : ∀ a b q, sameType a b → NoErr (rec a b q))
    (d x : RV) (p : String) (e : Ty) (hd : d.typ = some (.ptr e))
    (hx : x.typ = none ∨ x.typ = some e) : NoErr (defaultPointerFunc rec d x p) := by
  intro s er s2 h
  simp only [defaultPointerFunc, M_bind_apply] at h
  cases he : d.Elem s with
  | timeout => simp [he] at h
  | panic msg => simp [he] at h
  | ok a s1 =>
    simp only [he] at h
    exact hrec a x p (sameType_of a x e (Elem_typ d e s s1 a hd he) hx) s1 er s2 h

theorem NoErr_structFieldStep (decls : Decls) (rec : Engine)
    (hrec : ∀ a b q, sameType a b → NoErr (rec a b q))
    (d x : RV) (dType : Ty) (p name : String) (hd : d.typ = some (.struct name))
    (hx : x.typ = some (.struct name)) (i : Nat) :
    NoErr (structFieldStep decls rec d x dType p i) := by
  intro s er s2 h
  simp only [structFieldStep, M_bind_apply] at h
  cases hf : d.Field decls i s with
  | timeout => simp [hf] at h
  | panic msg => simp [hf] at h
  | ok df s1 =>
    simp only [hf] at h
    obtain ⟨fd, hfd, hdt⟩ := Field_typ decls d name i s s1 df hd hf
    by_cases hc : df.CanSet = true
    · simp only [hc, if_true, M_bind_apply] at h
      cases hg : x.Field decls i s1 with
      | timeout => simp [hg] at h
      | panic msg => simp [hg] at h
      | ok sf s3 =>
        simp only [hg] at h
        obtain ⟨fd2, hfd2, hst⟩ := Field_typ decls x name i s1 s3 sf hx hg
        rw [hfd] at hfd2
        cases hfd2
        generalize hq : p ++ "." ++ fieldName decls dType i ++ "(" ++ toString i ++ ")" = nf at h
        cases hr : rec df sf nf s3 with
        | timeout => simp [hr] at h
        | panic msg => simp [hr] at h
        | ok r s4 =>
          cases r with
          | some e2 =>
            exact hrec df sf nf (Or.inr (Or.inr (by rw [hdt, hst]))) s3 e2 s4 hr
          | none => simp [hr] at h
    · simp [hc] at h

theorem NoErr_struct (decls : Decls) (rec : Engine)
    (hrec : ∀ a b q, sameType a b → NoErr (rec a b q))
    (d x : RV) (p name : String) (hd : d.typ = some (.struct name))
    (hx : x.typ = some (.struct name)) : NoErr (defaultStructFunc decls rec d x p) := by
  have hbody := NoErr_forEach (structFieldStep decls rec d x (.struct name) p)
    (NoErr_structFieldStep decls rec hrec d x (.struct name) p name hd hx)
    (List.range (fieldsOf decls name).length)
  intro s er s2 h
  apply hbody s er s2
  cases d with
  | invalid => cases hd
  | rval dty dv dro =>
    cases hd
    cases x with
    | invalid => cases hx
    | rval sty sv sro => cases hx; simpa [defaultStructFunc, RV.NumField, RV.Type] using h
    | lval sty sl sro => cases hx; simpa [defaultStructFunc, RV.NumField, RV.Type] using h
  | lval dty dl dro =>
    cases hd
    cases x with
    | invalid => cases hx
    | rval sty sv sro => cases hx; simpa [defaultStructFunc, RV.NumField, RV.Type] using h
    | lval sty sl sro => cases hx; simpa [defaultStructFunc, RV.NumField, RV.Type] using h

theorem NoErr_sliceElemStep (rec : Engine) (hrec : ∀ a b q, sameType a b → NoErr (rec a b q))
    (d x : RV) (p : String) (e : Ty) (hd : d.typ = some (.slice e)) (hx : x.typ = some (.slice e))
    (i : Nat) : NoErr (sliceElemStep rec d x p i) := by
  intro s er s2 h
  simp only [sliceElemStep, M_bind_apply] at h
  cases hf : d.Index i s with
  | timeout => simp [hf] at h
  | panic msg => simp [hf] at h
  | ok df s1 =>
    simp only [hf] at h
    cases hg : x.Index i s1 with
    | timeout => simp [hg] at h
    | panic msg => simp [hg] at h
    | ok sf s3 =>
      simp only [hg] at h
      generalize hq : p ++ "[" ++ toString i ++ "]" = nf at h
      cases hr : rec df sf nf s3 with
      | timeout => simp [hr] at h
      | panic msg => simp [hr] at h
      | ok r s4 =>
        cases r with
        | some e2 =>
          exact hrec df sf nf (Or.inr (Or.inr (by
            rw [Index_slice_typ d e i s s1 df hd hf, Index_slice_typ x e i s1 s3 sf hx hg])))
            s3 e2 s4 hr
        | none => simp [hr] at h

theorem NoErr_slice (decls : Decls) (rec : Engine)
    (hrec : ∀ a b q, sameType a b → NoErr (rec a b q))
    (d x : RV) (p : String) (e : Ty) (hd : d.typ = some (.slice e)) (hx : x.typ = some (.slice e)) :
    NoErr (defaultSliceFunc decls rec d x p) := by
  intro s er s2 h
  simp only [defaultSliceFunc, M_bind_apply] at h
  cases hl : x.Len s with
  | timeout => simp [hl] at h
  | panic msg => simp [hl] at h
  | ok n s1 =>
    simp only [hl] at h
    by_cases hn : n > 0
    · simp only [hn, if_true, M_bind_apply] at h
      cases hg : sliceGrow decls d n s1 with
      | timeout => simp [hg] at h
      | panic msg => simp [hg] at h
      | ok u s3 =>
        simp only [hg] at h
        exact NoErr_forEach (sliceElemStep rec d x p) (NoErr_sliceElemStep rec hrec d x p e hd hx)
          (List.range n) s3 er s2 h
    · simp [hn] at h

theorem NoErr_arrayElemStep (rec : Engine) (hrec : ∀ a b q, sameType a b → NoErr (rec a b q))
    (d x : RV) (p : String) (n : Nat) (e : Ty) (hd : d.typ = some (.array n e))
    (hx : x.typ = some (.array n e)) (i : Nat) : NoErr (arrayElemStep rec d x p i) := by
  intro s er s2 h
  simp only [arrayElemStep, M_bind_apply] at h
  cases hf : d.Index i s with
  | timeout => simp [hf] at h
  | panic msg => simp [hf] at h
  | ok df s1 =>
    simp only [hf] at h
    cases hg : x.Index i s1 with
    | timeout => simp [hg] at h
    | panic msg => simp [hg] at h
    | ok sf s3 =>
      simp only [hg] at h
      generalize hq : p ++ "[" ++ toString i ++ "]" = nf at h
      cases hr : rec df sf nf s3 with
      | timeout => simp [hr] at h
      | panic msg => simp [hr] at h
      | ok r s4 =>
        cases r with
        | some e2 =>
          exact hrec df sf nf (Or.inr (Or.inr (by
            rw [Index_array_typ d n e i s s1 df hd hf, Index_array_typ x n e i s1 s3 sf hx hg])))
            s3 e2 s4 hr
        | none => simp [hr] at h

theorem NoErr_array (rec : Engine) (hrec : ∀ a b q, sameType a b → NoErr (rec a b q))
    (d x : RV) (p : String) (n : Nat) (e : Ty) (hd : d.typ = some (.array n e))
    (hx : x.typ = some (.array n e)) : NoErr (defaultArrayFunc rec d x p) := by
  intro s er s2 h
  have hdT := Type_of_typ d s _ hd
  have hxT := Type_of_typ x s _ hx
  simp only [defaultArrayFunc, RV.Len, M_bind_apply, hdT, hxT, M_pure_apply, ne_eq,
    not_true_eq_false, if_false] at h
  exact NoErr_forEach (arrayElemStep rec d x p) (NoErr_arrayElemStep rec hrec d x p n e hd hx)
    (List.range n) s er s2 h

theorem NoErr_default (rec : Engine) (d x : RV) (p : String) :
    NoErr (defaultDefaultFunc rec d x p) := by
  intro s er s2 h
  simp only [defaultDefaultFunc] at h
  by_cases hc : d.CanSet = true
  · simp only [hc, if_true, M_bind_apply] at h
    cases hs : d.Set x s with
    | timeout => simp [hs] at h
    | panic msg => simp [hs] at h
    | ok u s1 => simp [hs] at h
  · simp [hc] at h

theorem NoErr_mapKeyStep (decls : Decls) (rec : Engine)
    (hrec : ∀ a b q, sameType a b → NoErr (rec a b q))
    (d x : RV) (p : String) (k e : Ty) (hd : d.typ = some (.map k e))
    (hx : x.typ = some (.map k e)) (key : Key) : NoErr (mapKeyStep decls rec d x e p key) := by
  intro s er s2 h
  simp only [mapKeyStep, M_bind_apply] at h
  cases hf : d.MapIndex key s with
  | timeout => simp [hf] at h
  | panic msg => simp [hf] at h
  | ok v0 s1 =>
    simp only [hf] at h
    have hv0 := MapIndex_typ d k e key s s1 v0 hd hf
    generalize hn : (ite ((!v0.IsValid) = true) _ _ : M RV) s1 = r0 at h
    cases r0 with
    | timeout => simp at h
    | panic msg => simp at h
    | ok vd s3 =>
      simp only [] at h
      have hvd : vd.typ = none ∨ vd.typ = some e := by
        cases hv : v0.IsValid with
        | true =>
          simp only [hv, Bool.not_true, Bool.false_eq_true, if_false, M_pure_apply] at hn
          injection hn with h1 _
          subst h1
          exact hv0
        | false =>
          simp only [hv, Bool.not_false, if_true] at hn
          exact Or.inr (NewElem_typ decls e s1 s3 vd hn)
      cases hg : x.MapIndex key s3 with
      | timeout => simp [hg] at h
      | panic msg => simp [hg] at h
      | ok sv s4 =>
        simp only [hg] at h
        have hsv := MapIndex_typ x k e key s3 s4 sv hx hg
        generalize hq : p ++ "[" ++ fmtKey key ++ "]" = nf at h
        cases hr : rec vd sv nf s4 with
        | timeout => simp [hr] at h
        | panic msg => simp [hr] at h
        | ok r s5 =>
          cases r with
          | some e2 => exact hrec vd sv nf (sameType_of vd sv e hvd hsv) s4 e2 s5 hr
          | none =>
            simp only [hr, M_bind_apply] at h
            cases hw : d.SetMapIndex key vd s5 with
            | timeout => simp [hw] at h
            | panic msg => simp [hw] at h
            | ok u s6 => simp [hw] at h

theorem NoErr_map (decls : Decls) (rec : Engine)
    (hrec : ∀ a b q, sameType a b → NoErr (rec a b q))
    (d x : RV) (p : String) (k e : Ty) (hd : d.typ = some (.map k e))
    (hx : x.typ = some (.map k e)) : NoErr (defaultMapFunc decls rec d x p) := by
  intro s er s2 h
  have hdT : ∀ t : St, d.Type t = .ok (.map k e) t := fun t => Type_of_typ d t _ hd
  simp only [defaultMapFunc, M_bind_apply, hdT, Ty.Elem, M_pure_apply] at h
  cases hn : d.IsNil s with
  | timeout => simp [hn] at h
  | panic msg => simp [hn] at h
  | ok b s1 =>
    simp only [hn] at h
    have tail : ∀ s3 : St, (do
        let ks ← x.MapKeys
        forEach (mapKeyStep decls rec d x e p) ks : M (Option MergeErr)) s3
          ≠ .ok (some er) s2 := by
      intro s3 h3
      simp only [M_bind_apply] at h3
      cases hk : x.MapKeys s3 with
      | timeout => simp [hk] at h3
      | panic msg => simp [hk] at h3
      | ok ks s4 =>
        simp only [hk] at h3
        exact NoErr_forEach (mapKeyStep decls rec d x e p)
          (NoErr_mapKeyStep decls rec hrec d x p k e hd hx) ks s4 er s2 h3
    cases b with
    | false =>
      simp only [Bool.false_eq_true, if_false, M_bind_apply, M_pure_apply] at h
      exact tail s1 (by simpa only [M_bind_apply] using h)
    | true =>
      simp only [if_true, M_bind_apply, M_pure_apply] at h
      cases h1 : x.Len s1 with
      | timeout => simp [h1] at h
      | panic msg => simp [h1] at h
      | ok n s3 =>
        simp only [h1] at h
        cases h2 : MakeMapWithSize (.map k e) n s3 with
        | timeout => simp [h2] at h
        | panic msg => simp [h2] at h
        | ok mk s4 =>
          simp only [h2] at h
          cases h3 : d.Set mk s4 with
          | timeout => simp [h3] at h
          | panic msg => simp [h3] at h
          | ok u s5 =>
            simp only [h3] at h
            exact tail s5 (by simpa only [M_bind_apply] using h)

theorem typ_none_iff (v : RV) : v.typ = none ↔ v.IsValid = false := by
  cases v <;> simp [RV.typ, RV.IsValid]

theorem Type_typ_none (v : RV) (s : St) (h : v.typ = none) :
    v.Type s = .panic "reflect: call of reflect.Value.Type on zero Value" := by
  cases v with
  | invalid => rfl
  | rval ty w ro => simp [RV.typ] at h
  | lval ty l ro => simp [RV.typ] at h

theorem Kind_of_typ (v : RV) (t : Ty) (h : v.typ = some t) : v.Kind = t.kind := by
  cases v with
  | invalid => simp [RV.typ] at h
  | rval ty w ro =>
    simp only [RV.typ, Option.some.injEq] at h
    subst h
    rfl
  | lval ty l ro =>
    simp only [RV.typ, Option.some.injEq] at h
    subst h
    rfl

/-- The node a same-typed pair is dispatched on: the destination itself, and the source or,
for a pointer, its referent. -/
theorem enterNode_same (dst src : RV) (p : String) (s s2 : St)
    (r : Option MergeErr ⊕ RV × RV) (hst : sameType dst src)
    (h : enterNode dst src p s = .ok r s2) :
    r = .inl none ∨
      ∃ (x : RV) (t : Ty), r = .inr (dst, x) ∧ dst.typ = some t ∧ src.typ = some t ∧
        (((∀ e, t ≠ .ptr e) ∧ x = src) ∨
          ∃ e, t = .ptr e ∧ (x.typ = none ∨ x.typ = some e)) := by
  simp only [enterNode] at h
  cases hv : src.IsValid with
  | false =>
    simp only [hv, Bool.not_false, if_true, M_pure_apply, Res.ok.injEq] at h
    exact Or.inl h.1.symm
  | true =>
    simp only [hv, Bool.not_true, Bool.false_eq_true, if_false, M_bind_apply, M_pure_apply] at h
    cases hz : src.IsZero s with
    | timeout => simp [hz] at h
    | panic msg => simp [hz] at h
    | ok z s1 =>
      have e1 := IsZero_state src s s1 z hz
      subst e1
      cases z with
      | true =>
        simp only [hz, if_true, M_pure_apply, Res.ok.injEq] at h
        exact Or.inl h.1.symm
      | false =>
        simp only [hz, Bool.false_eq_true, if_false, M_bind_apply, M_pure_apply] at h
        have hsv : src.typ ≠ none := by
          intro hn
          rw [typ_none_iff, hv] at hn
          exact Bool.noConfusion hn
        cases hdt : dst.typ with
        | none =>
          have hp : reconcile dst src p s1 =
              .panic "reflect: call of reflect.Value.Type on zero Value" := by
            simp [reconcile, Type_typ_none dst s1 hdt]
          simp [hp] at h
        | some t =>
          have hs : src.typ = some t := by
            rcases hst with h1 | h1 | h1
            · rw [hdt] at h1
              exact Option.noConfusion h1
            · exact absurd h1 hsv
            · rw [← h1, hdt]
          have hr := reconcile_equal dst src p s1 t (Type_of_typ dst s1 t hdt)
            (Type_of_typ src s1 t hs)
          simp only [hr, M_bind_apply, M_pure_apply] at h
          have hk := Kind_of_typ src t hs
          by_cases hp : ∃ e, t = .ptr e
          · obtain ⟨e, rfl⟩ := hp
            have hk2 : src.Kind = Kind.Ptr := hk
            simp only [hk2, if_true] at h
            cases he : src.Elem s1 with
            | timeout => simp [he] at h
            | panic msg => simp [he] at h
            | ok x3 s4 =>
              have hx3 := Elem_typ src e s1 s4 x3 hs he
              simp only [he] at h
              generalize (ite ((decide (Kind.Ptr = Kind.Struct) && x3.CanAddr) = true) _ _ :
                M Bool) s4 = r2 at h
              cases r2 with
              | timeout => simp at h
              | panic msg => simp at h
              | ok seen s5 =>
                cases seen with
                | true =>
                  simp only [if_true, M_pure_apply, Res.ok.injEq] at h
                  exact Or.inl h.1.symm
                | false =>
                  simp only [Bool.false_eq_true, if_false, M_pure_apply, Res.ok.injEq] at h
                  simp only [M_bind_apply, M_pure_apply, Res.ok.injEq] at h
                  exact Or.inr ⟨x3, .ptr e, h.1.symm, rfl, hs, Or.inr ⟨e, rfl, hx3⟩⟩
          · have hk2 : src.Kind ≠ Kind.Ptr := by
              rw [hk]
              intro hq
              exact hp ((kind_ptr_iff t).mp hq)
            simp only [hk2, if_false, M_pure_apply] at h
            generalize (ite ((decide (src.Kind = Kind.Struct) && src.CanAddr) = true) _ _ :
              M Bool) s1 = r2 at h
            cases r2 with
            | timeout => simp at h
            | panic msg => simp at h
            | ok seen s5 =>
              cases seen with
              | true =>
                simp only [if_true, M_pure_apply, Res.ok.injEq] at h
                exact Or.inl h.1.symm
              | false =>
                simp only [Bool.false_eq_true, if_false, M_pure_apply, Res.ok.injEq] at h
                simp only [M_bind_apply, M_pure_apply, Res.ok.injEq] at h
                exact Or.inr ⟨src, t, h.1.symm, rfl, hs,
                  Or.inl ⟨fun e he => hp ⟨e, he⟩, rfl⟩⟩

/-- With the default handlers a node whose destination and source have one type returns no
error, at any depth. -/
theorem deepMerge_noErr (decls : Decls) :
    ∀ (fuel : Nat) (dst src : RV) (p : String), sameType dst src →
      NoErr ((New decls []).deepMerge fuel dst src p) := by
  intro fuel
  induction fuel with
  | zero =>
    intro dst src p _ s er s2 h
    simp [merge.deepMerge] at h
  | succ fuel ih =>
    intro dst src p hst s er s2 h
    rw [deepMerge_enter] at h
    simp only [M_bind_apply] at h
    cases he : enterNode dst src p s with
    | timeout => simp [he] at h
    | panic msg => simp [he] at h
    | ok r s1 =>
      simp only [he] at h
      rcases enterNode_same dst src p s s1 r hst he with rfl | ⟨x, t, rfl, hd, hs, hx⟩
      · simp at h
      · simp only [New_slot, Kind_of_typ dst t hd] at h
        rcases hx with ⟨hnp, rfl⟩ | ⟨e, rfl, hx⟩
        · cases t with
          | int => exact NoErr_default ((New decls []).deepMerge fuel) dst x p s1 er s2 h
          | string => exact NoErr_default ((New decls []).deepMerge fuel) dst x p s1 er s2 h
          | bool => exact NoErr_default ((New decls []).deepMerge fuel) dst x p s1 er s2 h
          | iface => exact NoErr_default ((New decls []).deepMerge fuel) dst x p s1 er s2 h
          | ptr e => exact absurd rfl (hnp e)
          | slice e => exact NoErr_slice decls _ ih dst x p e hd hs s1 er s2 h
          | array n e => exact NoErr_array _ ih dst x p n e hd hs s1 er s2 h
          | map k e => exact NoErr_map decls _ ih dst x p k e hd hs s1 er s2 h
          | struct name => exact NoErr_struct decls _ ih dst x p name hd hs s1 er s2 h
        · exact NoErr_pointer _ ih dst x p e hd hx s1 er s2 h

theorem mergeLoop_noErr (decls : Decls) (T : Ty) (fuel d sv : Nat) :
    ∀ (objs : List Val) (s : St),
      returnsError (mergeLoop (New decls []) T fuel d sv objs s) = false := by
  intro objs
  induction objs with
  | nil =>
    intro s
    simp only [mergeLoop, M_bind_apply]
    cases readLoc ⟨d, []⟩ s <;> rfl
  | cons x rest ih =>
    intro s
    simp only [mergeLoop, M_bind_apply]
    cases ha : writeLoc ⟨sv, []⟩ x s with
    | timeout => rfl
    | panic msg => rfl
    | ok b s1 =>
      simp only []
      cases hm : (New decls []).deepMerge fuel (.rval (.ptr T) (.ptr (some ⟨d, []⟩)) false)
          (.rval (.ptr T) (.ptr (some ⟨sv, []⟩)) false) "" s1 with
      | timeout => rfl
      | panic msg => rfl
      | ok r s2 =>
        cases r with
        | some er =>
          exact absurd hm (deepMerge_noErr decls fuel (.rval (.ptr T) (.ptr (some ⟨d, []⟩)) false)
            (.rval (.ptr T) (.ptr (some ⟨sv, []⟩)) false) "" (Or.inr (Or.inr rfl)) s1 er s2)
        | none => exact ih s2

theorem Merge_noErr (decls : Decls) (T : Ty) (fuel : Nat) (objs : List Val) (s : St) :
    returnsError ((New decls []).Merge decls T fuel objs s) = false := by
  cases objs with
  | nil => rfl
  | cons x rest =>
    cases rest with
    | nil => rfl
    | cons y rest =>
      rw [Merge_unfold]
      exact mergeLoop_noErr decls T fuel _ _ (y :: rest) _

theorem bind_congr_on {α β : Type} (x : M α) (f g : α → M β) (s : St)
    (h : ∀ a s2, x s = .ok a s2 → f a s2 = g a s2) : (x >>= f) s = (x >>= g) s := by
  simp only [M_bind_apply]
  cases hx : x s with
  | timeout => rfl
  | panic msg => rfl
  | ok a s2 => exact h a s2 hx

theorem forEach_congr {α : Type} (body body2 : α → M (Option MergeErr))
    (h : ∀ a s, body a s = body2 a s) (xs : List α) : forEach body xs = forEach body2 xs := by
  have e : body = body2 := funext (fun a => funext (h a))
  rw [e]

theorem congr_pointer (R R2 : Engine) (hrec : ∀ a b q, sameType a b → R a b q = R2 a b q)
    (d x : RV) (p : String) (e : Ty) (hd : d.typ = some (.ptr e))
    (hx : x.typ = none ∨ x.typ = some e) (s : St) :
    defaultPointerFunc R d x p s = defaultPointerFunc R2 d x p s := by
  simp only [defaultPointerFunc]
  refine bind_congr_on _ _ _ s (fun a s2 ha => ?_)
  rw [hrec a x p (sameType_of a x e (Elem_typ d e s s2 a hd ha) hx)]

theorem congr_structFieldStep (decls : Decls) (R R2 : Engine)
    (hrec : ∀ a b q, sameType a b → R a b q = R2 a b q)
    (d x : RV) (dType : Ty) (p name : String) (hd : d.typ = some (.struct name))
    (hx : x.typ = some (.struct name)) (i : Nat) (s : St) :
    structFieldStep decls R d x dType p i s = structFieldStep decls R2 d x dType p i s := by
  simp only [structFieldStep]
  refine bind_congr_on _ _ _ s (fun df s1 hf => ?_)
  obtain ⟨fd, hfd, hdt⟩ := Field_typ decls d name i s s1 df hd hf
  by_cases hc : df.CanSet = true
  · simp only [hc, if_true]
    refine bind_congr_on _ _ _ s1 (fun sf s3 hg => ?_)
    obtain ⟨fd2, hfd2, hst⟩ := Field_typ decls x name i s1 s3 sf hx hg
    rw [hfd] at hfd2
    cases hfd2
    rw [hrec df sf _ (Or.inr (Or.inr (by rw [hdt, hst])))]
  · simp [hc]

theorem congr_struct (decls : Decls) (R R2 : Engine)
    (hrec : ∀ a b q, sameType a b → R a b q = R2 a b q)
    (d x : RV) (p name : String) (hd : d.typ = some (.struct name))
    (hx : x.typ = some (.struct name)) (s : St) :
    defaultStructFunc decls R d x p s = defaultStructFunc decls R2 d x p s := by
  have hdT : ∀ t : St, d.Type t = .ok (.struct name) t := fun t => Type_of_typ d t _ hd
  simp only [defaultStructFunc]
  refine bind_congr_on _ _ _ s (fun dn s1 _ => ?_)
  refine bind_congr_on _ _ _ s1 (fun sn s2 _ => ?_)
  by_cases hc : dn ≠ sn
  · rw [if_pos hc, if_pos hc]
  · rw [if_neg hc, if_neg hc]
    refine bind_congr_on _ _ _ s2 (fun u s3 _ => ?_)
    refine bind_congr_on _ _ _ s3 (fun dT s4 hT => ?_)
    rw [hdT] at hT
    cases hT
    rw [forEach_congr _ _ (congr_structFieldStep decls R R2 hrec d x (.struct name) p name hd hx)]

theorem congr_sliceElemStep (R R2 : Engine) (hrec : ∀ a b q, sameType a b → R a b q = R2 a b q)
    (d x : RV) (p : String) (e : Ty) (hd : d.typ = some (.slice e)) (hx : x.typ = some (.slice e))
    (i : Nat) (s : St) : sliceElemStep R d x p i s = sliceElemStep R2 d x p i s := by
  simp only [sliceElemStep]
  refine bind_congr_on _ _ _ s (fun df s1 hf => ?_)
  refine bind_congr_on _ _ _ s1 (fun sf s3 hg => ?_)
  rw [hrec df sf _ (Or.inr (Or.inr (by
    rw [Index_slice_typ d e i s s1 df hd hf, Index_slice_typ x e i s1 s3 sf hx hg])))]

theorem congr_slice (decls : Decls) (R R2 : Engine)
    (hrec : ∀ a b q, sameType a b → R a b q = R2 a b q)
    (d x : RV) (p : String) (e : Ty) (hd : d.typ = some (.slice e)) (hx : x.typ = some (.slice e))
    (s : St) : defaultSliceFunc decls R d x p s = defaultSliceFunc decls R2 d x p s := by
  simp only [defaultSliceFunc]
  refine bind_congr_on _ _ _ s (fun n s1 _ => ?_)
  by_cases hn : n > 0
  · simp only [hn, if_true]
    refine bind_congr_on _ _ _ s1 (fun u s3 _ => ?_)
    rw [forEach_congr _ _ (congr_sliceElemStep R R2 hrec d x p e hd hx)]
  · simp only [hn, if_false]

theorem congr_arrayElemStep (R R2 : Engine) (hrec : ∀ a b q, sameType a b → R a b q = R2 a b q)
    (d x : RV) (p : String) (n : Nat) (e : Ty) (hd : d.typ = some (.array n e))
    (hx : x.typ = some (.array n e)) (i : Nat) (s : St) :
    arrayElemStep R d x p i s = arrayElemStep R2 d x p i s := by
  simp only [arrayElemStep]
  refine bind_congr_on _ _ _ s (fun df s1 hf => ?_)
  refine bind_congr_on _ _ _ s1 (fun sf s3 hg => ?_)
  rw [hrec df sf _ (Or.inr (Or.inr (by
    rw [Index_array_typ d n e i s s1 df hd hf, Index_array_typ x n e i s1 s3 sf hx hg])))]

theorem congr_array (R R2 : Engine) (hrec : ∀ a b q, sameType a b → R a b q = R2 a b q)
    (d x : RV) (p : String) (n : Nat) (e : Ty) (hd : d.typ = some (.array n e))
    (hx : x.typ = some (.array n e)) (s : St) :
    defaultArrayFunc R d x p s = defaultArrayFunc R2 d x p s := by
  simp only [defaultArrayFunc]
  refine bind_congr_on _ _ _ s (fun sn s1 _ => ?_)
  refine bind_congr_on _ _ _ s1 (fun dn s2 _ => ?_)
  by_cases hc : sn ≠ dn
  · rw [if_pos hc, if_pos hc]
  · rw [if_neg hc, if_neg hc]
    refine bind_congr_on _ _ _ s2 (fun u s3 _ => ?_)
    rw [forEach_congr _ _ (congr_arrayElemStep R R2 hrec d x p n e hd hx)]

theorem congr_mapKeyStep (decls : Decls) (R R2 : Engine)
    (hrec : ∀ a b q, sameType a b → R a b q = R2 a b q)
    (d x : RV) (p : String) (k e : Ty) (hd : d.typ = some (.map k e))
    (hx : x.typ = some (.map k e)) (key : Key) (s : St) :
    mapKeyStep decls R d x e p key s = mapKeyStep decls R2 d x e p key s := by
  simp only [mapKeyStep]
  refine bind_congr_on _ _ _ s (fun v0 s1 hf => ?_)
  have hv0 := MapIndex_typ d k e key s s1 v0 hd hf
  refine bind_congr_on _ _ _ s1 (fun vd s3 hn => ?_)
  have hvd : vd.typ = none ∨ vd.typ = some e := by
    cases hv : v0.IsValid with
    | true =>
      simp only [hv, Bool.not_true, Bool.false_eq_true, if_false, M_pure_apply] at hn
      injection hn with h1 _
      subst h1
      exact hv0
    | false =>
      simp only [hv, Bool.not_false, if_true] at hn
      exact Or.inr (NewElem_typ decls e s1 s3 vd hn)
  refine bind_congr_on _ _ _ s3 (fun sv s4 hg => ?_)
  have hsv := MapIndex_typ x k e key s3 s4 sv hx hg
  rw [hrec vd sv _ (sameType_of vd sv e hvd hsv)]

theorem congr_map (decls : Decls) (R R2 : Engine)
    (hrec : ∀ a b q, sameType a b → R a b q = R2 a b q)
    (d x : RV) (p : String) (k e : Ty) (hd : d.typ = some (.map k e))
    (hx : x.typ = some (.map k e)) (s : St) :
    defaultMapFunc decls R d x p s = defaultMapFunc decls R2 d x p s := by
  have hdT : ∀ t : St, d.Type t = .ok (.map k e) t := fun t => Type_of_typ d t _ hd
  have hb : mapKeyStep decls R d x e p = mapKeyStep decls R2 d x e p :=
    funext (fun key => funext (congr_mapKeyStep decls R R2 hrec d x p k e hd hx key))
  simp only [defaultMapFunc, M_bind_apply, hdT, Ty.Elem, M_pure_apply]
  cases d.IsNil s with
  | timeout => rfl
  | panic msg => rfl
  | ok b s1 =>
    cases b with
    | false => simp only [Bool.false_eq_true, if_false, M_bind_apply, M_pure_apply, hb]
    | true => simp only [if_true, M_bind_apply, M_pure_apply, hb]

/-- With the default handlers the engine never enters a node whose destination and source
have different types: handing such nodes to any other computation changes nothing. -/
theorem deepMerge_typed (decls : Decls) (other : Engine) :
    ∀ (fuel : Nat) (dst src : RV) (p : String), sameType dst src →
      (New decls []).deepMerge fuel dst src p =
        (New decls []).deepMergeTyped other fuel dst src p := by
  intro fuel
  induction fuel with
  | zero =>
    intro dst src p _
    funext s
    simp [merge.deepMerge, merge.deepMergeTyped]
  | succ fuel ih =>
    intro dst src p hst
    funext s
    rw [deepMerge_enter, merge.deepMergeTyped, if_pos hst]
    refine bind_congr_on _ _ _ s (fun r s1 he => ?_)
    rcases enterNode_same dst src p s s1 r hst he with rfl | ⟨x, t, rfl, hd, hs, hx⟩
    · rfl
    · simp only [New_slot, Kind_of_typ dst t hd]
      rcases hx with ⟨hnp, rfl⟩ | ⟨e, rfl, hx⟩
      · cases t with
        | int => rfl
        | string => rfl
        | bool => rfl
        | iface => rfl
        | ptr e => exact absurd rfl (hnp e)
        | slice e => exact congr_slice decls _ _ ih dst x p e hd hs s1
        | array n e => exact congr_array _ _ ih dst x p n e hd hs s1
        | map k e => exact congr_map decls _ _ ih dst x p k e hd hs s1
        | struct name => exact congr_struct decls _ _ ih dst x p name hd hs s1
      · exact congr_pointer _ _ ih dst x p e hd hx s1

/-- C18: error branches are unreachable with the default handlers.  Both handles `Merge`
passes to the engine have the type `*T`.  From a node whose destination and source have one
type the engine built with no options only reaches nodes of that kind: handing every node
with operands of different types to an arbitrary other computation changes no run.  At such
a node the handler is called with the destination and with the source or, for a pointer, its
referent, whose type is the element type.  So no node returns an error, and a call of `Merge`
that returns, for any type, operand list, memory and fuel, returns no error. -/
theorem error_branches_unreachable (decls : Decls) :
    (∀ (T : Ty) (d b : Nat), sameType (refTo T d) (refTo T b)) ∧
    (∀ (other : Engine) (fuel : Nat) (dst src : RV) (p : String), sameType dst src →
      (New decls []).deepMerge fuel dst src p =
        (New decls []).deepMergeTyped other fuel dst src p) ∧
    (∀ (dst src : RV) (p : String) (s s2 : St) (d x : RV), sameType dst src →
      enterNode dst src p s = .ok (.inr (d, x)) s2 →
        d = dst ∧ ∃ t : Ty, dst.typ = some t ∧ src.typ = some t ∧
          (((∀ e, t ≠ .ptr e) ∧ x = src) ∨
            ∃ e, t = .ptr e ∧ (x.typ = none ∨ x.typ = some e))) ∧
    (∀ (fuel : Nat) (dst src : RV) (p : String), sameType dst src →
      NoErr ((New decls []).deepMerge fuel dst src p)) ∧
    (∀ (T : Ty) (fuel : Nat) (objs : List Val) (s : St),
      returnsError ((New decls []).Merge decls T fuel objs s) = false) := by
  refine ⟨fun T d b => Or.inr (Or.inr rfl), deepMerge_typed decls, ?_, deepMerge_noErr decls,
    Merge_noErr decls⟩
  intro dst src p s s2 d x hst h
  rcases enterNode_same dst src p s s2 _ hst h with h1 | ⟨x2, t, h1, hd, hs, hx⟩
  · exact Sum.noConfusion h1
  · simp only [Sum.inr.injEq, Prod.mk.injEq] at h1
    obtain ⟨rfl, rfl⟩ := h1
    exact ⟨rfl, t, hd, hs, hx⟩

/-- Witness for C18: the four operands of type `Conf` merge with a result and no error, and
the merge of two records of this type is the same when every differently-typed node is made
to fail. -/
theorem error_branches_unreachable_witness :
    returnsError ((New flatDecls []).Merge flatDecls (.struct "Conf") 3 flatOperands
      ⟨[], [], []⟩) = false ∧
    (observe 1 ((New flatDecls []).Merge flatDecls (.struct "Conf") 3 flatOperands
      ⟨[], [], []⟩)).isSome = true ∧
    (New flatDecls []).deepMerge 3 (.lval (.struct "Conf") ⟨0, []⟩ false)
        (.lval (.struct "Conf") ⟨1, []⟩ false) "" confPairSt =
      (New flatDecls []).deepMergeTyped (fun _ _ p => pure (some (.numFields p 0 0))) 3
        (.lval (.struct "Conf") ⟨0, []⟩ false) (.lval (.struct "Conf") ⟨1, []⟩ false) ""
        confPairSt :=
  ⟨(error_branches_unreachable flatDecls).2.2.2.2 _ _ _ _, by decide!,
    congrFun ((error_branches_unreachable flatDecls).2.1
      (fun _ _ p => pure (some (.numFields p 0 0))) 3 (.lval (.struct "Conf") ⟨0, []⟩ false)
      (.lval (.struct "Conf") ⟨1, []⟩ false) "" (Or.inr (Or.inr rfl))) confPairSt⟩

theorem lookupKey_perm {l1 l2 : List (Key × Val)} (h : l1.Perm l2)
    (hnd : (l1.map Prod.fst).Nodup) (k : Key) : lookupKey k l1 = lookupKey k l2 := by
  induction h with
  | nil => rfl
  | cons x _ ih =>
    obtain ⟨k2, v⟩ := x
    simp only [List.map_cons, List.nodup_cons] at hnd
    simp only [lookupKey, ih hnd.2]
  | swap x y l =>
    obtain ⟨k1, v1⟩ := x
    obtain ⟨k2, v2⟩ := y
    simp only [List.map_cons, List.nodup_cons, List.mem_cons, not_or] at hnd
    simp only [lookupKey]
    by_cases h1 : k1 = k
    · by_cases h2 : k2 = k
      · exact absurd (h2.trans h1.symm) hnd.1.1
      · simp [h1, h2]
    · by_cases h2 : k2 = k
      · simp [h1, h2]
      · simp [h1, h2]
  | trans h1 _ ih1 ih2 =>
    rw [ih1 hnd, ih2 (((h1.map Prod.fst).nodup_iff).mp hnd)]

/-- The default map handler on a source with scalar values, run for two enumerations of the
same source entries: both runs succeed and leave destination maps with the same value under
every key. -/
theorem defaultMapFunc_order (decls : Decls) (m : merge) (hm : m.defaultMerge = defaultDefaultFunc)
    (fuel : Nat) (kty ety : Ty) (hety : ety.isScalar = true) (dl sl : Loc)
    (dmid dmid2 : Option Nat) (sid sid2 : Nat) (des ses ses2 : List (Key × Val)) (p : String)
    (s t : St)
    (hd : s.read dl = some (.map dmid)) (hd2 : t.read dl = some (.map dmid2))
    (hnil : dmid = none → des = []) (hnil2 : dmid2 = none → des = [])
    (hdes : ∀ did, dmid = some did → s.maps[did]? = some des)
    (hdes2 : ∀ did, dmid2 = some did → t.maps[did]? = some des)
    (hs : s.read sl = some (.map (some sid))) (hs2 : t.read sl = some (.map (some sid2)))
    (hses : s.maps[sid]? = some ses) (hses2 : t.maps[sid2]? = some ses2)
    (hblk : dmid = none ∨ dmid2 = none → dl.block ≠ sl.block)
    (hty : ∀ e ∈ ses, e.2.hasTy decls ety = true)
    (hperm : ses2.Perm ses) (hnd : (ses.map Prod.fst).Nodup) :
    ∃ (s2 t2 : St) (id2 id3 : Nat) (res res2 : List (Key × Val)),
      defaultMapFunc decls (m.deepMerge (fuel + 1)) (.lval (.map kty ety) dl false)
          (.lval (.map kty ety) sl false) p s = .ok none s2 ∧
      defaultMapFunc decls (m.deepMerge (fuel + 1)) (.lval (.map kty ety) dl false)
          (.lval (.map kty ety) sl false) p t = .ok none t2 ∧
      s2.read dl = some (.map (some id2)) ∧ t2.read dl = some (.map (some id3)) ∧
      s2.maps[id2]? = some res ∧ t2.maps[id3]? = some res2 ∧
      ∀ k, lookupKey k res = lookupKey k res2 := by
  obtain ⟨s2, id2, h1, h2, h3⟩ := defaultMapFunc_scalar decls m hm fuel kty ety hety dl sl dmid
    sid des ses p s hd hnil hdes hs hses (fun h => hblk (Or.inl h)) hty
  obtain ⟨t2, id3, g1, g2, g3⟩ := defaultMapFunc_scalar decls m hm fuel kty ety hety dl sl dmid2
    sid2 des ses2 p t hd2 hnil2 hdes2 hs2 hses2 (fun h => hblk (Or.inr h))
    (fun e he => hty e (hperm.mem_iff.mp he))
  refine ⟨s2, t2, id2, id3, _, _, h1, g1, h2, g2, h3, g3, ?_⟩
  intro k
  rw [lookupKey_unionKeep_keys, lookupKey_unionKeep_keys, lookupKey_perm hperm.symm hnd k]

/-- C20 (counterexample): the destination `{"x": &B{1}, "y": &B{2}}` and a source map whose two
entries refer to one record `B{5}`.  When the source enumerates `"x"` first the result is
`{"x": &B{5}, "y": &B{2}}`, when it enumerates `"y"` first the result is
`{"x": &B{1}, "y": &B{5}}`: the entry enumerated first puts the shared record into the visited
set and the other entry is skipped. -/
theorem key_order_counterexample :
    observe 4 (Merge ptrDecls (.map .string (.ptr (.struct "B"))) 6 (.map (some 0))
        (.map (some 1)) []
        (sharedEntrySt [(.str "x", .ptr (some ⟨2, []⟩)), (.str "y", .ptr (some ⟨2, []⟩))])) =
      some (.dict [.str "x", .str "y"]
        [.ref (.record [.scalar (.int 5)]), .ref (.record [.scalar (.int 2)])], none) ∧
    observe 4 (Merge ptrDecls (.map .string (.ptr (.struct "B"))) 6 (.map (some 0))
        (.map (some 1)) []
        (sharedEntrySt [(.str "y", .ptr (some ⟨2, []⟩)), (.str "x", .ptr (some ⟨2, []⟩))])) =
      some (.dict [.str "x", .str "y"]
        [.ref (.record [.scalar (.int 1)]), .ref (.record [.scalar (.int 5)])], none) := by
  constructor <;> decide!

/-- C20 (amended): key order is immaterial for maps with scalar values.  Two memories hold
the same destination entries and two enumerations `ses`, `ses2` of the same source entries
(a permutation, keys distinct), the values being scalars of the element type.  The default
map handler succeeds in both with no error, and the two destination maps it leaves hold the
same value under every key. -/
theorem key_order_independence (decls : Decls) (m : merge) (fuel : Nat) (kty ety : Ty)
    (dl sl : Loc) (dmid dmid2 : Option Nat) (sid sid2 : Nat) (des ses ses2 : List (Key × Val))
    (p : String) (s t : St)
    (hm : m.defaultMerge = defaultDefaultFunc) (hety : ety.isScalar = true)
    (hd : s.read dl = some (.map dmid)) (hd2 : t.read dl = some (.map dmid2))
    (hnil : dmid = none → des = []) (hnil2 : dmid2 = none → des = [])
    (hdes : ∀ did, dmid = some did → s.maps[did]? = some des)
    (hdes2 : ∀ did, dmid2 = some did → t.maps[did]? = some des)
    (hs : s.read sl = some (.map (some sid))) (hs2 : t.read sl = some (.map (some sid2)))
    (hses : s.maps[sid]? = some ses) (hses2 : t.maps[sid2]? = some ses2)
    (hblk : dmid = none ∨ dmid2 = none → dl.block ≠ sl.block)
    (hty : ∀ e ∈ ses, e.2.hasTy decls ety = true)
    (hperm : ses2.Perm ses) (hnd : (ses.map Prod.fst).Nodup) :
    ∃ (s2 t2 : St) (id2 id3 : Nat) (res res2 : List (Key × Val)),
      defaultMapFunc decls (m.deepMerge (fuel + 1)) (.lval (.map kty ety) dl false)
          (.lval (.map kty ety) sl false) p s = .ok none s2 ∧
      defaultMapFunc decls (m.deepMerge (fuel + 1)) (.lval (.map kty ety) dl false)
          (.lval (.map kty ety) sl false) p t = .ok none t2 ∧
      s2.read dl = some (.map (some id2)) ∧ t2.read dl = some (.map (some id3)) ∧
      s2.maps[id2]? = some res ∧ t2.maps[id3]? = some res2 ∧
      ∀ k, lookupKey k res = lookupKey k res2 :=
  defaultMapFunc_order decls m hm fuel kty ety hety dl sl dmid dmid2 sid sid2 des ses ses2 p s t
    hd hd2 hnil hnil2 hdes hdes2 hs hs2 hses hses2 hblk hty hperm hnd

/-- Witness for C20 (amended): the destination `{"b": 9}` and the source `{"a": 1, "b": 2,
"c": 3}`, enumerated from `"a"` and from `"c"`. -/
theorem key_order_independence_witness :
    ∃ (s2 t2 : St) (id2 id3 : Nat) (res res2 : List (Key × Val)),
      defaultMapFunc [] ((New [] []).deepMerge (0 + 1)) (.lval (.map .string .int) ⟨0, []⟩ false)
          (.lval (.map .string .int) ⟨1, []⟩ false) ""
          (orderVarsSt [(.str "a", .int 1), (.str "b", .int 2), (.str "c", .int 3)]) =
        .ok none s2 ∧
      defaultMapFunc [] ((New [] []).deepMerge (0 + 1)) (.lval (.map .string .int) ⟨0, []⟩ false)
          (.lval (.map .string .int) ⟨1, []⟩ false) ""
          (orderVarsSt [(.str "c", .int 3), (.str "a", .int 1), (.str "b", .int 2)]) =
        .ok none t2 ∧
      s2.read ⟨0, []⟩ = some (.map (some id2)) ∧ t2.read ⟨0, []⟩ = some (.map (some id3)) ∧
      s2.maps[id2]? = some res ∧ t2.maps[id3]? = some res2 ∧
      ∀ k, lookupKey k res = lookupKey k res2 :=
  key_order_independence [] (New [] []) 0 .string .int ⟨0, []⟩ ⟨1, []⟩ (some 0) (some 0) 1 1
    [(.str "b", .int 9)] [(.str "a", .int 1), (.str "b", .int 2), (.str "c", .int 3)]
    [(.str "c", .int 3), (.str "a", .int 1), (.str "b", .int 2)] ""
    (orderVarsSt [(.str "a", .int 1), (.str "b", .int 2), (.str "c", .int 3)])
    (orderVarsSt [(.str "c", .int 3), (.str "a", .int 1), (.str "b", .int 2)])
    rfl rfl (by decide) (by decide) (by decide) (by decide)
    (by intro did h; cases h; decide) (by intro did h; cases h; decide)
    (by decide) (by decide) (by decide) (by decide) (by decide) (by decide)
    (@List.perm_append_comm _ [(Key.str "c", Val.int 3)]
      [(Key.str "a", Val.int 1), (Key.str "b", Val.int 2)])
    (by decide)

/-- Overlay idempotence on scalar types and on flat records of scalars. -/
theorem Merge_idem (decls : Decls) (T : Ty) (a b : Val)
    (hT : T.isScalar = true ∨
      ∃ name, T = .struct name ∧ ∀ fd ∈ fieldsOf decls name, fd.exported = true ∧ fd.ty.isScalar = true)
    (ha : a.hasTy decls T = true) (hb : b.hasTy decls T = true) (fuel : Nat) (s : St) :
    ∃ (r : Val) (s1 : St), Merge decls T (fuel + 3) a b [] s = .ok (r, none) s1 ∧
      (∀ t : St, ∃ t2, Merge decls T (fuel + 3) r b [] t = .ok (r, none) t2) ∧
      (∀ t : St, ∃ t2, Merge decls T (fuel + 3) a a [] t = .ok (a, none) t2) := by
  rcases hT with hT | ⟨name, rfl, hfields⟩
  · obtain ⟨s1, h1⟩ := Merge_scalar decls (New decls []) rfl rfl T hT a b (fuel + 1) s
    refine ⟨pick a b, s1, h1, ?_, ?_⟩
    · intro t
      obtain ⟨t2, h2⟩ := Merge_scalar decls (New decls []) rfl rfl T hT (pick a b) b (fuel + 1) t
      exact ⟨t2, by rw [Merge, h2, pick_pick]⟩
    · intro t
      obtain ⟨t2, h2⟩ := Merge_scalar decls (New decls []) rfl rfl T hT a a (fuel + 1) t
      exact ⟨t2, by rw [Merge, h2, pick_self]⟩
  · obtain ⟨as, rfl, has⟩ := hasTy_struct decls a name ha
    obtain ⟨bs, rfl, hbs⟩ := hasTy_struct decls b name hb
    have hal : as.length = (fieldsOf decls name).length := by
      simpa using fieldsHaveTy_length decls as _ has
    have hbl : bs.length = (fieldsOf decls name).length := by
      simpa using fieldsHaveTy_length decls bs _ hbs
    obtain ⟨s1, h1⟩ := Merge_flat_pair decls name hfields as bs hal hbl fuel s
    refine ⟨_, s1, h1, ?_, ?_⟩
    · intro t
      obtain ⟨t2, h2⟩ := Merge_flat_pair decls name hfields (List.zipWith pick as bs) bs
        (by simp [hal, hbl]) hbl fuel t
      exact ⟨t2, by rw [h2, zipWith_pick_idem]⟩
    · intro t
      obtain ⟨t2, h2⟩ := Merge_flat_pair decls name hfields as as hal hal fuel t
      exact ⟨t2, by rw [h2, zipWith_pick_self]⟩

/-- The loop of the map handler for a scalar element type leaves the source alone. -/
theorem forEach_mapKeys_full (decls : Decls) (m : merge) (hm : m.defaultMerge = defaultDefaultFunc)
    (fuel : Nat) (kty ety : Ty) (hety : ety.isScalar = true) (dl sl : Loc) (did sid : Nat)
    (hne : did ≠ sid) (ses : List (Key × Val)) (p : String)
    (hty : ∀ e ∈ ses, e.2.hasTy decls ety = true) :
    ∀ (ks : List Key) (cur : List (Key × Val)) (s : St),
      (∀ k ∈ ks, k ∈ ses.map Prod.fst) →
      s.read dl = some (.map (some did)) → s.read sl = some (.map (some sid)) →
      s.maps[did]? = some cur → s.maps[sid]? = some ses →
      ∃ s2, forEach (mapKeyStep decls (m.deepMerge (fuel + 1)) (.lval (.map kty ety) dl false)
            (.lval (.map kty ety) sl false) ety p) ks s = .ok none s2 ∧
        s2.read dl = some (.map (some did)) ∧
        s2.maps[did]? = some (unionKeep ses cur ks) ∧
        s2.read sl = some (.map (some sid)) ∧ s2.maps[sid]? = some ses := by
  intro ks
  induction ks with
  | nil =>
    intro cur s _ hd hs hcur hses
    exact ⟨s, rfl, hd, hcur, hs, hses⟩
  | cons k ks ih =>
    intro cur s hks hd hs hcur hses
    obtain ⟨v, hkv, hmem⟩ := lookupKey_mem k ses (hks k (List.mem_cons_self _ _))
    have hv := hty _ hmem
    have hstep := mapKeyStep_scalar decls m hm fuel kty ety hety dl sl did sid cur ses k v p s
      hd hs hcur hses hkv hv
    have hdlt := read_lt s dl _ hd
    have hslt := read_lt s sl _ hs
    have hdid : did < s.maps.length := by
      by_contra hcon
      rw [List.getElem?_eq_none (Nat.le_of_not_lt hcon)] at hcur
      cases hcur
    simp only [forEach, M_bind_apply, hstep, unionKeep, hkv]
    cases hc : lookupKey k cur with
    | some v0 =>
      exact ih cur s (fun k2 h2 => hks k2 (List.mem_cons_of_mem _ h2)) hd hs hcur hses
    | none =>
      exact ih (upsertKey k v cur) ((s.push v).setMap did (upsertKey k v cur))
        (fun k2 h2 => hks k2 (List.mem_cons_of_mem _ h2))
        (by rw [read_setMap, read_push_old s _ dl hdlt]; exact hd)
        (by rw [read_setMap, read_push_old s _ sl hslt]; exact hs)
        (setMap_maps_same _ did _ (by simpa using hdid))
        (by rw [setMap_maps_other _ did sid _ (Ne.symm hne)]; exact hses)

/-- The loop of the map handler over keys the destination already holds changes nothing. -/
theorem forEach_mapKeys_present (decls : Decls) (m : merge)
    (hm : m.defaultMerge = defaultDefaultFunc)
    (fuel : Nat) (kty ety : Ty) (hety : ety.isScalar = true) (dl sl : Loc) (did sid : Nat)
    (cur ses : List (Key × Val)) (p : String) (hty : ∀ e ∈ ses, e.2.hasTy decls ety = true)
    (s : St) (hd : s.read dl = some (.map (some did))) (hs : s.read sl = some (.map (some sid)))
    (hcur : s.maps[did]? = some cur) (hses : s.maps[sid]? = some ses) :
    ∀ (ks : List Key), (∀ k ∈ ks, k ∈ ses.map Prod.fst ∧ (lookupKey k cur).isSome = true) →
      forEach (mapKeyStep decls (m.deepMerge (fuel + 1)) (.lval (.map kty ety) dl false)
        (.lval (.map kty ety) sl false) ety p) ks s = .ok none s := by
  intro ks
  induction ks with
  | nil => intro _; rfl
  | cons k ks ih =>
    intro hks
    obtain ⟨hin, hpr⟩ := hks k (List.mem_cons_self _ _)
    obtain ⟨v, hkv, hmem⟩ := lookupKey_mem k ses hin
    have hstep := mapKeyStep_scalar decls m hm fuel kty ety hety dl sl did sid cur ses k v p s
      hd hs hcur hses hkv (hty _ hmem)
    cases hc : lookupKey k cur with
    | none => simp [hc] at hpr
    | some v0 =>
      simp only [forEach, M_bind_apply, hstep, hc]
      exact ih (fun k2 h2 => hks k2 (List.mem_cons_of_mem _ h2))

/-- The default map handler on a destination that already holds every key of the source
changes nothing. -/
theorem defaultMapFunc_present (decls : Decls) (m : merge)
    (hm : m.defaultMerge = defaultDefaultFunc)
    (fuel : Nat) (kty ety : Ty) (hety : ety.isScalar = true) (dl sl : Loc) (did sid : Nat)
    (cur ses : List (Key × Val)) (p : String) (hty : ∀ e ∈ ses, e.2.hasTy decls ety = true)
    (s : St) (hd : s.read dl = some (.map (some did))) (hs : s.read sl = some (.map (some sid)))
    (hcur : s.maps[did]? = some cur) (hses : s.maps[sid]? = some ses)
    (hall : ∀ k ∈ ses.map Prod.fst, (lookupKey k cur).isSome = true) :
    defaultMapFunc decls (m.deepMerge (fuel + 1)) (.lval (.map kty ety) dl false)
      (.lval (.map kty ety) sl false) p s = .ok none s := by
  have h1 := forEach_mapKeys_present decls m hm fuel kty ety hety dl sl did sid cur ses p hty s
    hd hs hcur hses (ses.map Prod.fst) (fun k hk => ⟨hk, hall k hk⟩)
  simp [defaultMapFunc, RV.Type, RV.IsNil, RV.load, readLoc_of_read hd, readLoc_of_read hs,
    Ty.Elem, RV.MapKeys, readMap, hses, h1]

theorem unionKeep_has_keys (ses des : List (Key × Val)) :
    ∀ k ∈ ses.map Prod.fst, (lookupKey k (unionKeep ses des (ses.map Prod.fst))).isSome = true := by
  intro k hk
  obtain ⟨v, hv, _⟩ := lookupKey_mem k ses hk
  rw [lookupKey_unionKeep_keys, hv]
  cases lookupKey k des <;> rfl

/-- The default map handler run twice on two map variables with scalar values: the second
run changes nothing. -/
theorem defaultMapFunc_twice (decls : Decls) (m : merge) (hm : m.defaultMerge = defaultDefaultFunc)
    (fuel : Nat) (kty ety : Ty) (hety : ety.isScalar = true) (dl sl : Loc) (dmid : Option Nat)
    (sid : Nat) (des ses : List (Key × Val)) (p : String) (s : St)
    (hd : s.read dl = some (.map dmid))
    (hnil : dmid = none → des = [])
    (hdes : ∀ did, dmid = some did → s.maps[did]? = some des)
    (hs : s.read sl = some (.map (some sid))) (hses : s.maps[sid]? = some ses)
    (hblk : dmid = none → dl.block ≠ sl.block)
    (hty : ∀ e ∈ ses, e.2.hasTy decls ety = true) :
    ∃ s2, defaultMapFunc decls (m.deepMerge (fuel + 1)) (.lval (.map kty ety) dl false)
          (.lval (.map kty ety) sl false) p s = .ok none s2 ∧
      defaultMapFunc decls (m.deepMerge (fuel + 1)) (.lval (.map kty ety) dl false)
          (.lval (.map kty ety) sl false) p s2 = .ok none s2 := by
  cases dmid with
  | some did =>
    have hcur := hdes did rfl
    by_cases hne : did = sid
    · subst hne
      have hds : des = ses := by
        rw [hcur] at hses
        exact Option.some.inj hses
      subst hds
      have h1 := defaultMapFunc_present decls m hm fuel kty ety hety dl sl did did des des p hty s
        hd hs hcur hcur (fun k hk => by
          obtain ⟨v, hv, _⟩ := lookupKey_mem k des hk
          simp [hv])
      exact ⟨s, h1, h1⟩
    · obtain ⟨s2, h1, h2, h3, h4, h5⟩ := forEach_mapKeys_full decls m hm fuel kty ety hety dl sl
        did sid hne ses p hty (ses.map Prod.fst) des s (fun k hk => hk) hd hs hcur hses
      refine ⟨s2, ?_, ?_⟩
      · simp [defaultMapFunc, RV.Type, RV.IsNil, RV.load, readLoc_of_read hd, readLoc_of_read hs,
          Ty.Elem, RV.MapKeys, readMap, hses, h1]
      · exact defaultMapFunc_present decls m hm fuel kty ety hety dl sl did sid _ ses p hty s2
          h2 h4 h3 h5 (unionKeep_has_keys ses des)
  | none =>
    have hnil2 := hnil rfl
    have hblk := hblk rfl
    subst hnil2
    have hsid : sid < s.maps.length := by
      by_contra hcon
      rw [List.getElem?_eq_none (Nat.le_of_not_lt hcon)] at hses
      cases hses
    obtain ⟨s1, hw, hr1, hfr, hmaps, _, _⟩ := write_of_read s.pushMap dl _ (.map (some s.maps.length))
      (by rw [read_pushMap]; exact hd)
    have hs1 : s1.read sl = some (.map (some sid)) := by
      rw [hfr sl (Ne.symm hblk), read_pushMap]; exact hs
    have hnew : s1.maps[s.maps.length]? = some [] := by
      rw [hmaps]; simp [St.pushMap]
    have hses1 : s1.maps[sid]? = some ses := by
      rw [hmaps]; simp [St.pushMap, List.getElem?_append_left hsid, hses]
    obtain ⟨s2, h1, h2, h3, h4, h5⟩ := forEach_mapKeys_full decls m hm fuel kty ety hety dl sl
      s.maps.length sid (Nat.ne_of_gt hsid) ses p hty (ses.map Prod.fst) [] s1 (fun k hk => hk)
      hr1 hs1 hnew hses1
    refine ⟨s2, ?_, ?_⟩
    · simp [defaultMapFunc, RV.Type, RV.IsNil, RV.load, readLoc_of_read hd, readLoc_of_read hs, Ty.Elem,
        RV.Len, readMap, hses, MakeMapWithSize, allocMap, RV.Set, RV.isRO, writeLoc_of_write hw,
        RV.MapKeys, readLoc_of_read hs1, hses1, h1]
    · exact defaultMapFunc_present decls m hm fuel kty ety hety dl sl s.maps.length sid _ ses p
        hty s2 h2 h4 h3 h5 (unionKeep_has_keys ses [])

theorem overlayCells_idem (ss : List Val) (off n : Nat) (cells : List Val)
    (hc : off + n ≤ cells.length) (hs : n ≤ ss.length) :
    overlayCells ss off 0 n (overlayCells ss off 0 n cells) = overlayCells ss off 0 n cells := by
  apply List.ext_getElem?
  intro j
  rw [overlayCells_get ss off n 0 _ j (by rw [overlayCells_length]; omega) (by omega),
    overlayCells_get ss off n 0 cells j (by omega) (by omega)]
  by_cases hj : off + 0 ≤ j ∧ j < off + 0 + n
  · simp only [hj, and_self, if_true]
    have h1 : j < cells.length := by omega
    have h2 : j - off < ss.length := by omega
    rw [List.getElem?_eq_getElem h1, List.getElem?_eq_getElem h2]
    simp only [pick_pick]
  · simp only [hj, if_false]

/-- The default slice handler run twice on two slice variables with scalar elements and
separate backing arrays: the second run changes nothing. -/
theorem defaultSliceFunc_twice (decls : Decls) (m : merge) (hm : m.defaultMerge = defaultDefaultFunc)
    (fuel : Nat) (ety : Ty) (hety : ety.isScalar = true) (dl sl : Loc) (dmh : Option SliceHdr)
    (sh : SliceHdr) (dcells scells : List Val) (p : String) (s : St)
    (hd : s.read dl = some (.slice dmh)) (hs : s.read sl = some (.slice (some sh)))
    (hpos : 0 < sh.len)
    (hS : s.objs[sh.block]? = some (.array scells)) (hsb : sh.off + sh.len ≤ scells.length)
    (hdst : ∀ dh, dmh = some dh →
      s.objs[dh.block]? = some (.array dcells) ∧ dh.len ≤ dh.cap ∧
        dh.off + dh.cap ≤ dcells.length ∧ dh.block ≠ sh.block ∧ dl.block ≠ dh.block ∧
        sl.block ≠ dh.block)
    (hsep : dl.block ≠ sl.block ∧ dl.block ≠ sh.block) :
    ∃ s2, defaultSliceFunc decls (m.deepMerge (fuel + 1)) (.lval (.slice ety) dl false)
          (.lval (.slice ety) sl false) p s = .ok none s2 ∧
      defaultSliceFunc decls (m.deepMerge (fuel + 1)) (.lval (.slice ety) dl false)
          (.lval (.slice ety) sl false) p s2 = .ok none s2 := by
  obtain ⟨s1, h1, c1, r1, r2, r3, r4, r5, r6, r7, r8, r9, r10, r11⟩ :=
    sliceGrow_spec decls ety dl sl dmh sh dcells scells s hd hs hS hdst hsep
  have hloop := forEach_slice m hm fuel ety hety dl sl h1 sh scells p r9 r10 r11 hsb sh.len 0 c1 s1
    (by omega) (by omega) r6 r2 r3 r4 r5
  rw [← List.range_eq_range'] at hloop
  have hblt : h1.block < s1.objs.length := by
    by_contra hcon
    rw [List.getElem?_eq_none (Nat.le_of_not_lt hcon)] at r4
    cases r4
  have q2 : (s1.setObj h1.block
      (.array (overlayCells ((scells.drop sh.off).take sh.len) h1.off 0 sh.len c1))).read dl =
      some (.slice (some h1)) := by
    rw [read_setObj_other _ _ _ _ r10]; exact r2
  have q3 : (s1.setObj h1.block
      (.array (overlayCells ((scells.drop sh.off).take sh.len) h1.off 0 sh.len c1))).read sl =
      some (.slice (some sh)) := by
    rw [read_setObj_other _ _ _ _ r11]; exact r3
  have q4 := setObj_objs_same s1 h1.block
    (.array (overlayCells ((scells.drop sh.off).take sh.len) h1.off 0 sh.len c1)) hblt
  have q5 : (s1.setObj h1.block
      (.array (overlayCells ((scells.drop sh.off).take sh.len) h1.off 0 sh.len c1))).objs[sh.block]? =
      some (.array scells) := by
    rw [setObj_objs_other s1 _ _ _ (Ne.symm r9)]; exact r5
  have hloop2 := forEach_slice m hm fuel ety hety dl sl h1 sh scells p r9 r10 r11 hsb sh.len 0
    (overlayCells ((scells.drop sh.off).take sh.len) h1.off 0 sh.len c1) _
    (by omega) (by omega) (by rw [overlayCells_length]; exact r6) q2 q3 q4 q5
  rw [← List.range_eq_range', overlayCells_idem _ _ _ _ (by omega)
    (by simp; omega), setObj_self _ _ _ q4] at hloop2
  have hgrow := sliceGrow_fits decls ety dl h1 sh.len _ q2 r7
  refine ⟨s1.setObj h1.block
    (.array (overlayCells ((scells.drop sh.off).take sh.len) h1.off 0 sh.len c1)), ?_, ?_⟩
  · simp [defaultSliceFunc, RV.Len, RV.Type, RV.load, readLoc_of_read hs, hpos, r1, hloop]
  · simp [defaultSliceFunc, RV.Len, RV.Type, RV.load, readLoc_of_read q3, hpos, hgrow, hloop2]

/-- C19 (counterexample): `a = Pair{P: y, Q: x}` and `b = Pair{P: x, Q: z}` share the record
`x`, with `*y = Leaf{1}`, `*x = Leaf{0}`, `*z = Leaf{3}`.  `Merge(a, b)` returns `r` with
`*r.P = Leaf{1}`, `*r.Q = Leaf{3}`: the empty `*x` is skipped as a source and then filled as a
destination.  `Merge(r, b)` finds `*x = Leaf{3}` as a source and returns a value with
`*P = Leaf{3}`. -/
theorem overlay_idempotence_counterexample :
    observe 4 (Merge sharedDecls (.struct "Pair") 8
        (.struct [.ptr (some ⟨0, []⟩), .ptr (some ⟨1, []⟩)])
        (.struct [.ptr (some ⟨1, []⟩), .ptr (some ⟨2, []⟩)]) [] crossSt) =
      some (.record [.ref (.record [.scalar (.int 1)]), .ref (.record [.scalar (.int 3)])],
        none) ∧
    observe 4 (MergeNested sharedDecls (.struct "Pair") 8
        (.struct [.ptr (some ⟨0, []⟩), .ptr (some ⟨1, []⟩)])
        (.struct [.ptr (some ⟨1, []⟩), .ptr (some ⟨2, []⟩)])
        (.struct [.ptr (some ⟨1, []⟩), .ptr (some ⟨2, []⟩)]) crossSt) =
      some (.record [.ref (.record [.scalar (.int 3)]), .ref (.record [.scalar (.int 3)])],
        none) := by
  constructor <;> decide!

/-- C19 (amended): overlay idempotence where operands share no memory.  (1) For every scalar
type and every record type whose fields are all exported scalars, and all values `a`, `b`
of the type, `Merge(a, b)` returns a value `r` and no error, `Merge(r, b)` returns `r` and no
error from any memory, and `Merge(a, a)` returns `a` and no error.  (2) The default map
handler on two map variables with scalar values succeeds, and run again on the memory it
left it succeeds and changes nothing.  (3) The same for the default slice handler on two
slice variables with scalar elements and separate backing arrays. -/
theorem overlay_idempotence (decls : Decls) :
    (∀ (T : Ty) (a b : Val),
      (T.isScalar = true ∨ ∃ name, T = .struct name ∧
        ∀ fd ∈ fieldsOf decls name, fd.exported = true ∧ fd.ty.isScalar = true) →
      a.hasTy decls T = true → b.hasTy decls T = true → ∀ (fuel : Nat) (s : St),
      ∃ (r : Val) (s1 : St), Merge decls T (fuel + 3) a b [] s = .ok (r, none) s1 ∧
        (∀ t : St, ∃ t2, Merge decls T (fuel + 3) r b [] t = .ok (r, none) t2) ∧
        (∀ t : St, ∃ t2, Merge decls T (fuel + 3) a a [] t = .ok (a, none) t2)) ∧
    (∀ (m : merge) (fuel : Nat) (kty ety : Ty) (dl sl : Loc) (dmid : Option Nat) (sid : Nat)
        (des ses : List (Key × Val)) (p : String) (s : St),
      m.defaultMerge = defaultDefaultFunc → ety.isScalar = true →
      s.read dl = some (.map dmid) → (dmid = none → des = []) →
      (∀ did, dmid = some did → s.maps[did]? = some des) →
      s.read sl = some (.map (some sid)) → s.maps[sid]? = some ses →
      (dmid = none → dl.block ≠ sl.block) →
      (∀ e ∈ ses, e.2.hasTy decls ety = true) →
      ∃ s2, defaultMapFunc decls (m.deepMerge (fuel + 1)) (.lval (.map kty ety) dl false)
            (.lval (.map kty ety) sl false) p s = .ok none s2 ∧
        defaultMapFunc decls (m.deepMerge (fuel + 1)) (.lval (.map kty ety) dl false)
            (.lval (.map kty ety) sl false) p s2 = .ok none s2) ∧
    (∀ (m : merge) (fuel : Nat) (ety : Ty) (dl sl : Loc) (dmh : Option SliceHdr) (sh : SliceHdr)
        (dcells scells : List Val) (p : String) (s : St),
      m.defaultMerge = defaultDefaultFunc → ety.isScalar = true →
      s.read dl = some (.slice dmh) → s.read sl = some (.slice (some sh)) → 0 < sh.len →
      s.objs[sh.block]? = some (.array scells) → sh.off + sh.len ≤ scells.length →
      (∀ dh, dmh = some dh →
        s.objs[dh.block]? = some (.array dcells) ∧ dh.len ≤ dh.cap ∧
          dh.off + dh.cap ≤ dcells.length ∧ dh.block ≠ sh.block ∧ dl.block ≠ dh.block ∧
          sl.block ≠ dh.block) →
      (dl.block ≠ sl.block ∧ dl.block ≠ sh.block) →
      ∃ s2, defaultSliceFunc decls (m.deepMerge (fuel + 1)) (.lval (.slice ety) dl false)
            (.lval (.slice ety) sl false) p s = .ok none s2 ∧
        defaultSliceFunc decls (m.deepMerge (fuel + 1)) (.lval (.slice ety) dl false)
            (.lval (.slice ety) sl false) p s2 = .ok none s2) := by
  refine ⟨?_, ?_, ?_⟩
  · intro T a b hT ha hb fuel s
    exact Merge_idem decls T a b hT ha hb fuel s
  · intro m fuel kty ety dl sl dmid sid des ses p s hm hety hd hnil hdes hs hses hblk hty
    exact defaultMapFunc_twice decls m hm fuel kty ety hety dl sl dmid sid des ses p s hd hnil hdes
      hs hses hblk hty
  · intro m fuel ety dl sl dmh sh dcells scells p s hm hety hd hs hpos hS hsb hdst hsep
    exact defaultSliceFunc_twice decls m hm fuel ety hety dl sl dmh sh dcells scells p s hd hs hpos
      hS hsb hdst hsep

/-- Witness for C19 (amended): two operands of the record type `Conf`, the map variables of
`conflictVarsSt` and the slice variables of `sliceVarsSt`. -/
theorem overlay_idempotence_witness :
    (∃ (r : Val) (s1 : St),
      Merge flatDecls (.struct "Conf") (0 + 3) (.struct [.str "a", .int 0, .bool false, .nilIface])
        (.struct [.str "", .int 8080, .bool true, .nilIface]) [] ⟨[], [], []⟩ = .ok (r, none) s1 ∧
      (∀ t : St, ∃ t2, Merge flatDecls (.struct "Conf") (0 + 3) r
        (.struct [.str "", .int 8080, .bool true, .nilIface]) [] t = .ok (r, none) t2) ∧
      (∀ t : St, ∃ t2, Merge flatDecls (.struct "Conf") (0 + 3)
        (.struct [.str "a", .int 0, .bool false, .nilIface])
        (.struct [.str "a", .int 0, .bool false, .nilIface]) [] t =
          .ok (.struct [.str "a", .int 0, .bool false, .nilIface], none) t2)) ∧
    (∃ s2, defaultMapFunc [] ((New [] []).deepMerge (0 + 1)) (.lval (.map .string .int) ⟨0, []⟩ false)
          (.lval (.map .string .int) ⟨1, []⟩ false) "" conflictVarsSt = .ok none s2 ∧
        defaultMapFunc [] ((New [] []).deepMerge (0 + 1)) (.lval (.map .string .int) ⟨0, []⟩ false)
          (.lval (.map .string .int) ⟨1, []⟩ false) "" s2 = .ok none s2) ∧
    (∃ s2, defaultSliceFunc [] ((New [] []).deepMerge (0 + 1)) (.lval (.slice .int) ⟨0, []⟩ false)
          (.lval (.slice .int) ⟨1, []⟩ false) "" sliceVarsSt = .ok none s2 ∧
        defaultSliceFunc [] ((New [] []).deepMerge (0 + 1)) (.lval (.slice .int) ⟨0, []⟩ false)
          (.lval (.slice .int) ⟨1, []⟩ false) "" s2 = .ok none s2) :=
  ⟨(overlay_idempotence flatDecls).1 (.struct "Conf") _ _ (Or.inr ⟨"Conf", rfl, by decide⟩)
      (by decide) (by decide) 0 ⟨[], [], []⟩,
    (overlay_idempotence []).2.1 (New [] []) 0 .string .int ⟨0, []⟩ ⟨1, []⟩ (some 0) 1
      [(.str "b", .int 9), (.str "c", .int 3)] [(.str "a", .int 1), (.str "b", .int 2)] ""
      conflictVarsSt rfl rfl (by decide) (by decide) (by intro did h; cases h; decide) (by decide)
      (by decide) (by decide) (by decide),
    (overlay_idempotence []).2.2 (New [] []) 0 .int ⟨0, []⟩ ⟨1, []⟩ (some ⟨2, 0, 1, 3⟩) ⟨3, 0, 3, 3⟩
      [.int 1, .int 7, .int 8] [.int 0, .int 5, .int 6] "" sliceVarsSt rfl rfl (by decide)
      (by decide) (by decide) (by decide) (by decide) (by intro dh h; cases h; decide)
      (by decide)⟩

/-- C1: the end-to-end scenario of the demonstration program.  `Merge(person1, person2)`
returns no error and a pointer whose referent, unfolded, is
`{Name:"Bob", Age:30, Address:{Hobbies:["Swimming"], Friends:{"Tom":"Neighbor"}, Active:true},
IsAlive:true, Extra:"Extra Data"}`. -/
theorem example_scenario :
    observe 6 (Merge exampleDecls (.ptr (.struct "Person")) 8 person1 person2 [] exampleSt) =
      some (.ref (.record
        [.scalar (.str "Bob"),
         .scalar (.int 30),
         .ref (.record
           [.seq [.scalar (.str "Swimming")],
            .dict [.str "Tom"] [.scalar (.str "Neighbor")],
            .scalar (.bool true)]),
         .scalar (.bool true),
         .boxed .string (.scalar (.str "Extra Data"))]), none) := by
  decide!

end GoMerge
